import Mathlib

/-! RTRlib prefix table (`rtrlib/pfx/lpfst/lpfst-pfx.c`)

A shallow embedding of the prefix origin store of RTRlib.  The functions of
`lpfst-pfx.c` are translated from the C source.  The trie primitives
(`lpfst_lookup`, `lpfst_lookup_exact`, `lpfst_insert`, `lpfst_remove`) and the
address helpers live in other files of the repository; they are modelled from
the specification and marked as such.

Pointers into the trie are modelled as paths from the root (`false` = `lchild`,
`true` = `rchild`); the `parent` back-reference is the path with its last step
dropped.  `none` as the outcome of an operation stands for an execution that
leaves the defined behaviour of the C program (a failed `assert`); for a trie
primitive that returns a pointer it is the null result.  Allocation is assumed to
succeed in the functions on lists; the variants named `_raw` and `_alloc` take
the outcome of each allocation as an argument and carry the lock.

What the trie primitives build is decided in the missing file.  The general
statements below do not depend on where `lpfst_insert` puts a node or which
child `lpfst_remove` promotes: those on the records and the record lists hold
for all stores, those on the two lookups are made for tries with the bit
discipline of the specification (`lpfst_node.shaped`).  The concrete stores of
the examples are the ones the modelled primitives build.
-/

namespace Rtrlib

/-! ## Data model -/

inductive ip_version
  | IPV4
  | IPV6
deriving DecidableEq, Repr

/-- Address width in bits: 32 for IPv4, 128 for IPv6. -/
def ip_version.width : ip_version → Nat
  | .IPV4 => 32
  | .IPV6 => 128

/-- Modelled from the spec: `IpAddress`, an opaque value with a version and a
bit accessor; the address is kept as a natural number, most significant bit
first, and equality is equality of version and number. -/
structure ip_addr where
  ver : ip_version
  addr : Nat
deriving DecidableEq, Repr

/-- Modelled from the spec: `bit(i)` of an `IpAddress` (this is
`ip_addr_get_bits(a, i, 1)` of the source, which is tested against zero);
bit 0 is the most significant bit, positions beyond the width read as 0. -/
def ip_addr.bit (a : ip_addr) (i : Nat) : Nat :=
  if i < a.ver.width then (a.addr / 2 ^ (a.ver.width - 1 - i)) % 2 else 0

/-- Modelled from the spec: "the first `n` bits match", the comparison of
`ip_addr_get_bits(a, 0, n)` with `ip_addr_get_bits(b, 0, n)`. -/
def ip_addr.first_bits_eq (a b : ip_addr) (n : Nat) : Bool :=
  (List.range n).all (fun i => a.bit i == b.bit i)

/-- The stored form of an authorization inside a trie node (`data_elem`). -/
structure data_elem where
  asn : Nat
  max_len : Nat
  socket_id : Nat
deriving DecidableEq, Repr

/-- The external record (`pfx_record`); `pfx` is the field `prefix` of the
source. -/
structure pfx_record where
  asn : Nat
  pfx : ip_addr
  min_len : Nat
  max_len : Nat
  socket_id : Nat
deriving DecidableEq, Repr

/-- A trie: `nil` is the null pointer, `node` carries the payload
(`prefix`, `len`, `data`) and the two children.  `data` is the `node_data`
array of the source, as a list (`len` of `node_data` is its length). -/
inductive lpfst_node
  | nil
  | node (pfx : ip_addr) (len : Nat) (data : List data_elem) (lchild rchild : lpfst_node)
deriving DecidableEq, Repr

/-- The store: two tries and whether an update callback is registered
(`update_fp != NULL`). -/
structure pfx_table where
  ipv4 : lpfst_node
  ipv6 : lpfst_node
  update_fp : Bool
deriving DecidableEq, Repr

inductive pfx_rtvals
  | PFX_SUCCESS
  | PFX_ERROR
  | PFX_DUPLICATE_RECORD
  | PFX_RECORD_NOT_FOUND
deriving DecidableEq, Repr

inductive pfxv_state
  | BGP_PFXV_STATE_VALID
  | BGP_PFXV_STATE_NOT_FOUND
  | BGP_PFXV_STATE_INVALID
deriving DecidableEq, Repr

/-- One invocation of the update callback: the record and the `added` flag. -/
abbrev update_call := pfx_record × Bool

/-! ## Trie primitives -/

/-- A null pointer test. -/
def lpfst_node.isNull : lpfst_node → Bool
  | .nil => true
  | .node _ _ _ _ _ => false

/-- The subtree a path points at (`nil` when the path leaves the trie). -/
def lpfst_node.sub : lpfst_node → List Bool → lpfst_node
  | t, [] => t
  | .nil, _ :: _ => .nil
  | .node _ _ _ lc rc, b :: q => if b then rc.sub q else lc.sub q

/-- The `data` of a node (`[]` for the null pointer). -/
def lpfst_node.getData : lpfst_node → List data_elem
  | .nil => []
  | .node _ _ d _ _ => d

/-- The `len` of a node (0 for the null pointer). -/
def lpfst_node.getLen : lpfst_node → Nat
  | .nil => 0
  | .node _ l _ _ _ => l

/-- Replaces the subtree a path points at. -/
def lpfst_node.replace : lpfst_node → List Bool → lpfst_node → lpfst_node
  | _, [], s => s
  | .nil, _ :: _, _ => .nil
  | .node p l d lc rc, b :: q, s =>
    if b then .node p l d lc (rc.replace q s) else .node p l d (lc.replace q s) rc

/-- Overwrites the `data` of the node a path points at. -/
def lpfst_node.setData : lpfst_node → List Bool → List data_elem → lpfst_node
  | .nil, _, _ => .nil
  | .node p l _ lc rc, [], d => .node p l d lc rc
  | .node p l d lc rc, b :: q, e =>
    if b then .node p l d lc (rc.setData q e) else .node p l d (lc.setData q e) rc

/-- Modelled from the spec: `lookup_longest(root, prefix, query_len)`, the
missing `lpfst_lookup`.  It walks down from `root` by `prefix.bit(level)` and
returns the first node met whose `(prefix, len)` is a prefix of the query
(`len ≤ query_len` and the first `len` bits match) together with its level,
`none` when the walk runs off the trie.  The result is the node itself, with
the subtree below it.  Under the longest-first order of `insert` the first
covering node met is the longest match on the walk; this is the node the
loop of `pfx_table_validate` starts from and then continues below (the source
goes on with `lpfst_lookup` on the child of the node returned, which can only
find a further covering node if the node returned is the topmost one), and
the reading under which the scenarios S1 to S5 of the spec come out as written
(`spec_scenarios`). -/
def lpfst_lookup : lpfst_node → ip_addr → Nat → Nat → Option (lpfst_node × Nat)
  | .nil, _, _, _ => none
  | .node p l d lc rc, pfx, mask_len, lvl =>
    if l ≤ mask_len ∧ p.first_bits_eq pfx l = true then some (.node p l d lc rc, lvl)
    else if pfx.bit lvl = 0 then lpfst_lookup lc pfx mask_len (lvl + 1)
    else lpfst_lookup rc pfx mask_len (lvl + 1)

/-- Modelled from the spec: `lookup_exact(root, prefix, len)`, the missing
`lpfst_lookup_exact`.  Result: the path of the node returned, the level, and
`found`.  At each visited node: a node with the same `(prefix, len)` is
returned as found; else, if `len ≤ level` or the child on the side of
`prefix.bit(level)` is null, the node is returned as the insertion point;
else the walk steps to that child.  On an empty trie no node is visited and
nothing is found. -/
def lpfst_lookup_exact : lpfst_node → ip_addr → Nat → Nat → List Bool × Nat × Bool
  | .nil, _, _, lvl => ([], lvl, false)
  | .node p l _ lc rc, pfx, len, lvl =>
    if p = pfx ∧ l = len then ([], lvl, true)
    else if len ≤ lvl then ([], lvl, false)
    else if pfx.bit lvl = 0 then
      if lc.isNull then ([], lvl, false)
      else
        let r := lpfst_lookup_exact lc pfx len (lvl + 1)
        (false :: r.1, r.2.1, r.2.2)
    else
      if rc.isNull then ([], lvl, false)
      else
        let r := lpfst_lookup_exact rc pfx len (lvl + 1)
        (true :: r.1, r.2.1, r.2.2)

/-- The heap step of `insert` at a node whose child on side `b` has the new
payload on top: when the child's `len` is larger than the node's, the two
payloads (`prefix`, `len`, `data`) are swapped and the new payload keeps
moving up (`true`); on a tie or a smaller `len` nothing moves. -/
def lpfst_swap_up (b : Bool) : lpfst_node → lpfst_node × Bool
  | .nil => (.nil, false)
  | .node p l d lc rc =>
    if b then
      match rc with
      | .nil => (.node p l d lc rc, false)
      | .node cp cl cd clc crc =>
        if cl > l then (.node cp cl cd lc (.node p l d clc crc), true)
        else (.node p l d lc rc, false)
    else
      match lc with
      | .nil => (.node p l d lc rc, false)
      | .node cp cl cd clc crc =>
        if cl > l then (.node cp cl cd (.node p l d clc crc) rc, true)
        else (.node p l d lc rc, false)

/-- The descent of `insert` below a node and the way back: the new node goes
to the side of `new_node.prefix.bit(level)`; a null slot takes it, an occupied
side is descended one level down ("the caller must have descended there").
On the way back the new payload is swapped with the parent's while its `len`
is larger.  The flag says whether the payload is still moving. -/
def lpfst_insert_down : lpfst_node → lpfst_node → Nat → lpfst_node × Bool
  | .nil, new_node, _ => (new_node, true)
  | .node p l d lc rc, .nil, _ => (.node p l d lc rc, false)
  | .node p l d lc rc, .node np nl nd nlc nrc, lvl =>
    if np.bit lvl = 0 then
      let r := lpfst_insert_down lc (.node np nl nd nlc nrc) (lvl + 1)
      if r.2 then lpfst_swap_up false (.node p l d r.1 rc) else (.node p l d r.1 rc, false)
    else
      let r := lpfst_insert_down rc (.node np nl nd nlc nrc) (lvl + 1)
      if r.2 then lpfst_swap_up true (.node p l d lc r.1) else (.node p l d lc r.1, false)

/-- The walk of `lpfst_insert` from the root to the parent (given by its path)
and back: below the parent the new node is placed as `lpfst_insert_down` says,
above it the new payload keeps moving up while its `len` is larger than the
parent's.  The flag says whether the payload is still moving.  `none` when
the path leaves the trie or `new_node` is null. -/
def lpfst_insert_walk : lpfst_node → List Bool → lpfst_node → Nat → Option (lpfst_node × Bool)
  | .nil, _, _, _ => none
  | .node p l d lc rc, [], new_node, lvl =>
    match new_node with
    | .nil => none
    | .node _ _ _ _ _ => some (lpfst_insert_down (.node p l d lc rc) new_node lvl)
  | .node p l d lc rc, b :: q, new_node, lvl =>
    if b then
      match lpfst_insert_walk rc q new_node lvl with
      | none => none
      | some (rc', moving) =>
        if moving then some (lpfst_swap_up true (.node p l d lc rc'))
        else some (.node p l d lc rc', false)
    else
      match lpfst_insert_walk lc q new_node lvl with
      | none => none
      | some (lc', moving) =>
        if moving then some (lpfst_swap_up false (.node p l d lc' rc))
        else some (.node p l d lc' rc, false)

/-- Modelled from the spec: `insert(parent, new_node, level)`, the missing
`lpfst_insert`.  `parent` is given by its path in the trie `root`.  The new
node is attached under `parent` on the side of `new_node.prefix.bit(level)`.
The spec gives the call for a null slot and says of an occupied side that
"the caller must have descended there instead"; `pfx_table_add` calls it with
whatever `lpfst_lookup_exact` returns, also when that stopped at
`len ≤ level` above an occupied side, and goes on to return `PFX_SUCCESS`, so
in that case the descent goes on by the bits of the new prefix to the first
null slot.  After attachment the payload is swapped with the parent's while
`new_node.len > new_node.parent.len`. -/
def lpfst_insert (root : lpfst_node) (parent : List Bool) (new_node : lpfst_node)
    (level : Nat) : Option lpfst_node :=
  (lpfst_insert_walk root parent new_node level).map (fun r => r.1)

/-- The holder case of `remove`: a leaf is detached; otherwise the payload of
a child is moved into the holder and the child is the holder of the next
step.  The child is the non-null one, and with two children the one whose
`len` is larger (the left one on a tie, which the spec leaves open).
Result: the subtree that remains and the path of the node unlinked. -/
def lpfst_remove_holder : lpfst_node → lpfst_node × List Bool
  | .nil => (.nil, [])
  | .node _ _ _ .nil .nil => (.nil, [])
  | .node _ _ _ (.node cp cl cd clc crc) .nil =>
    let r := lpfst_remove_holder (.node cp cl cd clc crc)
    (.node cp cl cd r.1 .nil, false :: r.2)
  | .node _ _ _ .nil (.node cp cl cd clc crc) =>
    let r := lpfst_remove_holder (.node cp cl cd clc crc)
    (.node cp cl cd .nil r.1, true :: r.2)
  | .node _ _ _ (.node ap al ad alc arc) (.node bp bl bd blc brc) =>
    if al ≥ bl then
      let r := lpfst_remove_holder (.node ap al ad alc arc)
      (.node ap al ad r.1 (.node bp bl bd blc brc), false :: r.2)
    else
      let r := lpfst_remove_holder (.node bp bl bd blc brc)
      (.node bp bl bd (.node ap al ad alc arc) r.1, true :: r.2)

/-- Modelled from the spec: `remove(node, prefix, len, level)`, the missing
`lpfst_remove`.  It locates, from `node` downward by `prefix.bit(level)`, the
holder of `(prefix, len)` and unlinks a node as `lpfst_remove_holder` says.
Result: the subtree that remains at `node`, the path (from `node`) of the
physical node unlinked, and the `data` that node carries (the holder's, which
the payload moves hand down to it); `none` is the null result, when no
holder is found. -/
def lpfst_remove : lpfst_node → ip_addr → Nat → Nat →
    Option (lpfst_node × List Bool × List data_elem)
  | .nil, _, _, _ => none
  | .node p l d lc rc, pfx, len, lvl =>
    if p = pfx ∧ l = len then
      let r := lpfst_remove_holder (.node p l d lc rc)
      some (r.1, r.2, d)
    else if pfx.bit lvl = 0 then
      match lpfst_remove lc pfx len (lvl + 1) with
      | none => none
      | some r => some (.node p l d r.1 rc, false :: r.2.1, r.2.2)
    else
      match lpfst_remove rc pfx len (lvl + 1) with
      | none => none
      | some r => some (.node p l d lc r.1, true :: r.2.1, r.2.2)

/-- Height of a trie (0 for the null pointer). -/
def lpfst_node.height : lpfst_node → Nat
  | .nil => 0
  | .node _ _ _ lc rc => 1 + max lc.height rc.height

/-! ## The prefix table (`lpfst-pfx.c`) -/

/-- The callback is invoked when one is registered. -/
def pfx_table_notify_clients (t : pfx_table) (record : pfx_record) (added : Bool) :
    List update_call :=
  if t.update_fp then [(record, added)] else []

def pfx_table_init (update_fp : Bool) : pfx_table :=
  { ipv4 := .nil, ipv6 := .nil, update_fp := update_fp }

/-- The element stored for a record. -/
def pfx_record.elem (record : pfx_record) : data_elem :=
  { asn := record.asn, max_len := record.max_len, socket_id := record.socket_id }

/-- Grows the array by one and writes the record's element in the last place. -/
def pfx_table_append_elem (data : List data_elem) (record : pfx_record) : List data_elem :=
  data ++ [record.elem]

/-- A fresh node without children: the record's `prefix` and `min_len` and a
list holding the record's element. -/
def pfx_table_create_node (record : pfx_record) : lpfst_node :=
  .node record.pfx record.min_len (pfx_table_append_elem [] record) .nil .nil

/-- Index of the first element equal to the record on
`(asn, max_len, socket_id)`, `none` for the null result. -/
def pfx_table_find_elem : List data_elem → pfx_record → Option Nat
  | [], _ => none
  | e :: es, record =>
    if e.asn = record.asn ∧ e.max_len = record.max_len ∧ e.socket_id = record.socket_id
    then some 0
    else (pfx_table_find_elem es record).map (fun i => i + 1)

def pfx_table_get_root (t : pfx_table) (ver : ip_version) : lpfst_node :=
  if ver = .IPV4 then t.ipv4 else t.ipv6

/-- The assignment to `pfx_table->ipv4` or `pfx_table->ipv6` by version. -/
def pfx_table_set_root (t : pfx_table) (ver : ip_version) (root : lpfst_node) : pfx_table :=
  if ver = .IPV4 then { t with ipv4 := root } else { t with ipv6 := root }

/-- The loop `for i = index; i < len - 1; i++ : ary[i] = ary[i+1]`, with `n`
iterations left. -/
def pfx_table_del_elem_shift : Nat → Nat → List data_elem → List data_elem
  | 0, _, ary => ary
  | n + 1, i, ary =>
    match ary.get? (i + 1) with
    | some e => pfx_table_del_elem_shift n (i + 1) (ary.set i e)
    | none => ary

/-- Moves the elements behind `index` one place down (unless `index` is the
last one) and shrinks the array by one. -/
def pfx_table_del_elem (data : List data_elem) (index : Nat) : List data_elem :=
  let ary :=
    if index ≠ data.length - 1 then
      pfx_table_del_elem_shift (data.length - 1 - index) index data
    else data
  ary.take (data.length - 1)

def pfx_table_add (t : pfx_table) (record : pfx_record) :
    Option (pfx_rtvals × pfx_table × List update_call) :=
  let root := pfx_table_get_root t record.pfx.ver
  if root.isNull = false then
    let r := lpfst_lookup_exact root record.pfx record.min_len 0
    let node := r.1
    let lvl := r.2.1
    if r.2.2 then
      let data := (root.sub node).getData
      if (pfx_table_find_elem data record).isSome then
        some (.PFX_DUPLICATE_RECORD, t, [])
      else
        some (.PFX_SUCCESS,
          pfx_table_set_root t record.pfx.ver
            (root.setData node (pfx_table_append_elem data record)),
          pfx_table_notify_clients t record true)
    else
      match lpfst_insert root node (pfx_table_create_node record) lvl with
      | none => none
      | some root' =>
        some (.PFX_SUCCESS, pfx_table_set_root t record.pfx.ver root',
          pfx_table_notify_clients t record true)
  else
    some (.PFX_SUCCESS, pfx_table_set_root t record.pfx.ver (pfx_table_create_node record),
      pfx_table_notify_clients t record true)

/-- The removal of one record.  Note the third argument of `lpfst_remove`: the
source passes `root->len`.  The two `assert`s give `none` when they fail. -/
def pfx_table_remove (t : pfx_table) (record : pfx_record) :
    Option (pfx_rtvals × pfx_table × List update_call) :=
  let root := pfx_table_get_root t record.pfx.ver
  let r := lpfst_lookup_exact root record.pfx record.min_len 0
  let node := r.1
  let lvl := r.2.1
  if r.2.2 = false then some (.PFX_RECORD_NOT_FOUND, t, [])
  else
    match pfx_table_find_elem (root.sub node).getData record with
    | none => some (.PFX_RECORD_NOT_FOUND, t, [])
    | some index =>
      let ndata := pfx_table_del_elem (root.sub node).getData index
      let root1 := root.setData node ndata
      if ndata.length = 0 then
        match lpfst_remove (root1.sub node) record.pfx root.getLen lvl with
        | none => none
        | some (sub', rm, rdata) =>
          if rdata.length = 0 then
            some (.PFX_SUCCESS,
              pfx_table_set_root t record.pfx.ver
                (if node ++ rm = [] then .nil else root1.replace node sub'),
              pfx_table_notify_clients t record false)
          else none
      else
        some (.PFX_SUCCESS, pfx_table_set_root t record.pfx.ver root1,
          pfx_table_notify_clients t record false)

def pfx_table_elem_matches (data : List data_elem) (asn : Nat) (prefix_len : Nat) : Bool :=
  data.any (fun e => decide (e.asn ≠ 0 ∧ e.asn = asn ∧ prefix_len ≤ e.max_len))

/-- The `while` loop of `pfx_table_validate` from `node` at level `lvl`, with
a bound on the number of iterations; `none` when the bound is used up. -/
def pfx_table_validate_loop : Nat → lpfst_node → Nat → Nat → ip_addr → Nat → Option pfxv_state
  | 0, _, _, _, _, _ => none
  | fuel + 1, node, lvl, asn, pfx, prefix_len =>
    if pfx_table_elem_matches node.getData asn prefix_len then
      some .BGP_PFXV_STATE_VALID
    else
      let child := if pfx.bit lvl = 0 then node.sub [false] else node.sub [true]
      match lpfst_lookup child pfx prefix_len (lvl + 1) with
      | none => some .BGP_PFXV_STATE_INVALID
      | some (n, l) => pfx_table_validate_loop fuel n l asn pfx prefix_len

/-- The validation of `(asn, prefix, prefix_len)`: the return value and
`*result`.  The loop is run with the height of the trie as its bound. -/
def pfx_table_validate (t : pfx_table) (asn : Nat) (pfx : ip_addr) (prefix_len : Nat) :
    Option (pfx_rtvals × pfxv_state) :=
  let root := pfx_table_get_root t pfx.ver
  if root.isNull then some (.PFX_SUCCESS, .BGP_PFXV_STATE_NOT_FOUND)
  else
    match lpfst_lookup root pfx prefix_len 0 with
    | none => some (.PFX_SUCCESS, .BGP_PFXV_STATE_NOT_FOUND)
    | some (node, lvl) =>
      (pfx_table_validate_loop root.height node lvl asn pfx prefix_len).map
        (fun s => (.PFX_SUCCESS, s))

/-- Number of nodes of a trie. -/
def lpfst_node.size : lpfst_node → Nat
  | .nil => 0
  | .node _ _ _ lc rc => 1 + lc.size + rc.size

/-- The record `{ asn, node->prefix, node->len, max_len, socket_id }` that the
source builds from a node and one of its elements. -/
def data_elem.record (e : data_elem) (pfx : ip_addr) (len : Nat) : pfx_record :=
  { asn := e.asn, pfx := pfx, min_len := len, max_len := e.max_len, socket_id := e.socket_id }

/-- The scan of `pfx_table_remove_id` over the array of one node,
`for (i ...) while (len > i && ary[i].socket_id == socket_id) ...`, from index
`i` with `n` steps left: an element of the source is deleted at `i` and
reported, any other element moves `i` on.  Result: the array that remains and
the records deleted, in order. -/
def pfx_table_remove_id_scan : Nat → Nat → List data_elem → ip_addr → Nat → Nat →
    List data_elem × List pfx_record
  | 0, _, data, _, _, _ => (data, [])
  | n + 1, i, data, pfx, len, socket_id =>
    match data.get? i with
    | none => (data, [])
    | some e =>
      if e.socket_id = socket_id then
        let r := pfx_table_remove_id_scan n i (pfx_table_del_elem data i) pfx len socket_id
        (r.1, e.record pfx len :: r.2)
      else pfx_table_remove_id_scan n (i + 1) data pfx len socket_id

/-- The sweep of one node and the subtree below it, with a bound on the depth
of the calls (a repetition of the `while (check_node)` loop counts as a
call).  Result: the subtree that remains at `node` (`nil` when the node
itself was unlinked, which for the root is `*root = NULL`) and the callback
invocations.  `none`: a failed `assert` or the bound used up.  The return
value is `PFX_SUCCESS` on every path that does not fail on allocation. -/
def pfx_table_remove_id : Nat → pfx_table → lpfst_node → Nat → Nat →
    Option (lpfst_node × List update_call)
  | 0, _, _, _, _ => none
  | _ + 1, _, .nil, _, _ => none
  | fuel + 1, t, .node p l d lc rc, socket_id, level =>
    let sc := pfx_table_remove_id_scan d.length 0 d p l socket_id
    let notes := sc.2.flatMap (fun r => pfx_table_notify_clients t r false)
    if sc.1.length = 0 then
      match lpfst_remove (.node p l sc.1 lc rc) p l level with
      | none => none
      | some (sub', rm, rdata) =>
        if rdata.length = 0 then
          if rm = [] then some (.nil, notes)
          else
            match pfx_table_remove_id fuel t sub' socket_id level with
            | none => none
            | some (sub'', notes') => some (sub'', notes ++ notes')
        else none
    else
      match (if lc.isNull then some (lc, [])
             else pfx_table_remove_id fuel t lc socket_id (level + 1)) with
      | none => none
      | some (lc', nl) =>
        match (if rc.isNull then some (rc, [])
               else pfx_table_remove_id fuel t rc socket_id (level + 1)) with
        | none => none
        | some (rc', nr) => some (.node p l sc.1 lc' rc', notes ++ nl ++ nr)

/-- The sweep of both tries, IPv4 first. -/
def pfx_table_src_remove (t : pfx_table) (socket_id : Nat) :
    Option (pfx_rtvals × pfx_table × List update_call) :=
  match (if t.ipv4.isNull then some (t.ipv4, [])
         else pfx_table_remove_id t.ipv4.size t t.ipv4 socket_id 0) with
  | none => none
  | some (r4, n4) =>
    match (if t.ipv6.isNull then some (t.ipv6, [])
           else pfx_table_remove_id t.ipv6.size t t.ipv6 socket_id 0) with
    | none => none
    | some (r6, n6) =>
      some (.PFX_SUCCESS, { t with ipv4 := r4, ipv6 := r6 }, n4 ++ n6)

/-- The `do ... while (rm_node != root)` loop of `pfx_table_free` on one trie,
with a bound on the number of iterations: the records of the root are
reported, then the root's key is removed from the trie.  Result: the callback
invocations.  `none`: the failed `assert` or the bound used up. -/
def pfx_table_free_loop : Nat → pfx_table → lpfst_node → Option (List update_call)
  | 0, _, _ => none
  | _ + 1, _, .nil => none
  | fuel + 1, t, .node p l d lc rc =>
    let notes := d.flatMap (fun e => pfx_table_notify_clients t (e.record p l) false)
    match lpfst_remove (.node p l d lc rc) p l 0 with
    | none => none
    | some (root', rm, _) =>
      if rm = [] then some notes
      else
        match pfx_table_free_loop fuel t root' with
        | none => none
        | some notes' => some (notes ++ notes')

/-- The teardown: both tries are drained, IPv4 first, and their root pointers
cleared.  Result: the table left and the callback invocations. -/
def pfx_table_free (t : pfx_table) : Option (pfx_table × List update_call) :=
  match (if t.ipv4.isNull then some [] else pfx_table_free_loop t.ipv4.size t t.ipv4) with
  | none => none
  | some n4 =>
    match (if t.ipv6.isNull then some [] else pfx_table_free_loop t.ipv6.size t t.ipv6) with
    | none => none
    | some n6 => some ({ t with ipv4 := .nil, ipv6 := .nil }, n4 ++ n6)

/-! ## Notions used by the statements -/

/-- All records stored in a trie: each element of each node, with the node's
`prefix` and `len`. -/
def lpfst_node.records : lpfst_node → List pfx_record
  | .nil => []
  | .node p l d lc rc => d.map (fun e => e.record p l) ++ (lc.records ++ rc.records)

/-- The serialization of a store: the records of both tries. -/
def pfx_table.records (t : pfx_table) : List pfx_record :=
  t.ipv4.records ++ t.ipv6.records

/-- The payloads of the nodes met when walking down from a node by the bits
of an address, the node first. -/
def lpfst_node.walk : lpfst_node → ip_addr → Nat → List (ip_addr × Nat × List data_elem)
  | .nil, _, _ => []
  | .node p l d lc rc, pfx, lvl =>
    (p, l, d) :: (if pfx.bit lvl = 0 then lc.walk pfx (lvl + 1) else rc.walk pfx (lvl + 1))

/-- A record as the spec wants it: `min_len ≤ max_len ≤ width`, the address
fits the width, and the bits beyond `min_len` are zero. -/
def pfx_record.wf (r : pfx_record) : Prop :=
  r.min_len ≤ r.max_len ∧ r.max_len ≤ r.pfx.ver.width ∧ r.pfx.addr < 2 ^ r.pfx.ver.width ∧
    ∀ i, r.min_len ≤ i → r.pfx.bit i = 0

/-- The stores reached from an empty store by successful `add`, `remove` and
`src_remove` calls on well-formed records. -/
inductive Reachable : pfx_table → Prop
  | init (fp : Bool) : Reachable (pfx_table_init fp)
  | add {t t' : pfx_table} {n : List update_call} (r : pfx_record) :
      Reachable t → r.wf → pfx_table_add t r = some (.PFX_SUCCESS, t', n) → Reachable t'
  | remove {t t' : pfx_table} {n : List update_call} (r : pfx_record) :
      Reachable t → r.wf → pfx_table_remove t r = some (.PFX_SUCCESS, t', n) → Reachable t'
  | src_remove {t t' : pfx_table} {n : List update_call} (s : Nat) :
      Reachable t → pfx_table_src_remove t s = some (.PFX_SUCCESS, t', n) → Reachable t'

/-- The stores reached from an empty store by any sequence of `add`, `remove`
and `src_remove` calls that return, whatever the record and whatever the
return value. -/
inductive ReachableByCalls : pfx_table → Prop
  | init (fp : Bool) : ReachableByCalls (pfx_table_init fp)
  | add {t t' : pfx_table} {rv : pfx_rtvals} {n : List update_call} (r : pfx_record) :
      ReachableByCalls t → pfx_table_add t r = some (rv, t', n) → ReachableByCalls t'
  | remove {t t' : pfx_table} {rv : pfx_rtvals} {n : List update_call} (r : pfx_record) :
      ReachableByCalls t → pfx_table_remove t r = some (rv, t', n) → ReachableByCalls t'
  | src_remove {t t' : pfx_table} {rv : pfx_rtvals} {n : List update_call} (s : Nat) :
      ReachableByCalls t → pfx_table_src_remove t s = some (rv, t', n) → ReachableByCalls t'

/-- A node payload covers the query: its `len` is at most the query length and
its first `len` bits are those of the query. -/
def covers (pfx : ip_addr) (prefix_len : Nat) (m : ip_addr × Nat × List data_elem) : Bool :=
  decide (m.2.1 ≤ prefix_len) && m.1.first_bits_eq pfx m.2.1

/-- The verdict read off the list of payloads met on the walk. -/
def walk_verdict (asn : Nat) (pfx : ip_addr) (prefix_len : Nat)
    (w : List (ip_addr × Nat × List data_elem)) : pfxv_state :=
  if w.any (fun m => covers pfx prefix_len m && pfx_table_elem_matches m.2.2 asn prefix_len)
  then .BGP_PFXV_STATE_VALID
  else if w.any (covers pfx prefix_len) then .BGP_PFXV_STATE_INVALID
  else .BGP_PFXV_STATE_NOT_FOUND

/-- The records of a trie as a multiset. -/
def lpfst_node.mrecords (t : lpfst_node) : Multiset pfx_record :=
  (t.records : Multiset pfx_record)

/-- The records one node contributes: its elements under its key. -/
def node_records (p : ip_addr) (l : Nat) (d : List data_elem) : Multiset pfx_record :=
  ((d.map (fun e => e.record p l) : List pfx_record) : Multiset pfx_record)

/-- The child of a node on the side of `prefix.bit(level)`: `lchild` for bit
0, `rchild` for bit 1. -/
def lpfst_node.child_at (n : lpfst_node) (pfx : ip_addr) (lvl : Nat) : lpfst_node :=
  if pfx.bit lvl = 0 then n.sub [false] else n.sub [true]

/-! ## Concrete records and stores used in the examples -/

/-- The record 10.1.0.0/16, max_len 16, AS 64501. -/
def ex_rec_16 : pfx_record := ⟨64501, ⟨.IPV4, 167837696⟩, 16, 16, 1⟩

/-- The record 10.0.0.0/8, max_len 8, AS 64500. -/
def ex_rec_8 : pfx_record := ⟨64500, ⟨.IPV4, 167772160⟩, 8, 8, 1⟩

/-- The store after `add ex_rec_16`. -/
def ex_store_16 : pfx_table :=
  ⟨.node ⟨.IPV4, 167837696⟩ 16 [⟨64501, 16, 1⟩] .nil .nil, .nil, true⟩

/-- The store after `add ex_rec_16; add ex_rec_8`: the /8 is the left child of
the /16. -/
def ex_store_16_8 : pfx_table :=
  ⟨.node ⟨.IPV4, 167837696⟩ 16 [⟨64501, 16, 1⟩]
    (.node ⟨.IPV4, 167772160⟩ 8 [⟨64500, 8, 1⟩] .nil .nil) .nil, .nil, true⟩

/-! ## The lock and the allocator as explicit state -/

/-- The reader/writer lock of the table, seen from the one thread that runs
the call: free, held shared, or held exclusive. -/
inductive rwlock_state
  | unlocked
  | rdlocked
  | wrlocked
deriving DecidableEq, Repr

/-- Taking the lock exclusive: it is granted on a free lock; on a lock that is
held the call does not come back (`none`). -/
def pthread_rwlock_wrlock : rwlock_state → Option rwlock_state
  | .unlocked => some .wrlocked
  | _ => none

/-- Taking the lock shared: it is granted on a free lock. -/
def pthread_rwlock_rdlock : rwlock_state → Option rwlock_state
  | .unlocked => some .rdlocked
  | _ => none

/-- Releasing the lock. -/
def pthread_rwlock_unlock : rwlock_state → rwlock_state
  | _ => .unlocked

/-- The call `pfx_table_validate` with the lock as state: return value,
`*result`, the table and the lock at the return.  The source takes the lock
shared, reads the trie and writes nothing to the table; every `return` is
preceded by the unlock. -/
def pfx_table_validate_lock (t : pfx_table) (lock : rwlock_state) (asn : Nat) (pfx : ip_addr)
    (prefix_len : Nat) : Option (pfx_rtvals × pfxv_state × pfx_table × rwlock_state) :=
  match pthread_rwlock_rdlock lock with
  | none => none
  | some lk =>
    match pfx_table_validate t asn pfx prefix_len with
    | none => none
    | some (rv, s) => some (rv, s, t, pthread_rwlock_unlock lk)

/-- The `node_data` struct of the source as it lies in memory: the count `len`
and the array `ary`, `none` for the null pointer. -/
structure node_data where
  len : Nat
  ary : Option (List data_elem)
deriving DecidableEq, Repr

/-- The `node_data` of a node whose record list is `l`: `len` is the length,
and `ary` is null exactly for the empty list. -/
def node_data.ofList (l : List data_elem) : node_data :=
  { len := l.length, ary := if l = [] then none else some l }

/-- The record list a `node_data` holds: the first `len` elements of `ary`. -/
def node_data.toList (data : node_data) : List data_elem :=
  (data.ary.getD []).take data.len

/-- The function `pfx_table_append_elem` on the struct, with the outcome of
its `realloc`: `len` is counted up first, then `ary` is assigned the result
of `realloc` (null on failure, and then PFX_ERROR is returned), then the last
place is written. -/
def pfx_table_append_elem_raw (data : node_data) (record : pfx_record) (realloc_ok : Bool) :
    pfx_rtvals × node_data :=
  let len := data.len + 1
  if realloc_ok then
    (.PFX_SUCCESS, { len := len, ary := some ((data.ary.getD []).take (len - 1) ++ [record.elem]) })
  else (.PFX_ERROR, { len := len, ary := none })

/-- The function `pfx_table_del_elem` on the struct, with the outcome of its
`realloc`: the elements behind `index` are moved down, `len` is counted
down, `ary` is assigned the result of `realloc`; a null result with
`len != 0` returns PFX_ERROR, and with `len == 0` the array is set to null
whatever `realloc` gave. -/
def pfx_table_del_elem_raw (data : node_data) (index : Nat) (realloc_ok : Bool) :
    pfx_rtvals × node_data :=
  let ary0 := data.ary.getD []
  let ary1 :=
    if index ≠ data.len - 1 then pfx_table_del_elem_shift (data.len - 1 - index) index ary0
    else ary0
  let len := data.len - 1
  if len ≠ 0 ∧ realloc_ok = false then (.PFX_ERROR, { len := len, ary := none })
  else if len = 0 then (.PFX_SUCCESS, { len := len, ary := none })
  else (.PFX_SUCCESS, { len := len, ary := some (ary1.take len) })

/-- The outcome of the `k`-th allocation (`malloc` or `realloc`) of a call:
the list names the outcomes in order, and an allocation the list does not
reach succeeds. -/
def alloc_ok (allocs : List Bool) (k : Nat) : Bool := allocs.getD k true

/-- What a call leaves behind when the lock and the allocator are part of the
state: the return value, the table, the callback invocations, the lock at
the return, and `raw`.  When `raw` is `some (path, d)` the call has left the
`node_data` of the node at `path` (in the trie of the record's version) as
the struct `d`, which is not the struct of a list; `table` then shows that
node with the list it had before the call. -/
structure call_result where
  rtval : pfx_rtvals
  table : pfx_table
  calls : List update_call
  lock : rwlock_state
  raw : Option (List Bool × node_data)
deriving DecidableEq, Repr

/-- The function `pfx_table_create_node` with the outcomes of its three
allocations, counted from `k`: the node, its `node_data`, and the array
grown by `pfx_table_append_elem`.  Result: the return value and the node. -/
def pfx_table_create_node_alloc (record : pfx_record) (allocs : List Bool) (k : Nat) :
    pfx_rtvals × lpfst_node :=
  if alloc_ok allocs k = false then (.PFX_ERROR, .nil)
  else if alloc_ok allocs (k + 1) = false then
    (.PFX_ERROR, .node record.pfx record.min_len [] .nil .nil)
  else
    let a := pfx_table_append_elem_raw { len := 0, ary := none } record (alloc_ok allocs (k + 2))
    (a.1, .node record.pfx record.min_len a.2.toList .nil .nil)

/-- The call `pfx_table_add` with the lock and the allocator as state.  The
order of the statements is the one of the source: in the branch that appends
to a node that was found, the return value of `pfx_table_append_elem` is
kept, the lock is released, the callback is made, and the value is
returned. -/
def pfx_table_add_alloc (t : pfx_table) (record : pfx_record) (lock : rwlock_state)
    (allocs : List Bool) : Option call_result :=
  match pthread_rwlock_wrlock lock with
  | none => none
  | some lk =>
    let root := pfx_table_get_root t record.pfx.ver
    if root.isNull = false then
      let r := lpfst_lookup_exact root record.pfx record.min_len 0
      let node := r.1
      let lvl := r.2.1
      if r.2.2 then
        let data := (root.sub node).getData
        if (pfx_table_find_elem data record).isSome then
          some { rtval := .PFX_DUPLICATE_RECORD, table := t, calls := [],
                 lock := pthread_rwlock_unlock lk, raw := none }
        else
          let a := pfx_table_append_elem_raw (node_data.ofList data) record (alloc_ok allocs 0)
          if a.1 = .PFX_SUCCESS then
            some { rtval := a.1,
                   table := pfx_table_set_root t record.pfx.ver (root.setData node a.2.toList),
                   calls := pfx_table_notify_clients t record true,
                   lock := pthread_rwlock_unlock lk, raw := none }
          else
            some { rtval := a.1, table := t,
                   calls := pfx_table_notify_clients t record true,
                   lock := pthread_rwlock_unlock lk, raw := some (node, a.2) }
      else
        let c := pfx_table_create_node_alloc record allocs 0
        if c.1 = .PFX_ERROR then
          some { rtval := .PFX_ERROR, table := t, calls := [],
                 lock := pthread_rwlock_unlock lk, raw := none }
        else
          match lpfst_insert root node c.2 lvl with
          | none => none
          | some root' =>
            some { rtval := .PFX_SUCCESS, table := pfx_table_set_root t record.pfx.ver root',
                   calls := pfx_table_notify_clients t record true,
                   lock := pthread_rwlock_unlock lk, raw := none }
    else
      let c := pfx_table_create_node_alloc record allocs 0
      if c.1 = .PFX_ERROR then
        some { rtval := .PFX_ERROR, table := t, calls := [],
               lock := pthread_rwlock_unlock lk, raw := none }
      else
        some { rtval := .PFX_SUCCESS, table := pfx_table_set_root t record.pfx.ver c.2,
               calls := pfx_table_notify_clients t record true,
               lock := pthread_rwlock_unlock lk, raw := none }

/-- The call `pfx_table_remove` with the lock and the allocator as state. -/
def pfx_table_remove_alloc (t : pfx_table) (record : pfx_record) (lock : rwlock_state)
    (allocs : List Bool) : Option call_result :=
  match pthread_rwlock_wrlock lock with
  | none => none
  | some lk =>
    let root := pfx_table_get_root t record.pfx.ver
    let r := lpfst_lookup_exact root record.pfx record.min_len 0
    let node := r.1
    let lvl := r.2.1
    if r.2.2 = false then
      some { rtval := .PFX_RECORD_NOT_FOUND, table := t, calls := [],
             lock := pthread_rwlock_unlock lk, raw := none }
    else
      match pfx_table_find_elem (root.sub node).getData record with
      | none =>
        some { rtval := .PFX_RECORD_NOT_FOUND, table := t, calls := [],
               lock := pthread_rwlock_unlock lk, raw := none }
      | some index =>
        let a := pfx_table_del_elem_raw (node_data.ofList (root.sub node).getData) index
          (alloc_ok allocs 0)
        if a.1 = .PFX_ERROR then
          some { rtval := .PFX_ERROR, table := t, calls := [],
                 lock := pthread_rwlock_unlock lk, raw := some (node, a.2) }
        else
          let ndata := a.2.toList
          let root1 := root.setData node ndata
          if a.2.len = 0 then
            match lpfst_remove (root1.sub node) record.pfx root.getLen lvl with
            | none => none
            | some (sub', rm, rdata) =>
              if rdata.length = 0 then
                some { rtval := .PFX_SUCCESS,
                       table := pfx_table_set_root t record.pfx.ver
                         (if node ++ rm = [] then .nil else root1.replace node sub'),
                       calls := pfx_table_notify_clients t record false,
                       lock := pthread_rwlock_unlock lk, raw := none }
              else none
          else
            some { rtval := .PFX_SUCCESS, table := pfx_table_set_root t record.pfx.ver root1,
                   calls := pfx_table_notify_clients t record false,
                   lock := pthread_rwlock_unlock lk, raw := none }

/-- The scan of `pfx_table_remove_id` over the array of one node with the
allocator as state: as `pfx_table_remove_id_scan`, with the `realloc` of each
`pfx_table_del_elem` taken from `allocs` at the running count `k`.  A
deletion that returns PFX_ERROR ends the scan with PFX_ERROR, before the
callback for that element.  Result: return value, the array, the records
reported, the count of allocations. -/
def pfx_table_remove_id_scan_alloc : Nat → Nat → List data_elem → ip_addr → Nat → Nat →
    List Bool → Nat → pfx_rtvals × List data_elem × List pfx_record × Nat
  | 0, _, data, _, _, _, _, k => (.PFX_SUCCESS, data, [], k)
  | n + 1, i, data, pfx, len, socket_id, allocs, k =>
    match data.get? i with
    | none => (.PFX_SUCCESS, data, [], k)
    | some e =>
      if e.socket_id = socket_id then
        let a := pfx_table_del_elem_raw (node_data.ofList data) i (alloc_ok allocs k)
        if a.1 = .PFX_ERROR then (.PFX_ERROR, a.2.toList, [], k + 1)
        else
          let r := pfx_table_remove_id_scan_alloc n i a.2.toList pfx len socket_id allocs (k + 1)
          (r.1, r.2.1, e.record pfx len :: r.2.2.1, r.2.2.2)
      else pfx_table_remove_id_scan_alloc n (i + 1) data pfx len socket_id allocs k

/-- The outcome of a sweep with the allocator as state: PFX_ERROR with the
callback invocations made before it, or PFX_SUCCESS with the subtree that
remains, the invocations and the count of allocations.  The trie is not
followed further on the PFX_ERROR path. -/
inductive sweep_result
  | error (calls : List update_call)
  | ok (sub : lpfst_node) (calls : List update_call) (k : Nat)
deriving DecidableEq, Repr

/-- The function `pfx_table_remove_id` with the allocator as state; see
`pfx_table_remove_id` for the bound and for `none`. -/
def pfx_table_remove_id_alloc : Nat → pfx_table → lpfst_node → Nat → Nat → List Bool → Nat →
    Option sweep_result
  | 0, _, _, _, _, _, _ => none
  | _ + 1, _, .nil, _, _, _, _ => none
  | fuel + 1, t, .node p l d lc rc, socket_id, level, allocs, k =>
    let sc := pfx_table_remove_id_scan_alloc d.length 0 d p l socket_id allocs k
    let notes := sc.2.2.1.flatMap (fun r => pfx_table_notify_clients t r false)
    if sc.1 = .PFX_ERROR then some (.error notes)
    else if sc.2.1.length = 0 then
      match lpfst_remove (.node p l sc.2.1 lc rc) p l level with
      | none => none
      | some (sub', rm, rdata) =>
        if rdata.length = 0 then
          if rm = [] then some (.ok .nil notes sc.2.2.2)
          else
            match pfx_table_remove_id_alloc fuel t sub' socket_id level allocs sc.2.2.2 with
            | none => none
            | some (.error notes') => some (.error (notes ++ notes'))
            | some (.ok sub'' notes' k') => some (.ok sub'' (notes ++ notes') k')
        else none
    else
      match (if lc.isNull then some (.ok lc [] sc.2.2.2)
             else pfx_table_remove_id_alloc fuel t lc socket_id (level + 1) allocs sc.2.2.2) with
      | none => none
      | some (.error nl) => some (.error (notes ++ nl))
      | some (.ok lc' nl k1) =>
        match (if rc.isNull then some (.ok rc [] k1)
               else pfx_table_remove_id_alloc fuel t rc socket_id (level + 1) allocs k1) with
        | none => none
        | some (.error nr) => some (.error (notes ++ nl ++ nr))
        | some (.ok rc' nr k2) => some (.ok (.node p l sc.2.1 lc' rc') (notes ++ nl ++ nr) k2)

/-- The call `pfx_table_src_remove` with the lock and the allocator as state:
return value, the table (`none` on the PFX_ERROR path, where the tries are
not followed further), the callback invocations, and the lock at the return.
In each round of the loop the lock is taken, the sweep is run, a PFX_ERROR
of the sweep is returned at once, and otherwise the lock is released. -/
def pfx_table_src_remove_alloc (t : pfx_table) (socket_id : Nat) (lock : rwlock_state)
    (allocs : List Bool) :
    Option (pfx_rtvals × Option pfx_table × List update_call × rwlock_state) :=
  match pthread_rwlock_wrlock lock with
  | none => none
  | some lk0 =>
    match (if t.ipv4.isNull then some (.ok t.ipv4 [] 0)
           else pfx_table_remove_id_alloc t.ipv4.size t t.ipv4 socket_id 0 allocs 0) with
    | none => none
    | some (.error n4) => some (.PFX_ERROR, none, n4, lk0)
    | some (.ok r4 n4 k4) =>
      match pthread_rwlock_wrlock (pthread_rwlock_unlock lk0) with
      | none => none
      | some lk1 =>
        match (if t.ipv6.isNull then some (.ok t.ipv6 [] k4)
               else pfx_table_remove_id_alloc t.ipv6.size t t.ipv6 socket_id 0 allocs k4) with
        | none => none
        | some (.error n6) => some (.PFX_ERROR, none, n4 ++ n6, lk1)
        | some (.ok r6 n6 _) =>
          some (.PFX_SUCCESS, some { t with ipv4 := r4, ipv6 := r6 }, n4 ++ n6,
            pthread_rwlock_unlock lk1)

/-- The store that holds 10.0.0.0/8 (AS 64500, max_len 8) from source 1. -/
def ex_store_8 : pfx_table :=
  ⟨.node ⟨.IPV4, 167772160⟩ 8 [⟨64500, 8, 1⟩] .nil .nil, .nil, true⟩

/-- The record 10.0.0.0/8, AS 64500, max_len 8, from source 2. -/
def ex_rec_8b : pfx_record := ⟨64500, ⟨.IPV4, 167772160⟩, 8, 8, 2⟩

/-- The store after `add ex_rec_8; add ex_rec_8b`: one node, two elements. -/
def ex_store_8_8b : pfx_table :=
  ⟨.node ⟨.IPV4, 167772160⟩ 8 [⟨64500, 8, 1⟩, ⟨64500, 8, 2⟩] .nil .nil, .nil, true⟩

/-- The payloads `(prefix, len, data)` of all nodes of a trie. -/
def lpfst_node.nodes : lpfst_node → List (ip_addr × Nat × List data_elem)
  | .nil => []
  | .node p l d lc rc => (p, l, d) :: (lc.nodes ++ rc.nodes)

/-- The payloads of all nodes of a trie as a multiset. -/
def lpfst_node.mnodes (t : lpfst_node) : Multiset (ip_addr × Nat × List data_elem) :=
  (t.nodes : Multiset (ip_addr × Nat × List data_elem))

/-- All nodes of both tries of a store. -/
def pfx_table.nodes (t : pfx_table) : List (ip_addr × Nat × List data_elem) :=
  t.ipv4.nodes ++ t.ipv6.nodes

/-- The keys `(prefix, len)` of all nodes of a trie. -/
def lpfst_node.keys (t : lpfst_node) : List (ip_addr × Nat) :=
  t.nodes.map (fun m => (m.1, m.2.1))

/-- The payload of a node after the sweep of source `s`: the elements of
other sources. -/
def sweep_payload (s : Nat) (m : ip_addr × Nat × List data_elem) :
    ip_addr × Nat × List data_elem :=
  (m.1, m.2.1, m.2.2.filter (fun e => decide (e.socket_id ≠ s)))

/-- Modelled from the spec: the bit discipline that the missing `lpfst_insert`
and `lpfst_remove` are to keep (spec 4.2, and the second half of the Shape
invariant of spec 8.1): every node below a node at depth `d` lies in the
subtree dictated by bit `d` of its own prefix, the left one for bit 0 and the
right one for bit 1, and that bit is one of the bits of its prefix (`d < len`:
a node "has `d` bits in common with every descendant" and its prefix "may
carry more bits than `d`").  `lvl` is the depth of the node on top. -/
def lpfst_node.shaped : lpfst_node → Nat → Bool
  | .nil, _ => true
  | .node _ _ _ lc rc, lvl =>
    lc.nodes.all (fun m => decide (lvl < m.2.1) && decide (m.1.bit lvl = 0)) &&
    rc.nodes.all (fun m => decide (lvl < m.2.1) && decide (m.1.bit lvl = 1)) &&
    lc.shaped (lvl + 1) && rc.shaped (lvl + 1)

/-- Modelled from the spec: the Shape invariant that the missing `lpfst_insert`
and `lpfst_remove` are to keep, as spec 8.1 and 4.2 write it, for the subtree
below a node at depth `lvl`: a child's `len` is not smaller
than its parent's (`n.len ≥ p.len`), and every node below a node at depth `d`
lies in the subtree dictated by bit `d` of its own prefix. -/
def lpfst_node.spec_shape : lpfst_node → Nat → Bool
  | .nil, _ => true
  | .node _ l _ lc rc, lvl =>
    (lc.isNull || decide (l ≤ lc.getLen)) && (rc.isNull || decide (l ≤ rc.getLen)) &&
    lc.nodes.all (fun m => decide (m.1.bit lvl = 0)) &&
    rc.nodes.all (fun m => decide (m.1.bit lvl = 1)) &&
    lc.spec_shape (lvl + 1) && rc.spec_shape (lvl + 1)

/-- The prefix of a node payload is one of version `v` as the spec wants the
prefix of a record: the address fits the width and the bits beyond `len` are
zero. -/
def node_pfx_wf (v : ip_version) (m : ip_addr × Nat × List data_elem) : Prop :=
  m.1.ver = v ∧ m.1.addr < 2 ^ v.width ∧ ∀ i, m.2.1 ≤ i → m.1.bit i = 0

theorem lpfst_lookup_none {pfx : ip_addr} {plen : Nat} :
    ∀ (t : lpfst_node) (lvl : Nat), lpfst_lookup t pfx plen lvl = none →
      (t.walk pfx lvl).any (covers pfx plen) = false := by
  intro t
  induction t with
  | nil => intro lvl _; rfl
  | node p l d lc rc ihl ihr =>
    intro lvl h
    unfold lpfst_lookup at h
    split_ifs at h with h1 h2
    · simp only [lpfst_node.walk, List.any_cons, covers, if_pos h2]
      have := ihl _ h
      simp only [covers] at this
      rw [this]
      simp only [Bool.or_false, Bool.and_eq_false_imp, decide_eq_true_eq]
      intro hl
      by_contra hc
      exact h1 ⟨hl, by simpa using hc⟩
    · simp only [lpfst_node.walk, List.any_cons, covers, if_neg h2]
      have := ihr _ h
      simp only [covers] at this
      rw [this]
      simp only [Bool.or_false, Bool.and_eq_false_imp, decide_eq_true_eq]
      intro hl
      by_contra hc
      exact h1 ⟨hl, by simpa using hc⟩

theorem lpfst_lookup_some {pfx : ip_addr} {plen : Nat} :
    ∀ (t : lpfst_node) (lvl : Nat) (n : lpfst_node) (l : Nat),
      lpfst_lookup t pfx plen lvl = some (n, l) →
      ∃ p' l' d' lc' rc' pre, n = .node p' l' d' lc' rc' ∧
        covers pfx plen (p', l', d') = true ∧
        t.walk pfx lvl = pre ++ n.walk pfx l ∧
        pre.any (covers pfx plen) = false ∧ n.height ≤ t.height := by
  intro t
  induction t with
  | nil => intro lvl n l h; simp [lpfst_lookup] at h
  | node p l d lc rc ihl ihr =>
    intro lvl n k h
    unfold lpfst_lookup at h
    split_ifs at h with h1 h2
    · simp only [Option.some.injEq, Prod.mk.injEq] at h
      obtain ⟨rfl, rfl⟩ := h
      exact ⟨p, l, d, lc, rc, [], rfl, by simp [covers, h1.1, h1.2], rfl, rfl, le_rfl⟩
    · obtain ⟨p', l', d', lc', rc', pre, hn, hc, hw, hpre, hh⟩ := ihl _ _ _ h
      refine ⟨p', l', d', lc', rc', (p, l, d) :: pre, hn, hc, ?_, ?_, ?_⟩
      · simp only [lpfst_node.walk, if_pos h2, hw, List.cons_append]
      · simp only [List.any_cons, hpre, Bool.or_false, covers, Bool.and_eq_false_imp,
          decide_eq_true_eq]
        intro hl
        by_contra hc'
        exact h1 ⟨hl, by simpa using hc'⟩
      · simp only [lpfst_node.height]; omega
    · obtain ⟨p', l', d', lc', rc', pre, hn, hc, hw, hpre, hh⟩ := ihr _ _ _ h
      refine ⟨p', l', d', lc', rc', (p, l, d) :: pre, hn, hc, ?_, ?_, ?_⟩
      · simp only [lpfst_node.walk, if_neg h2, hw, List.cons_append]
      · simp only [List.any_cons, hpre, Bool.or_false, covers, Bool.and_eq_false_imp,
          decide_eq_true_eq]
        intro hl
        by_contra hc'
        exact h1 ⟨hl, by simpa using hc'⟩
      · simp only [lpfst_node.height]; omega

theorem any_append_pre {α : Type} (f g : α → Bool) (pre w : List α)
    (h : pre.any g = false) :
    (pre ++ w).any (fun m => g m && f m) = w.any (fun m => g m && f m) := by
  induction pre with
  | nil => rfl
  | cons a pre ih =>
    simp only [List.any_cons, Bool.or_eq_false_iff] at h
    simp only [List.cons_append, List.any_cons, h.1, Bool.false_and, Bool.false_or]
    exact ih h.2

theorem pfx_table_validate_loop_eq {asn : Nat} {pfx : ip_addr} {plen : Nat} :
    ∀ (fuel : Nat) (p : ip_addr) (l : Nat) (d : List data_elem) (lc rc : lpfst_node) (lvl : Nat),
      covers pfx plen (p, l, d) = true → (lpfst_node.node p l d lc rc).height ≤ fuel →
      pfx_table_validate_loop fuel (.node p l d lc rc) lvl asn pfx plen =
        some (if ((lpfst_node.node p l d lc rc).walk pfx lvl).any
                (fun m => covers pfx plen m && pfx_table_elem_matches m.2.2 asn plen)
              then .BGP_PFXV_STATE_VALID else .BGP_PFXV_STATE_INVALID) := by
  intro fuel
  induction fuel with
  | zero => intro p l d lc rc lvl _ hh; simp [lpfst_node.height] at hh
  | succ fuel ih =>
    intro p l d lc rc lvl hc hh
    unfold pfx_table_validate_loop
    by_cases hm : pfx_table_elem_matches d asn plen = true
    · simp [lpfst_node.getData, hm, lpfst_node.walk, hc]
    · simp only [lpfst_node.getData, hm, Bool.false_eq_true, if_false]
      have hm' : pfx_table_elem_matches d asn plen = false := by simpa using hm
      have hch : ∀ c : lpfst_node, c.height + 1 ≤ fuel + 1 →
          c.walk pfx (lvl + 1) = ((lpfst_node.node p l d lc rc).walk pfx lvl).tail →
          (match lpfst_lookup c pfx plen (lvl + 1) with
            | none => some pfxv_state.BGP_PFXV_STATE_INVALID
            | some (n, l) => pfx_table_validate_loop fuel n l asn pfx plen) =
          some (if ((lpfst_node.node p l d lc rc).walk pfx lvl).any
                (fun m => covers pfx plen m && pfx_table_elem_matches m.2.2 asn plen)
              then .BGP_PFXV_STATE_VALID else .BGP_PFXV_STATE_INVALID) := by
        intro c hch hw
        have hwalk : ((lpfst_node.node p l d lc rc).walk pfx lvl).any
                (fun m => covers pfx plen m && pfx_table_elem_matches m.2.2 asn plen) =
              (c.walk pfx (lvl + 1)).any
                (fun m => covers pfx plen m && pfx_table_elem_matches m.2.2 asn plen) := by
          rw [hw]
          simp [lpfst_node.walk, hm']
        rw [hwalk]
        cases hlk : lpfst_lookup c pfx plen (lvl + 1) with
        | none =>
          have hn := lpfst_lookup_none c _ hlk
          have : (c.walk pfx (lvl + 1)).any
              (fun m => covers pfx plen m && pfx_table_elem_matches m.2.2 asn plen) = false := by
            rw [List.any_eq_false] at hn ⊢
            intro m hmem
            have := hn m hmem
            simp at this
            simp [this]
          simp [this]
        | some r =>
          obtain ⟨n, k⟩ := r
          obtain ⟨p', l', d', lc', rc', pre, hn, hc', hw', hpre, hh'⟩ :=
            lpfst_lookup_some c _ _ _ hlk
          subst hn
          simp only
          rw [ih p' l' d' lc' rc' k hc' (by omega), hw', any_append_pre _ _ _ _ hpre]
      by_cases hb : pfx.bit lvl = 0
      · simp only [hb, if_true, lpfst_node.sub]
        simp only [if_false, Bool.false_eq_true]
        apply hch
        · simp only [lpfst_node.height] at hh; omega
        · simp [lpfst_node.walk, hb]
      · simp only [hb, if_false, lpfst_node.sub]
        simp only [if_true]
        apply hch
        · simp only [lpfst_node.height] at hh; omega
        · simp [lpfst_node.walk, hb]

theorem pfx_table_validate_eq (t : pfx_table) (asn : Nat) (pfx : ip_addr) (plen : Nat) :
    pfx_table_validate t asn pfx plen =
      some (.PFX_SUCCESS, walk_verdict asn pfx plen ((pfx_table_get_root t pfx.ver).walk pfx 0)) := by
  unfold pfx_table_validate walk_verdict
  cases hroot : pfx_table_get_root t pfx.ver with
  | nil => simp [lpfst_node.isNull, lpfst_node.walk]
  | node p l d lc rc =>
    simp only [lpfst_node.isNull, Bool.false_eq_true, if_false]
    cases hlk : lpfst_lookup (.node p l d lc rc) pfx plen 0 with
    | none =>
      have hn := lpfst_lookup_none _ _ hlk
      have : ((lpfst_node.node p l d lc rc).walk pfx 0).any
          (fun m => covers pfx plen m && pfx_table_elem_matches m.2.2 asn plen) = false := by
        rw [List.any_eq_false] at hn ⊢
        intro m hmem
        have := hn m hmem
        simp at this
        simp [this]
      simp [this, hn]
    | some r =>
      obtain ⟨n, k⟩ := r
      obtain ⟨p', l', d', lc', rc', pre, hn, hc', hw', hpre, hh'⟩ :=
        lpfst_lookup_some _ _ _ _ hlk
      subst hn
      simp only
      rw [pfx_table_validate_loop_eq _ p' l' d' lc' rc' k hc' hh', hw',
        any_append_pre _ _ _ _ hpre]
      have hcov : (pre ++ (lpfst_node.node p' l' d' lc' rc').walk pfx k).any (covers pfx plen)
          = true := by
        simp [lpfst_node.walk, hc']
      simp only [Option.map_some', hcov, if_true]

/-- The end-to-end scenarios S1 to S5 of the spec, run on the embedding. -/
theorem spec_scenarios :
    -- S1
    pfx_table_validate ⟨.node ⟨.IPV4, 167772160⟩ 8 [⟨64500, 8, 1⟩] .nil .nil, .nil, true⟩
      64500 ⟨.IPV4, 167772160⟩ 8 = some (.PFX_SUCCESS, .BGP_PFXV_STATE_VALID) ∧
    pfx_table_validate ⟨.node ⟨.IPV4, 167772160⟩ 8 [⟨64500, 8, 1⟩] .nil .nil, .nil, true⟩
      64501 ⟨.IPV4, 167772160⟩ 8 = some (.PFX_SUCCESS, .BGP_PFXV_STATE_INVALID) ∧
    pfx_table_validate ⟨.node ⟨.IPV4, 167772160⟩ 8 [⟨64500, 8, 1⟩] .nil .nil, .nil, true⟩
      64500 ⟨.IPV4, 184549376⟩ 8 = some (.PFX_SUCCESS, .BGP_PFXV_STATE_NOT_FOUND) ∧
    -- S2
    (pfx_table_add (pfx_table_init true) ⟨64500, ⟨.IPV4, 3232235520⟩, 16, 24, 1⟩).bind
      (fun x => pfx_table_validate x.2.1 64500 ⟨.IPV4, 3232236800⟩ 24)
        = some (.PFX_SUCCESS, .BGP_PFXV_STATE_VALID) ∧
    (pfx_table_add (pfx_table_init true) ⟨64500, ⟨.IPV4, 3232235520⟩, 16, 24, 1⟩).bind
      (fun x => pfx_table_validate x.2.1 64500 ⟨.IPV4, 3232236800⟩ 25)
        = some (.PFX_SUCCESS, .BGP_PFXV_STATE_INVALID) ∧
    -- S3
    (pfx_table_add (pfx_table_init true) ⟨0, ⟨.IPV4, 167772160⟩, 8, 24, 1⟩).bind
      (fun x => pfx_table_validate x.2.1 0 ⟨.IPV4, 167772160⟩ 8)
        = some (.PFX_SUCCESS, .BGP_PFXV_STATE_INVALID) ∧
    -- S4
    ((pfx_table_add (pfx_table_init true) ex_rec_8).bind
      (fun x => pfx_table_add x.2.1 ex_rec_16)).bind
      (fun x => pfx_table_validate x.2.1 64500 ⟨.IPV4, 167837696⟩ 16)
        = some (.PFX_SUCCESS, .BGP_PFXV_STATE_INVALID) ∧
    ((pfx_table_add (pfx_table_init true) ex_rec_8).bind
      (fun x => pfx_table_add x.2.1 ex_rec_16)).bind
      (fun x => pfx_table_validate x.2.1 64501 ⟨.IPV4, 167837696⟩ 16)
        = some (.PFX_SUCCESS, .BGP_PFXV_STATE_VALID) ∧
    ((pfx_table_add (pfx_table_init true) ex_rec_8).bind
      (fun x => pfx_table_add x.2.1 ex_rec_16)).bind
      (fun x => pfx_table_validate x.2.1 64500 ⟨.IPV4, 167903232⟩ 16)
        = some (.PFX_SUCCESS, .BGP_PFXV_STATE_INVALID) ∧
    -- S5
    (((pfx_table_add (pfx_table_init true) ⟨64500, ⟨.IPV4, 167772160⟩, 8, 8, 1⟩).bind
      (fun x => pfx_table_add x.2.1 ⟨64500, ⟨.IPV4, 167772160⟩, 8, 8, 2⟩)).bind
      (fun x => pfx_table_src_remove x.2.1 1)).bind
      (fun x => pfx_table_validate x.2.1 64500 ⟨.IPV4, 167772160⟩ 8)
        = some (.PFX_SUCCESS, .BGP_PFXV_STATE_VALID) ∧
    ((((pfx_table_add (pfx_table_init true) ⟨64500, ⟨.IPV4, 167772160⟩, 8, 8, 1⟩).bind
      (fun x => pfx_table_add x.2.1 ⟨64500, ⟨.IPV4, 167772160⟩, 8, 8, 2⟩)).bind
      (fun x => pfx_table_src_remove x.2.1 1)).bind
      (fun x => pfx_table_src_remove x.2.1 2)).bind
      (fun x => pfx_table_validate x.2.1 64500 ⟨.IPV4, 167772160⟩ 8)
        = some (.PFX_SUCCESS, .BGP_PFXV_STATE_NOT_FOUND) := by
  refine ⟨by decide, by decide, by decide, by decide, by decide, by decide, by decide,
    by decide, by decide, by decide, by decide⟩

/-! ## Validation read off the walk -/

theorem pfx_record.wf_of_check (r : pfx_record)
    (h : r.min_len ≤ r.max_len ∧ r.max_len ≤ r.pfx.ver.width ∧ r.pfx.addr < 2 ^ r.pfx.ver.width ∧
      ∀ i, i < r.pfx.ver.width → r.min_len ≤ i → r.pfx.bit i = 0) : r.wf := by
  refine ⟨h.1, h.2.1, h.2.2.1, ?_⟩
  intro i hi
  by_cases hw : i < r.pfx.ver.width
  · exact h.2.2.2 i hw hi
  · simp [ip_addr.bit, hw]

theorem pfx_record.elem_record (r : pfx_record) : r.elem.record r.pfx r.min_len = r := rfl

theorem data_elem.record_eq_iff (e : data_elem) (p : ip_addr) (l : Nat) (r : pfx_record) :
    e.record p l = r ↔ e = r.elem ∧ p = r.pfx ∧ l = r.min_len := by
  cases e; cases r
  simp only [data_elem.record, pfx_record.elem, pfx_record.mk.injEq, data_elem.mk.injEq]
  tauto

theorem pfx_table_find_elem_none (d : List data_elem) (r : pfx_record) :
    pfx_table_find_elem d r = none ↔ r.elem ∉ d := by
  induction d with
  | nil => simp [pfx_table_find_elem]
  | cons e es ih =>
    unfold pfx_table_find_elem
    by_cases h : e.asn = r.asn ∧ e.max_len = r.max_len ∧ e.socket_id = r.socket_id
    · have : r.elem = e := by
        cases e; cases r; simp only [pfx_record.elem, data_elem.mk.injEq] at h ⊢
        exact ⟨h.1.symm, h.2.1.symm, h.2.2.symm⟩
      simp [h, this]
    · have : ¬ r.elem = e := by
        intro he; apply h; subst he; exact ⟨rfl, rfl, rfl⟩
      simp [h, this, ih]

theorem pfx_table_find_elem_some (d : List data_elem) (r : pfx_record) (i : Nat) :
    pfx_table_find_elem d r = some i →
      ∃ pre rest, d = pre ++ r.elem :: rest ∧ pre.length = i ∧ r.elem ∉ pre := by
  induction d generalizing i with
  | nil => simp [pfx_table_find_elem]
  | cons e es ih =>
    unfold pfx_table_find_elem
    by_cases h : e.asn = r.asn ∧ e.max_len = r.max_len ∧ e.socket_id = r.socket_id
    · have : r.elem = e := by
        cases e; cases r; simp only [pfx_record.elem, data_elem.mk.injEq] at h ⊢
        exact ⟨h.1.symm, h.2.1.symm, h.2.2.symm⟩
      simp only [h, and_self, if_true, Option.some.injEq]
      intro hi
      exact ⟨[], es, by simp [this], by simp [hi], by simp⟩
    · have hne : ¬ r.elem = e := by
        intro he; apply h; subst he; exact ⟨rfl, rfl, rfl⟩
      simp only [h, if_false, Option.map_eq_some']
      rintro ⟨j, hj, rfl⟩
      obtain ⟨pre, rest, hd, hl, hn⟩ := ih j hj
      refine ⟨e :: pre, rest, by simp [hd], by simp [hl], ?_⟩
      simp only [List.mem_cons, not_or]
      exact ⟨hne, hn⟩

theorem pfx_table_del_elem_shift_eq :
    ∀ (n : Nat) (pre : List data_elem) (e : data_elem) (rest : List data_elem),
      rest.length = n →
      pfx_table_del_elem_shift n pre.length (pre ++ e :: rest) =
        pre ++ rest ++ [(e :: rest).getLast (by simp)] := by
  intro n
  induction n with
  | zero =>
    intro pre e rest h
    have : rest = [] := List.length_eq_zero.mp h
    subst this
    simp [pfx_table_del_elem_shift]
  | succ n ih =>
    intro pre e rest h
    match rest, h with
    | e' :: rest', h =>
      have hget : (pre ++ e :: e' :: rest').get? (pre.length + 1) = some e' := by
        have h1 : pre ++ e :: e' :: rest' = (pre ++ [e]) ++ e' :: rest' := by simp
        rw [h1, List.get?_eq_getElem?, List.getElem?_append_right (by simp)]
        simp
      have hset : (pre ++ e :: e' :: rest').set pre.length e' = (pre ++ [e']) ++ e' :: rest' := by
        simp [List.set_append_right]
      unfold pfx_table_del_elem_shift
      rw [hget]
      simp only [hset]
      have := ih (pre ++ [e']) e' rest' (by simpa using h)
      simp only [List.length_append, List.length_singleton] at this
      rw [this]
      simp

theorem pfx_table_del_elem_eq (pre : List data_elem) (e : data_elem) (rest : List data_elem) :
    pfx_table_del_elem (pre ++ e :: rest) pre.length = pre ++ rest := by
  unfold pfx_table_del_elem
  by_cases h : pre.length ≠ (pre ++ e :: rest).length - 1
  · simp only [h, ne_eq, not_false_eq_true, if_true]
    have hn : (pre ++ e :: rest).length - 1 - pre.length = rest.length := by simp
    rw [hn, pfx_table_del_elem_shift_eq _ pre e rest rfl]
    have : (pre ++ e :: rest).length - 1 = (pre ++ rest).length := by simp
    rw [this, List.take_left']
    rfl
  · have hr : rest = [] := by
      simp only [List.length_append, List.length_cons, ne_eq, not_not] at h
      exact List.length_eq_zero.mp (by omega)
    subst hr
    simp

/-! ## Lemmas on the trie primitives -/

@[simp] theorem mrecords_nil : lpfst_node.nil.mrecords = 0 := rfl

@[simp] theorem mrecords_node (p : ip_addr) (l : Nat) (d : List data_elem) (lc rc : lpfst_node) :
    (lpfst_node.node p l d lc rc).mrecords = node_records p l d + (lc.mrecords + rc.mrecords) := by
  simp [lpfst_node.mrecords, lpfst_node.records, node_records]

theorem perm_of_mrecords {a b : lpfst_node} (h : a.mrecords = b.mrecords) :
    List.Perm a.records b.records := Multiset.coe_eq_coe.mp h

theorem mrecords_remove_holder :
    ∀ t : lpfst_node, (lpfst_remove_holder t).1.mrecords +
      node_records (match t with | .nil => ⟨.IPV4, 0⟩ | .node p _ _ _ _ => p) t.getLen t.getData
        = t.mrecords := by
  intro t
  induction t using lpfst_remove_holder.induct with
  | case1 => simp [lpfst_remove_holder, lpfst_node.getData, node_records]
  | case2 p l d => simp [lpfst_remove_holder, lpfst_node.getData, lpfst_node.getLen]
  | case3 p l d cp cl cd clc crc ih =>
    simp only [lpfst_remove_holder, lpfst_node.getData, lpfst_node.getLen, mrecords_node,
      mrecords_nil] at ih ⊢
    rw [← ih]; abel
  | case4 p l d cp cl cd clc crc ih =>
    simp only [lpfst_remove_holder, lpfst_node.getData, lpfst_node.getLen, mrecords_node,
      mrecords_nil] at ih ⊢
    rw [← ih]; abel
  | case5 p l d ap al ad alc arc bp bl bd blc brc h ih =>
    simp only [lpfst_remove_holder, lpfst_node.getData, lpfst_node.getLen, mrecords_node,
      mrecords_nil, if_pos h] at ih ⊢
    rw [← ih]; abel
  | case6 p l d ap al ad alc arc bp bl bd blc brc h ih =>
    simp only [lpfst_remove_holder, lpfst_node.getData, lpfst_node.getLen, mrecords_node,
      mrecords_nil, if_neg h] at ih ⊢
    rw [← ih]; abel

theorem remove_holder_node (p : ip_addr) (l : Nat) (d : List data_elem) (lc rc : lpfst_node) :
    (lpfst_remove_holder (.node p l d lc rc)).1.mrecords = lc.mrecords + rc.mrecords := by
  have h := mrecords_remove_holder (.node p l d lc rc)
  simp only [lpfst_node.getData, lpfst_node.getLen, mrecords_node] at h
  rw [add_comm] at h
  exact add_left_cancel h

theorem remove_holder_size :
    ∀ t : lpfst_node, (lpfst_remove_holder t).1.size + 1 = max t.size 1 ∧
      ((lpfst_remove_holder t).2 = [] → (lpfst_remove_holder t).1 = .nil) ∧
      ((lpfst_remove_holder t).2 ≠ [] → (lpfst_remove_holder t).1.isNull = false) := by
  intro t
  induction t using lpfst_remove_holder.induct with
  | case1 => simp [lpfst_remove_holder, lpfst_node.size]
  | case2 p l d => simp [lpfst_remove_holder, lpfst_node.size]
  | case3 p l d cp cl cd clc crc ih =>
    simp only [lpfst_remove_holder, lpfst_node.size, lpfst_node.isNull] at ih ⊢
    refine ⟨by omega, by simp, by simp⟩
  | case4 p l d cp cl cd clc crc ih =>
    simp only [lpfst_remove_holder, lpfst_node.size, lpfst_node.isNull] at ih ⊢
    refine ⟨by omega, by simp, by simp⟩
  | case5 p l d ap al ad alc arc bp bl bd blc brc h ih =>
    simp only [lpfst_remove_holder, lpfst_node.size, lpfst_node.isNull, if_pos h] at ih ⊢
    refine ⟨by omega, by simp, by simp⟩
  | case6 p l d ap al ad alc arc bp bl bd blc brc h ih =>
    simp only [lpfst_remove_holder, lpfst_node.size, lpfst_node.isNull, if_neg h] at ih ⊢
    refine ⟨by omega, by simp, by simp⟩

/-- What `lpfst_remove` does to the records: the holder's elements leave, the
rest stays; one node goes; the node unlinked is the start node only when
nothing remains. -/
theorem lpfst_remove_spec {pfx : ip_addr} {len : Nat} :
    ∀ (t : lpfst_node) (lvl : Nat) (t' : lpfst_node) (rm : List Bool) (rd : List data_elem),
      lpfst_remove t pfx len lvl = some (t', rm, rd) →
        t.mrecords = node_records pfx len rd + t'.mrecords ∧ t'.size + 1 = t.size ∧
          (rm = [] → t' = .nil) ∧ (rm ≠ [] → t'.isNull = false) := by
  intro t
  induction t with
  | nil => intro lvl t' rm rd h; simp [lpfst_remove] at h
  | node p l d lc rc ihl ihr =>
    intro lvl t' rm rd h
    unfold lpfst_remove at h
    split_ifs at h with h1 h2
    · simp only [Option.some.injEq, Prod.mk.injEq] at h
      obtain ⟨rfl, rfl, rfl⟩ := h
      obtain ⟨rfl, rfl⟩ := h1
      have hs := remove_holder_size (.node p l d lc rc)
      refine ⟨?_, ?_, hs.2.1, hs.2.2⟩
      · rw [remove_holder_node, mrecords_node]
      · have := hs.1
        simp only [lpfst_node.size] at this ⊢
        omega
    · cases hr : lpfst_remove lc pfx len (lvl + 1) with
      | none => simp [hr] at h
      | some r =>
        obtain ⟨s, rm', rd'⟩ := r
        simp only [hr, Option.some.injEq, Prod.mk.injEq] at h
        obtain ⟨rfl, rfl, rfl⟩ := h
        obtain ⟨hm, hsz, _, _⟩ := ihl _ _ _ _ hr
        refine ⟨?_, ?_, by simp, by simp [lpfst_node.isNull]⟩
        · simp only [mrecords_node, hm]; abel
        · simp only [lpfst_node.size]; omega
    · cases hr : lpfst_remove rc pfx len (lvl + 1) with
      | none => simp [hr] at h
      | some r =>
        obtain ⟨s, rm', rd'⟩ := r
        simp only [hr, Option.some.injEq, Prod.mk.injEq] at h
        obtain ⟨rfl, rfl, rfl⟩ := h
        obtain ⟨hm, hsz, _, _⟩ := ihr _ _ _ _ hr
        refine ⟨?_, ?_, by simp, by simp [lpfst_node.isNull]⟩
        · simp only [mrecords_node, hm]; abel
        · simp only [lpfst_node.size]; omega

/-- At the holder itself `lpfst_remove` always succeeds. -/
theorem lpfst_remove_at_holder (p : ip_addr) (l : Nat) (d : List data_elem)
    (lc rc : lpfst_node) (lvl : Nat) :
    lpfst_remove (.node p l d lc rc) p l lvl =
      some ((lpfst_remove_holder (.node p l d lc rc)).1,
        (lpfst_remove_holder (.node p l d lc rc)).2, d) := by
  simp [lpfst_remove]

theorem lpfst_lookup_exact_found {pfx : ip_addr} {len : Nat} :
    ∀ (root : lpfst_node) (lvl : Nat), (lpfst_lookup_exact root pfx len lvl).2.2 = true →
      ∃ d lc rc, root.sub (lpfst_lookup_exact root pfx len lvl).1 = .node pfx len d lc rc := by
  intro root
  induction root with
  | nil => intro lvl h; simp [lpfst_lookup_exact] at h
  | node p l d lc rc ihl ihr =>
    intro lvl h
    unfold lpfst_lookup_exact at h ⊢
    split_ifs at h ⊢ with h1 h2 h3 h4 h5
    · obtain ⟨rfl, rfl⟩ := h1
      exact ⟨d, lc, rc, rfl⟩
    · simpa [lpfst_node.sub] using ihl _ h
    · simpa [lpfst_node.sub] using ihr _ h

/-- The records around the node a path points at: they are the node's own
records plus a rest that `setData` and `replace` leave alone. -/
theorem mrecords_at_path :
    ∀ (root : lpfst_node) (path : List Bool) (p : ip_addr) (l : Nat) (d : List data_elem)
      (lc rc : lpfst_node), root.sub path = .node p l d lc rc →
      ∃ rest : Multiset pfx_record,
        root.mrecords = (lpfst_node.node p l d lc rc).mrecords + rest ∧
        (∀ d', (root.setData path d').mrecords = (lpfst_node.node p l d' lc rc).mrecords + rest) ∧
        (∀ d', (root.setData path d').sub path = .node p l d' lc rc) ∧
        (∀ s, (root.replace path s).mrecords = s.mrecords + rest) := by
  intro root
  induction root with
  | nil =>
    intro path p l d lc rc h
    cases path <;> simp [lpfst_node.sub] at h
  | node p0 l0 d0 lc0 rc0 ihl ihr =>
    intro path p l d lc rc h
    cases path with
    | nil =>
      simp only [lpfst_node.sub, lpfst_node.node.injEq] at h
      obtain ⟨rfl, rfl, rfl, rfl, rfl⟩ := h
      exact ⟨0, by simp, by simp [lpfst_node.setData], by simp [lpfst_node.setData,
        lpfst_node.sub], by simp [lpfst_node.replace]⟩
    | cons b q =>
      cases b with
      | true =>
        simp only [lpfst_node.sub, if_true] at h
        obtain ⟨rest, h1, h2, h3, h4⟩ := ihr q p l d lc rc h
        refine ⟨rest + (node_records p0 l0 d0 + lc0.mrecords), ?_, ?_, ?_, ?_⟩
        · rw [mrecords_node, h1]; abel
        · intro d'; simp only [lpfst_node.setData, if_true, mrecords_node p0, h2]; abel
        · intro d'; simp only [lpfst_node.setData, lpfst_node.sub, if_true, h3]
        · intro s; simp only [lpfst_node.replace, if_true, mrecords_node p0, h4]; abel
      | false =>
        simp only [lpfst_node.sub, Bool.false_eq_true, if_false] at h
        obtain ⟨rest, h1, h2, h3, h4⟩ := ihl q p l d lc rc h
        refine ⟨rest + (node_records p0 l0 d0 + rc0.mrecords), ?_, ?_, ?_, ?_⟩
        · rw [mrecords_node, h1]; abel
        · intro d'
          simp only [lpfst_node.setData, Bool.false_eq_true, if_false, mrecords_node p0, h2]; abel
        · intro d'
          simp only [lpfst_node.setData, lpfst_node.sub, Bool.false_eq_true, if_false, h3]
        · intro s
          simp only [lpfst_node.replace, Bool.false_eq_true, if_false, mrecords_node p0, h4]; abel

/-! ## Removal (C4, C7, C8) -/

@[simp] theorem pfx_table_get_set_root (t : pfx_table) (v : ip_version) (x : lpfst_node) :
    pfx_table_get_root (pfx_table_set_root t v x) v = x := by
  cases v <;> simp [pfx_table_get_root, pfx_table_set_root]

theorem pfx_table_get_set_root_ne (t : pfx_table) (v w : ip_version) (x : lpfst_node)
    (h : w ≠ v) : pfx_table_get_root (pfx_table_set_root t v x) w = pfx_table_get_root t w := by
  cases v <;> cases w <;> simp_all [pfx_table_get_root, pfx_table_set_root]

theorem mem_node_records (p : ip_addr) (l : Nat) (d : List data_elem) (r : pfx_record) :
    r ∈ node_records p l d ↔ r.elem ∈ d ∧ p = r.pfx ∧ l = r.min_len := by
  simp only [node_records, Multiset.mem_coe, List.mem_map, data_elem.record_eq_iff]
  constructor
  · rintro ⟨e, he, rfl, h2, h3⟩; exact ⟨he, h2, h3⟩
  · rintro ⟨he, h2, h3⟩; exact ⟨_, he, rfl, h2, h3⟩

theorem mem_mrecords (t : lpfst_node) (r : pfx_record) : r ∈ t.mrecords ↔ r ∈ t.records := by
  simp [lpfst_node.mrecords]

/-- What a removal that returns does: either nothing was found and nothing
changed, or the records of the trie lose exactly one copy of the record and
the other trie stays. -/
theorem pfx_table_remove_result (t : pfx_table) (r : pfx_record) (rv : pfx_rtvals)
    (t' : pfx_table) (n : List update_call) (h : pfx_table_remove t r = some (rv, t', n)) :
    (rv = .PFX_RECORD_NOT_FOUND ∧ t' = t ∧ n = []) ∨
    (rv = .PFX_SUCCESS ∧ ∃ x : lpfst_node, t' = pfx_table_set_root t r.pfx.ver x ∧
      (pfx_table_get_root t r.pfx.ver).mrecords = {r} + x.mrecords ∧
      n = pfx_table_notify_clients t r false) := by
  unfold pfx_table_remove at h
  by_cases hf : (lpfst_lookup_exact (pfx_table_get_root t r.pfx.ver) r.pfx r.min_len 0).2.2 = false
  · simp only [hf, if_true, Option.some.injEq, Prod.mk.injEq] at h
    exact Or.inl ⟨h.1.symm, h.2.1.symm, h.2.2.symm⟩
  · have hf' : (lpfst_lookup_exact (pfx_table_get_root t r.pfx.ver) r.pfx r.min_len 0).2.2
        = true := by simpa using hf
    obtain ⟨d, lc, rc, hsub⟩ := lpfst_lookup_exact_found _ _ hf'
    obtain ⟨rest, h1, h2, h3, h4⟩ := mrecords_at_path _ _ _ _ _ _ _ hsub
    simp only [hf', Bool.true_eq_false, if_false, hsub, lpfst_node.getData] at h
    cases hfe : pfx_table_find_elem d r with
    | none =>
      simp only [hfe, Option.some.injEq, Prod.mk.injEq] at h
      exact Or.inl ⟨h.1.symm, h.2.1.symm, h.2.2.symm⟩
    | some i =>
      obtain ⟨pre, post, hd, hl, -⟩ := pfx_table_find_elem_some _ _ _ hfe
      subst hl
      have hdel : pfx_table_del_elem d pre.length = pre ++ post := by
        rw [hd, pfx_table_del_elem_eq]
      have hrec : node_records r.pfx r.min_len d =
          {r} + node_records r.pfx r.min_len (pre ++ post) := by
        rw [hd]
        simp only [node_records, List.map_append, List.map_cons, pfx_record.elem_record,
          ← Multiset.coe_add, ← Multiset.cons_coe, ← Multiset.singleton_add]
        abel
      simp only [hfe, hdel, h3] at h
      right
      by_cases hlen : (pre ++ post).length = 0
      · simp only [hlen, if_true] at h
        cases hrm : lpfst_remove (.node r.pfx r.min_len (pre ++ post) lc rc) r.pfx
            (pfx_table_get_root t r.pfx.ver).getLen
            (lpfst_lookup_exact (pfx_table_get_root t r.pfx.ver) r.pfx r.min_len 0).2.1 with
        | none => simp [hrm] at h
        | some res =>
          obtain ⟨sub', rm, rdata⟩ := res
          simp only [hrm] at h
          by_cases hrd : rdata.length = 0
          · simp only [hrd, if_true, Option.some.injEq, Prod.mk.injEq] at h
            obtain ⟨rfl, rfl, rfl⟩ := h
            obtain ⟨hm, -, hnil, -⟩ := lpfst_remove_spec _ _ _ _ _ hrm
            have hrd0 : rdata = [] := List.length_eq_zero.mp hrd
            subst hrd0
            have hpp : pre ++ post = [] := List.length_eq_zero.mp hlen
            refine ⟨rfl, _, rfl, ?_, rfl⟩
            have hx : (if (lpfst_lookup_exact (pfx_table_get_root t r.pfx.ver) r.pfx
                    r.min_len 0).1 ++ rm = [] then lpfst_node.nil
                else ((pfx_table_get_root t r.pfx.ver).setData
                  (lpfst_lookup_exact (pfx_table_get_root t r.pfx.ver) r.pfx r.min_len 0).1
                    (pre ++ post)).replace
                  (lpfst_lookup_exact (pfx_table_get_root t r.pfx.ver) r.pfx r.min_len 0).1 sub')
                = ((pfx_table_get_root t r.pfx.ver).setData
                  (lpfst_lookup_exact (pfx_table_get_root t r.pfx.ver) r.pfx r.min_len 0).1
                    (pre ++ post)).replace
                  (lpfst_lookup_exact (pfx_table_get_root t r.pfx.ver) r.pfx
                    r.min_len 0).1 sub' := by
              split_ifs with hnn
              · simp only [List.append_eq_nil] at hnn
                rw [hnn.1, hnil hnn.2]
                cases (pfx_table_get_root t r.pfx.ver).setData [] (pre ++ post) <;>
                  simp [lpfst_node.replace]
              · rfl
            rw [hx]
            obtain ⟨rest2, g1, -, -, g4⟩ := mrecords_at_path _ _ _ _ _ _ _ (h3 (pre ++ post))
            rw [g4 sub', h1, mrecords_node, hrec]
            have e1 := h2 (pre ++ post)
            rw [g1] at e1
            have e2 : rest2 = rest := add_left_cancel e1
            rw [e2]
            simp only [mrecords_node, hpp] at hm
            simp only [hpp]
            have hz : node_records r.pfx r.min_len [] = 0 := rfl
            have hz2 : node_records r.pfx (pfx_table_get_root t r.pfx.ver).getLen [] = 0 := rfl
            rw [hz2, zero_add] at hm
            rw [hz, zero_add] at hm
            rw [hz, ← hm]
            abel
          · simp [hrd] at h
      · simp only [hlen, if_false, Option.some.injEq, Prod.mk.injEq] at h
        obtain ⟨rfl, rfl, rfl⟩ := h
        refine ⟨rfl, _, rfl, ?_, rfl⟩
        rw [h2, h1, mrecords_node, mrecords_node, hrec]
        abel

/-- C4 (the code at the failing input): in the store reached by adding
10.1.0.0/16 and then 10.0.0.0/8 the record 10.0.0.0/8 is stored in the left
child of the root and `lpfst_lookup_exact` finds it there, but
`pfx_table_remove` does not return: it passes `root->len` (16) instead of the
record's `min_len` (8) to `lpfst_remove`, no holder of (10.0.0.0, 16) exists
below the node, and `assert(node != NULL)` fails. -/
theorem C4_remove_non_root_node_fails :
    Reachable ex_store_16_8 ∧
    ex_rec_8 ∈ (pfx_table_get_root ex_store_16_8 .IPV4).records ∧
    lpfst_lookup_exact ex_store_16_8.ipv4 ex_rec_8.pfx ex_rec_8.min_len 0 = ([false], 1, true) ∧
    pfx_table_remove ex_store_16_8 ex_rec_8 = none := by
  refine ⟨?_, by decide, by decide, by decide⟩
  have h16 : ex_rec_16.wf := pfx_record.wf_of_check _ (by decide)
  have h8 : ex_rec_8.wf := pfx_record.wf_of_check _ (by decide)
  have h1 : pfx_table_add (pfx_table_init true) ex_rec_16 =
      some (.PFX_SUCCESS, ex_store_16, [(ex_rec_16, true)]) := by decide
  have h2 : pfx_table_add ex_store_16 ex_rec_8 =
      some (.PFX_SUCCESS, ex_store_16_8, [(ex_rec_8, true)]) := by decide
  exact Reachable.add _ (Reachable.add _ (Reachable.init true) h16 h1) h8 h2

/-- C8 (the code at the failing input): the store that holds 10.1.0.0/16 is
reachable and does not hold 10.0.0.0/8; `pfx_table_add` of 10.0.0.0/8 returns
OK, and the `pfx_table_remove` of the same record that follows does not
return OK: it fails in `assert(node != NULL)`, `lpfst_remove` having been
asked for the key (10.0.0.0, `root->len` = 16). -/
theorem C8_add_then_remove_fails :
    Reachable ex_store_16 ∧ ex_rec_8.wf ∧
    ex_rec_8 ∉ ex_store_16.records ∧
    pfx_table_add ex_store_16 ex_rec_8 =
      some (.PFX_SUCCESS, ex_store_16_8, [(ex_rec_8, true)]) ∧
    pfx_table_remove ex_store_16_8 ex_rec_8 = none := by
  have h16 : ex_rec_16.wf := pfx_record.wf_of_check _ (by decide)
  have h8 : ex_rec_8.wf := pfx_record.wf_of_check _ (by decide)
  have h1 : pfx_table_add (pfx_table_init true) ex_rec_16 =
      some (.PFX_SUCCESS, ex_store_16, [(ex_rec_16, true)]) := by decide
  exact ⟨Reachable.add _ (Reachable.init true) h16 h1, h8, by decide, by decide, by decide⟩

/-! ## Lemmas on insertion -/

theorem lpfst_swap_up_mrecords (b : Bool) (t : lpfst_node) :
    (lpfst_swap_up b t).1.mrecords = t.mrecords := by
  cases t with
  | nil => rfl
  | node p l d lc rc =>
    unfold lpfst_swap_up
    cases b with
    | true =>
      cases rc with
      | nil => simp
      | node cp cl cd clc crc =>
        simp only [if_true]
        split_ifs
        · simp only [mrecords_node]; abel
        · rfl
    | false =>
      cases lc with
      | nil => simp
      | node cp cl cd clc crc =>
        simp only [Bool.false_eq_true, if_false]
        split_ifs
        · simp only [mrecords_node]; abel
        · rfl

theorem lpfst_insert_down_mrecords (new_node : lpfst_node) :
    ∀ (t : lpfst_node) (lvl : Nat),
      (lpfst_insert_down t new_node lvl).1.mrecords = new_node.mrecords + t.mrecords := by
  intro t
  induction t with
  | nil => intro lvl; simp [lpfst_insert_down]
  | node p l d lc rc ihl ihr =>
    intro lvl
    cases new_node with
    | nil => simp [lpfst_insert_down]
    | node np nl nd nlc nrc =>
      unfold lpfst_insert_down
      simp only
      split_ifs
      · rw [lpfst_swap_up_mrecords]
        simp only [mrecords_node, ihl]
        abel
      · simp only [mrecords_node, ihl]
        abel
      · rw [lpfst_swap_up_mrecords]
        simp only [mrecords_node, ihr]
        abel
      · simp only [mrecords_node, ihr]
        abel

theorem lpfst_insert_walk_mrecords (new_node : lpfst_node) (lvl : Nat) :
    ∀ (root : lpfst_node) (path : List Bool) (root' : lpfst_node) (mv : Bool),
      lpfst_insert_walk root path new_node lvl = some (root', mv) →
        root'.mrecords = new_node.mrecords + root.mrecords := by
  intro root
  induction root with
  | nil => intro path root' mv h; simp [lpfst_insert_walk] at h
  | node p l d lc rc ihl ihr =>
    intro path root' mv h
    cases path with
    | nil =>
      unfold lpfst_insert_walk at h
      cases new_node with
      | nil => simp at h
      | node np nl nd nlc nrc =>
        simp only [Option.some.injEq] at h
        have := congrArg Prod.fst h
        simp only at this
        rw [← this, lpfst_insert_down_mrecords]
    | cons b q =>
      unfold lpfst_insert_walk at h
      cases b with
      | true =>
        simp only [if_true] at h
        cases hr : lpfst_insert_walk rc q new_node lvl with
        | none => simp [hr] at h
        | some res =>
          obtain ⟨rc', moving⟩ := res
          have hrec := ihr _ _ _ hr
          simp only [hr] at h
          split_ifs at h
          · simp only [Option.some.injEq] at h
            have := congrArg Prod.fst h
            simp only at this
            rw [← this, lpfst_swap_up_mrecords, mrecords_node, hrec, mrecords_node]; abel
          · simp only [Option.some.injEq, Prod.mk.injEq] at h
            rw [← h.1, mrecords_node, hrec, mrecords_node]; abel
      | false =>
        simp only [Bool.false_eq_true, if_false] at h
        cases hr : lpfst_insert_walk lc q new_node lvl with
        | none => simp [hr] at h
        | some res =>
          obtain ⟨lc', moving⟩ := res
          have hrec := ihl _ _ _ hr
          simp only [hr] at h
          split_ifs at h
          · simp only [Option.some.injEq] at h
            have := congrArg Prod.fst h
            simp only at this
            rw [← this, lpfst_swap_up_mrecords, mrecords_node, hrec, mrecords_node]; abel
          · simp only [Option.some.injEq, Prod.mk.injEq] at h
            rw [← h.1, mrecords_node, hrec, mrecords_node]; abel

/-- On a trie that is not empty `lpfst_lookup_exact` returns a node. -/
theorem lpfst_lookup_exact_node {pfx : ip_addr} {len : Nat} :
    ∀ (root : lpfst_node) (lvl : Nat), root.isNull = false →
      (root.sub (lpfst_lookup_exact root pfx len lvl).1).isNull = false := by
  intro root
  induction root with
  | nil => intro lvl h; simp [lpfst_node.isNull] at h
  | node p l d lc rc ihl ihr =>
    intro lvl _
    unfold lpfst_lookup_exact
    split_ifs with h1 h2 h3 h4 h5
    · rfl
    · rfl
    · rfl
    · simp only [lpfst_node.sub, Bool.false_eq_true, if_false]
      exact ihl _ (by simpa using h4)
    · rfl
    · simp only [lpfst_node.sub, if_true]
      exact ihr _ (by simpa using h5)

/-- The insertion at a node of the trie always gives a trie. -/
theorem lpfst_insert_walk_some (np : ip_addr) (nl : Nat) (nd : List data_elem)
    (nlc nrc : lpfst_node) (lvl : Nat) :
    ∀ (root : lpfst_node) (path : List Bool), (root.sub path).isNull = false →
      ∃ res, lpfst_insert_walk root path (.node np nl nd nlc nrc) lvl = some res := by
  intro root
  induction root with
  | nil => intro path h; cases path <;> simp [lpfst_node.sub, lpfst_node.isNull] at h
  | node p l d lc rc ihl ihr =>
    intro path h
    cases path with
    | nil => exact ⟨_, rfl⟩
    | cons b q =>
      unfold lpfst_insert_walk
      cases b with
      | true =>
        simp only [lpfst_node.sub, if_true] at h
        obtain ⟨res, hres⟩ := ihr q h
        simp only [if_true, hres]
        split_ifs <;> exact ⟨_, rfl⟩
      | false =>
        simp only [lpfst_node.sub, Bool.false_eq_true, if_false] at h
        obtain ⟨res, hres⟩ := ihl q h
        simp only [Bool.false_eq_true, if_false, hres]
        split_ifs <;> exact ⟨_, rfl⟩

/-- The addition always returns: no path of `pfx_table_add` leaves the
defined behaviour. -/
theorem pfx_table_add_total (t : pfx_table) (r : pfx_record) :
    ∃ rv t' n, pfx_table_add t r = some (rv, t', n) := by
  unfold pfx_table_add
  by_cases hnull : (pfx_table_get_root t r.pfx.ver).isNull = false
  · simp only [hnull, if_true]
    by_cases hf : (lpfst_lookup_exact (pfx_table_get_root t r.pfx.ver) r.pfx r.min_len 0).2.2
        = true
    · simp only [hf, if_true]
      split_ifs <;> exact ⟨_, _, _, rfl⟩
    · simp only [hf, Bool.false_eq_true, if_false]
      obtain ⟨res, hres⟩ := lpfst_insert_walk_some r.pfx r.min_len
        (pfx_table_append_elem [] r) .nil .nil
        (lpfst_lookup_exact (pfx_table_get_root t r.pfx.ver) r.pfx r.min_len 0).2.1
        (pfx_table_get_root t r.pfx.ver)
        (lpfst_lookup_exact (pfx_table_get_root t r.pfx.ver) r.pfx r.min_len 0).1
        (@lpfst_lookup_exact_node r.pfx r.min_len (pfx_table_get_root t r.pfx.ver) 0 hnull)
      simp only [lpfst_insert, pfx_table_create_node, hres, Option.map_some']
      exact ⟨_, _, _, rfl⟩
  · simp only [hnull, if_false]
    exact ⟨_, _, _, rfl⟩

/-! ## Addition (C5, C6) -/

theorem create_node_mrecords (r : pfx_record) : (pfx_table_create_node r).mrecords = {r} := by
  simp [pfx_table_create_node, pfx_table_append_elem, node_records, pfx_record.elem_record]

theorem node_records_append_elem (r : pfx_record) (d : List data_elem) :
    node_records r.pfx r.min_len (pfx_table_append_elem d r) =
      {r} + node_records r.pfx r.min_len d := by
  simp only [node_records, pfx_table_append_elem, List.map_append, List.map_cons, List.map_nil,
    pfx_record.elem_record, ← Multiset.coe_add, Multiset.coe_singleton]
  abel

theorem perm_cons_of_mrecords {x root : lpfst_node} {r : pfx_record}
    (h : x.mrecords = {r} + root.mrecords) : List.Perm x.records (r :: root.records) := by
  apply Multiset.coe_eq_coe.mp
  rw [← Multiset.cons_coe, ← Multiset.singleton_add]
  exact h

/-- What an addition that returns does: either the record was found on the
node `lpfst_lookup_exact` returns and nothing changed, or the trie of the
record's version gains exactly the record and the other trie stays. -/
theorem pfx_table_add_result (t : pfx_table) (r : pfx_record) (rv : pfx_rtvals)
    (t' : pfx_table) (n : List update_call) (h : pfx_table_add t r = some (rv, t', n)) :
    (rv = .PFX_DUPLICATE_RECORD ∧ t' = t ∧ n = [] ∧
      (lpfst_lookup_exact (pfx_table_get_root t r.pfx.ver) r.pfx r.min_len 0).2.2 = true ∧
      r.elem ∈ ((pfx_table_get_root t r.pfx.ver).sub
        (lpfst_lookup_exact (pfx_table_get_root t r.pfx.ver) r.pfx r.min_len 0).1).getData) ∨
    (rv = .PFX_SUCCESS ∧ ∃ x : lpfst_node, t' = pfx_table_set_root t r.pfx.ver x ∧
      x.mrecords = {r} + (pfx_table_get_root t r.pfx.ver).mrecords ∧
      n = pfx_table_notify_clients t r true) := by
  unfold pfx_table_add at h
  by_cases hnull : (pfx_table_get_root t r.pfx.ver).isNull = false
  · simp only [hnull, if_true] at h
    by_cases hf : (lpfst_lookup_exact (pfx_table_get_root t r.pfx.ver) r.pfx r.min_len 0).2.2
        = true
    · simp only [hf, if_true] at h
      obtain ⟨d, lc, rc, hsub⟩ := lpfst_lookup_exact_found _ _ hf
      obtain ⟨rest, h1, h2, -, -⟩ := mrecords_at_path _ _ _ _ _ _ _ hsub
      simp only [hsub, lpfst_node.getData] at h ⊢
      cases hfe : pfx_table_find_elem d r with
      | some i =>
        simp only [hfe, Option.isSome_some, if_true, Option.some.injEq, Prod.mk.injEq] at h
        obtain ⟨rfl, rfl, rfl⟩ := h
        left
        refine ⟨rfl, rfl, rfl, hf, ?_⟩
        by_contra hc
        rw [← pfx_table_find_elem_none] at hc
        rw [hc] at hfe
        cases hfe
      | none =>
        simp only [hfe, Option.isSome_none, Bool.false_eq_true, if_false, Option.some.injEq,
          Prod.mk.injEq] at h
        obtain ⟨rfl, rfl, rfl⟩ := h
        right
        refine ⟨rfl, _, rfl, ?_, rfl⟩
        rw [h2, h1, mrecords_node, mrecords_node, node_records_append_elem]
        abel
    · simp only [hf, Bool.false_eq_true, if_false] at h
      unfold lpfst_insert at h
      cases hw : lpfst_insert_walk (pfx_table_get_root t r.pfx.ver)
          (lpfst_lookup_exact (pfx_table_get_root t r.pfx.ver) r.pfx r.min_len 0).1
          (pfx_table_create_node r)
          (lpfst_lookup_exact (pfx_table_get_root t r.pfx.ver) r.pfx r.min_len 0).2.1 with
      | none => simp [hw] at h
      | some res =>
        obtain ⟨root', mv⟩ := res
        simp only [hw, Option.map_some', Option.some.injEq, Prod.mk.injEq] at h
        obtain ⟨rfl, rfl, rfl⟩ := h
        right
        refine ⟨rfl, _, rfl, ?_, rfl⟩
        rw [lpfst_insert_walk_mrecords _ _ _ _ _ _ hw, create_node_mrecords]
  · have hn : (pfx_table_get_root t r.pfx.ver) = .nil := by
      cases hr : pfx_table_get_root t r.pfx.ver with
      | nil => rfl
      | node _ _ _ _ _ => rw [hr] at hnull; simp [lpfst_node.isNull] at hnull
    simp only [hnull, if_false, Option.some.injEq, Prod.mk.injEq] at h
    obtain ⟨rfl, rfl, rfl⟩ := h
    right
    refine ⟨rfl, _, rfl, ?_, rfl⟩
    rw [create_node_mrecords, hn]
    simp

theorem isNull_false_size (t : lpfst_node) (h : t.isNull = false) : 1 ≤ t.size := by
  cases t with
  | nil => simp [lpfst_node.isNull] at h
  | node _ _ _ _ _ => simp only [lpfst_node.size]; omega

/-- The drain of one trie reports every record of the trie once. -/
theorem pfx_table_free_loop_spec (t : pfx_table) (hfp : t.update_fp = true) :
    ∀ (fuel : Nat) (root : lpfst_node), root.isNull = false → root.size ≤ fuel →
      ∃ notes : List update_call, pfx_table_free_loop fuel t root = some notes ∧
        (notes : Multiset update_call) = root.mrecords.map (fun r => (r, false)) := by
  intro fuel
  induction fuel with
  | zero =>
    intro root hn hs
    have := isNull_false_size root hn
    omega
  | succ fuel ih =>
    intro root hn hs
    cases root with
    | nil => simp [lpfst_node.isNull] at hn
    | node p l d lc rc =>
      have hnotes : (List.flatMap d fun e => pfx_table_notify_clients t (e.record p l) false) =
          d.map (fun e => (e.record p l, false)) := by
        simp only [pfx_table_notify_clients, hfp, if_true]
        clear hn hs
        induction d with
        | nil => rfl
        | cons e es ihd => simp [List.flatMap_cons, ihd]
      have hmap : ((d.map (fun e => (e.record p l, false)) : List update_call) :
            Multiset update_call) = (node_records p l d).map (fun r => (r, false)) := by
        simp [node_records, Function.comp_def]
      unfold pfx_table_free_loop
      simp only [lpfst_remove_at_holder, hnotes]
      obtain ⟨hsz, hnil, hnn⟩ := remove_holder_size (.node p l d lc rc)
      have hrec := remove_holder_node p l d lc rc
      by_cases hrm : (lpfst_remove_holder (.node p l d lc rc)).2 = []
      · simp only [hrm, if_true]
        refine ⟨_, rfl, ?_⟩
        rw [hnil hrm] at hrec
        rw [mrecords_node, ← hrec, hmap]
        simp
      · simp only [hrm, if_false]
        have hsz' : (lpfst_remove_holder (.node p l d lc rc)).1.size ≤ fuel := by
          simp only [lpfst_node.size] at hsz hs
          omega
        obtain ⟨notes', h1, h2⟩ := ih _ (hnn hrm) hsz'
        rw [h1]
        refine ⟨_, rfl, ?_⟩
        rw [← Multiset.coe_add, h2, hmap, hrec, mrecords_node]
        simp only [Multiset.map_add]

/-- C10: for every store with a registered update callback, holding N records
in all (any mix of sources, IPv4 and IPv6), `pfx_table_free` terminates,
leaves both tries empty, and invokes the callback exactly N times, always
with added = false: the invocations are, up to their order, the stored
records (prefix, min_len, asn, max_len, source_id), one invocation for each. -/
theorem C10_free_reports_every_record (t : pfx_table) (hfp : t.update_fp = true) :
    ∃ notes : List update_call,
      pfx_table_free t = some ({ ipv4 := .nil, ipv6 := .nil, update_fp := t.update_fp }, notes) ∧
      List.Perm notes (t.records.map (fun r => (r, false))) ∧
      notes.length = t.records.length := by
  have h4 : ∃ n4 : List update_call,
      (if t.ipv4.isNull then some [] else pfx_table_free_loop t.ipv4.size t t.ipv4) = some n4 ∧
        (n4 : Multiset update_call) = t.ipv4.mrecords.map (fun r => (r, false)) := by
    by_cases hn : t.ipv4.isNull = true
    · have : t.ipv4 = .nil := by
        cases h : t.ipv4 with
        | nil => rfl
        | node _ _ _ _ _ => rw [h] at hn; simp [lpfst_node.isNull] at hn
      exact ⟨[], by simp [hn], by simp [this]⟩
    · obtain ⟨n, h1, h2⟩ := pfx_table_free_loop_spec t hfp _ t.ipv4 (by simpa using hn) le_rfl
      exact ⟨n, by simp [hn, h1], h2⟩
  have h6 : ∃ n6 : List update_call,
      (if t.ipv6.isNull then some [] else pfx_table_free_loop t.ipv6.size t t.ipv6) = some n6 ∧
        (n6 : Multiset update_call) = t.ipv6.mrecords.map (fun r => (r, false)) := by
    by_cases hn : t.ipv6.isNull = true
    · have : t.ipv6 = .nil := by
        cases h : t.ipv6 with
        | nil => rfl
        | node _ _ _ _ _ => rw [h] at hn; simp [lpfst_node.isNull] at hn
      exact ⟨[], by simp [hn], by simp [this]⟩
    · obtain ⟨n, h1, h2⟩ := pfx_table_free_loop_spec t hfp _ t.ipv6 (by simpa using hn) le_rfl
      exact ⟨n, by simp [hn, h1], h2⟩
  obtain ⟨n4, e4, m4⟩ := h4
  obtain ⟨n6, e6, m6⟩ := h6
  have hperm : List.Perm (n4 ++ n6) (t.records.map (fun r => (r, false))) := by
    apply Multiset.coe_eq_coe.mp
    rw [← Multiset.coe_add, m4, m6, pfx_table.records, List.map_append, ← Multiset.coe_add]
    simp [lpfst_node.mrecords]
  refine ⟨n4 ++ n6, ?_, hperm, ?_⟩
  · unfold pfx_table_free
    rw [e4, e6]
  · rw [hperm.length_eq, List.length_map]

/-- C10 (witness): the teardown of the store that holds 10.1.0.0/16 and
10.0.0.0/8. -/
theorem C10_free_reports_every_record_witness :
    ∃ notes : List update_call,
      pfx_table_free ex_store_16_8 =
        some ({ ipv4 := .nil, ipv6 := .nil, update_fp := ex_store_16_8.update_fp }, notes) ∧
      List.Perm notes (ex_store_16_8.records.map (fun r => (r, false))) ∧
      notes.length = ex_store_16_8.records.length :=
  C10_free_reports_every_record ex_store_16_8 (by decide)

/-! ## Source sweep (C9) -/

/-- The scan of one node keeps the elements of other sources, in order, and
reports those of the source. -/
theorem pfx_table_remove_id_scan_eq (p : ip_addr) (l : Nat) (s : Nat) :
    ∀ (n : Nat) (pre rest : List data_elem), rest.length ≤ n →
      pfx_table_remove_id_scan n pre.length (pre ++ rest) p l s =
        (pre ++ rest.filter (fun e => decide (e.socket_id ≠ s)),
          (rest.filter (fun e => decide (e.socket_id = s))).map (fun e => e.record p l)) := by
  intro n
  induction n with
  | zero =>
    intro pre rest h
    have : rest = [] := List.length_eq_zero.mp (by omega)
    subst this
    simp [pfx_table_remove_id_scan]
  | succ n ih =>
    intro pre rest h
    cases rest with
    | nil =>
      unfold pfx_table_remove_id_scan
      simp
    | cons e rest' =>
      have hget : (pre ++ e :: rest').get? pre.length = some e := by
        rw [List.get?_eq_getElem?, List.getElem?_append_right (le_refl _)]
        simp
      unfold pfx_table_remove_id_scan
      rw [hget]
      simp only
      by_cases hs : e.socket_id = s
      · simp only [hs, if_true, pfx_table_del_elem_eq]
        rw [ih pre rest' (by simpa using h)]
        simp [hs]
      · simp only [hs, if_false]
        have := ih (pre ++ [e]) rest' (by simpa using h)
        simp only [List.length_append, List.length_singleton, List.append_assoc,
          List.singleton_append] at this
        rw [this]
        simp [hs]

theorem node_records_filter (p : ip_addr) (l : Nat) (d : List data_elem) (s : Nat) :
    node_records p l (d.filter (fun e => decide (e.socket_id ≠ s))) =
      (node_records p l d).filter (fun r => r.socket_id ≠ s) := by
  simp only [node_records, Multiset.filter_coe, Multiset.coe_eq_coe]
  rw [List.filter_map]
  exact List.Perm.refl _

/-- The sweep of a subtree keeps exactly the records of other sources. -/
theorem pfx_table_remove_id_spec (t : pfx_table) (s : Nat) :
    ∀ (fuel : Nat) (node : lpfst_node) (lvl : Nat), node.isNull = false → node.size ≤ fuel →
      ∃ (sub' : lpfst_node) (notes : List update_call),
        pfx_table_remove_id fuel t node s lvl = some (sub', notes) ∧
        sub'.mrecords = node.mrecords.filter (fun r => r.socket_id ≠ s) := by
  intro fuel
  induction fuel with
  | zero =>
    intro node lvl hn hs
    have := isNull_false_size node hn
    omega
  | succ fuel ih =>
    intro node lvl hn hs
    cases node with
    | nil => simp [lpfst_node.isNull] at hn
    | node p l d lc rc =>
      have hscan := pfx_table_remove_id_scan_eq p l s d.length [] d le_rfl
      simp only [List.length_nil, List.nil_append] at hscan
      unfold pfx_table_remove_id
      simp only [hscan]
      have hfil := node_records_filter p l d s
      by_cases hlen : (d.filter (fun e => decide (e.socket_id ≠ s))).length = 0
      · have hd' : d.filter (fun e => decide (e.socket_id ≠ s)) = [] :=
          List.length_eq_zero.mp hlen
        rw [hd'] at hfil ⊢
        simp only [List.length_nil, if_true, lpfst_remove_at_holder]
        obtain ⟨hsz, hnil, hnn⟩ := remove_holder_size (.node p l [] lc rc)
        have hrec := remove_holder_node p l [] lc rc
        have hz : node_records p l [] = 0 := rfl
        rw [hz] at hfil
        by_cases hrm : (lpfst_remove_holder (.node p l [] lc rc)).2 = []
        · simp only [hrm, if_true]
          refine ⟨_, _, rfl, ?_⟩
          rw [hnil hrm] at hrec
          rw [mrecords_node, Multiset.filter_add, ← hfil, ← hrec]
          simp
        · simp only [hrm, if_false]
          have hsz' : (lpfst_remove_holder (.node p l [] lc rc)).1.size ≤ fuel := by
            simp only [lpfst_node.size] at hsz hs
            omega
          obtain ⟨sub'', notes', h1, h2⟩ := ih _ lvl (hnn hrm) hsz'
          rw [h1]
          refine ⟨_, _, rfl, ?_⟩
          rw [h2, hrec, mrecords_node]
          simp only [Multiset.filter_add]
          rw [← hfil, zero_add]
      · simp only [hlen, if_false]
        have hl : ∃ lc' nl, (if lc.isNull = true then some (lc, [])
              else pfx_table_remove_id fuel t lc s (lvl + 1)) = some (lc', nl) ∧
            lc'.mrecords = lc.mrecords.filter (fun r => r.socket_id ≠ s) := by
          by_cases hc : lc.isNull = true
          · have : lc = .nil := by
              cases lc with
              | nil => rfl
              | node _ _ _ _ _ => simp [lpfst_node.isNull] at hc
            subst this
            exact ⟨.nil, [], by simp [lpfst_node.isNull], by simp⟩
          · obtain ⟨x, nx, h1, h2⟩ := ih lc (lvl + 1) (by simpa using hc)
              (by simp only [lpfst_node.size] at hs; omega)
            exact ⟨x, nx, by simp [hc, h1], h2⟩
        have hr : ∃ rc' nr, (if rc.isNull = true then some (rc, [])
              else pfx_table_remove_id fuel t rc s (lvl + 1)) = some (rc', nr) ∧
            rc'.mrecords = rc.mrecords.filter (fun r => r.socket_id ≠ s) := by
          by_cases hc : rc.isNull = true
          · have : rc = .nil := by
              cases rc with
              | nil => rfl
              | node _ _ _ _ _ => simp [lpfst_node.isNull] at hc
            subst this
            exact ⟨.nil, [], by simp [lpfst_node.isNull], by simp⟩
          · obtain ⟨x, nx, h1, h2⟩ := ih rc (lvl + 1) (by simpa using hc)
              (by simp only [lpfst_node.size] at hs; omega)
            exact ⟨x, nx, by simp [hc, h1], h2⟩
        obtain ⟨lc', nl, e1, m1⟩ := hl
        obtain ⟨rc', nr, e2, m2⟩ := hr
        rw [e1]
        simp only
        rw [e2]
        refine ⟨_, _, rfl, ?_⟩
        simp only [mrecords_node, Multiset.filter_add, hfil, m1, m2]

/-- C9: for every store and every source id s, `pfx_table_src_remove(s)`
returns OK; afterwards no stored record of either trie has source_id = s, and
the stored records are, as a collection, exactly the records stored before
whose source_id differs from s (whatever the node layout, also where emptied
nodes are refilled by payloads promoted from their subtrees). -/
theorem C9_src_remove_purges_source (t : pfx_table) (s : Nat) :
    ∃ (t' : pfx_table) (notes : List update_call),
      pfx_table_src_remove t s = some (.PFX_SUCCESS, t', notes) ∧
      (∀ r ∈ t'.records, r.socket_id ≠ s) ∧
      List.Perm t'.ipv4.records (t.ipv4.records.filter (fun r => decide (r.socket_id ≠ s))) ∧
      List.Perm t'.ipv6.records (t.ipv6.records.filter (fun r => decide (r.socket_id ≠ s))) := by
  have hroot : ∀ root : lpfst_node, ∃ (x : lpfst_node) (nx : List update_call),
      (if root.isNull = true then some (root, [])
        else pfx_table_remove_id root.size t root s 0) = some (x, nx) ∧
      x.mrecords = root.mrecords.filter (fun r => r.socket_id ≠ s) := by
    intro root
    by_cases hc : root.isNull = true
    · have : root = .nil := by
        cases root with
        | nil => rfl
        | node _ _ _ _ _ => simp [lpfst_node.isNull] at hc
      subst this
      exact ⟨.nil, [], by simp [lpfst_node.isNull], by simp⟩
    · obtain ⟨x, nx, h1, h2⟩ := pfx_table_remove_id_spec t s _ root 0 (by simpa using hc) le_rfl
      exact ⟨x, nx, by simp [hc, h1], h2⟩
  obtain ⟨r4, n4, e4, m4⟩ := hroot t.ipv4
  obtain ⟨r6, n6, e6, m6⟩ := hroot t.ipv6
  have p4 : List.Perm r4.records (t.ipv4.records.filter (fun r => decide (r.socket_id ≠ s))) := by
    apply Multiset.coe_eq_coe.mp
    rw [← Multiset.filter_coe]
    exact m4
  have p6 : List.Perm r6.records (t.ipv6.records.filter (fun r => decide (r.socket_id ≠ s))) := by
    apply Multiset.coe_eq_coe.mp
    rw [← Multiset.filter_coe]
    exact m6
  refine ⟨{ t with ipv4 := r4, ipv6 := r6 }, n4 ++ n6, ?_, ?_, p4, p6⟩
  · unfold pfx_table_src_remove
    rw [e4]
    simp only
    rw [e6]
  · intro r hr
    simp only [pfx_table.records, List.mem_append] at hr
    rcases hr with hr | hr
    · have := (p4.mem_iff).mp hr
      simpa using (List.mem_filter.mp this).2
    · have := (p6.mem_iff).mp hr
      simpa using (List.mem_filter.mp this).2

/-! ## Independence of the two tries (C20) -/

/-- The validation reads only the trie of the query's version. -/
theorem pfx_table_validate_congr (t t' : pfx_table) (asn : Nat) (pfx : ip_addr) (plen : Nat)
    (h : pfx_table_get_root t' pfx.ver = pfx_table_get_root t pfx.ver) :
    pfx_table_validate t' asn pfx plen = pfx_table_validate t asn pfx plen := by
  rw [pfx_table_validate_eq, pfx_table_validate_eq, h]

/-- C20: for every store and every record r, a `pfx_table_add(r)` or
`pfx_table_remove(r)` that returns (with whatever return value) leaves the
trie of the other IP version as it was, and `pfx_table_validate` gives the
same result before and after the call for every query of the other
version. -/
theorem C20_other_trie_unchanged (t : pfx_table) (r : pfx_record) (rv : pfx_rtvals)
    (t' : pfx_table) (n : List update_call)
    (h : pfx_table_add t r = some (rv, t', n) ∨ pfx_table_remove t r = some (rv, t', n)) :
    (∀ w, w ≠ r.pfx.ver → pfx_table_get_root t' w = pfx_table_get_root t w) ∧
    (∀ (asn : Nat) (pfx : ip_addr) (plen : Nat), pfx.ver ≠ r.pfx.ver →
      pfx_table_validate t' asn pfx plen = pfx_table_validate t asn pfx plen) := by
  have key : ∀ w, w ≠ r.pfx.ver → pfx_table_get_root t' w = pfx_table_get_root t w := by
    intro w hw
    rcases h with h | h
    · rcases pfx_table_add_result t r rv t' n h with ⟨-, rfl, -⟩ | ⟨-, x, rfl, -⟩
      · rfl
      · exact pfx_table_get_set_root_ne _ _ _ _ hw
    · rcases pfx_table_remove_result t r rv t' n h with ⟨-, rfl, -⟩ | ⟨-, x, rfl, -⟩
      · rfl
      · exact pfx_table_get_set_root_ne _ _ _ _ hw
  exact ⟨key, fun asn pfx plen hv => pfx_table_validate_congr _ _ _ _ _ (key _ hv)⟩

/-- C20 (witness): adding the IPv4 record 10.0.0.0/8 to the store that holds
10.1.0.0/16 leaves the IPv6 trie and the IPv6 validations as they were. -/
theorem C20_other_trie_unchanged_witness :
    (∀ w, w ≠ ex_rec_8.pfx.ver →
      pfx_table_get_root ex_store_16_8 w = pfx_table_get_root ex_store_16 w) ∧
    (∀ (asn : Nat) (pfx : ip_addr) (plen : Nat), pfx.ver ≠ ex_rec_8.pfx.ver →
      pfx_table_validate ex_store_16_8 asn pfx plen =
        pfx_table_validate ex_store_16 asn pfx plen) :=
  C20_other_trie_unchanged ex_store_16 ex_rec_8 .PFX_SUCCESS ex_store_16_8 [(ex_rec_8, true)]
    (Or.inl (by decide))

/-! ## Termination of the validation (C19) -/

/-- The level `lpfst_lookup` returns is at least the level it starts at. -/
theorem lpfst_lookup_level {pfx : ip_addr} {plen : Nat} :
    ∀ (t : lpfst_node) (lvl : Nat) (n : lpfst_node) (l : Nat),
      lpfst_lookup t pfx plen lvl = some (n, l) → lvl ≤ l := by
  intro t
  induction t with
  | nil => intro lvl n l h; simp [lpfst_lookup] at h
  | node p k d lc rc ihl ihr =>
    intro lvl n l h
    unfold lpfst_lookup at h
    split_ifs at h with h1 h2
    · simp only [Option.some.injEq, Prod.mk.injEq] at h
      omega
    · have := ihl _ _ _ h; omega
    · have := ihr _ _ _ h; omega

theorem child_at_height (p : ip_addr) (l : Nat) (d : List data_elem) (lc rc : lpfst_node)
    (pfx : ip_addr) (lvl : Nat) :
    ((lpfst_node.node p l d lc rc).child_at pfx lvl).height <
      (lpfst_node.node p l d lc rc).height := by
  unfold lpfst_node.child_at
  split_ifs <;> simp only [lpfst_node.sub, lpfst_node.height, Bool.false_eq_true, if_false,
    if_true] <;> omega

/-- The loop of the validation ends within `height` iterations, from any node. -/
theorem pfx_table_validate_loop_terminates (asn : Nat) (pfx : ip_addr) (plen : Nat) :
    ∀ (fuel : Nat) (node : lpfst_node) (lvl : Nat), node.height ≤ fuel → node.isNull = false →
      ∃ s, pfx_table_validate_loop fuel node lvl asn pfx plen = some s := by
  intro fuel
  induction fuel with
  | zero =>
    intro node lvl hh hn
    cases node with
    | nil => simp [lpfst_node.isNull] at hn
    | node p l d lc rc => simp [lpfst_node.height] at hh
  | succ fuel ih =>
    intro node lvl hh hn
    cases node with
    | nil => simp [lpfst_node.isNull] at hn
    | node p l d lc rc =>
      unfold pfx_table_validate_loop
      by_cases hm : pfx_table_elem_matches (lpfst_node.node p l d lc rc).getData asn plen = true
      · exact ⟨.BGP_PFXV_STATE_VALID, by simp only [hm, if_true]⟩
      · simp only [hm, Bool.false_eq_true, if_false]
        have hc := child_at_height p l d lc rc pfx lvl
        unfold lpfst_node.child_at at hc
        generalize (if pfx.bit lvl = 0 then (lpfst_node.node p l d lc rc).sub [false]
            else (lpfst_node.node p l d lc rc).sub [true]) = child at hc ⊢
        cases hlk : lpfst_lookup child pfx plen (lvl + 1) with
        | none => exact ⟨_, rfl⟩
        | some r =>
          obtain ⟨n, k⟩ := r
          obtain ⟨p', l', d', lc', rc', pre, hn', -, -, -, hh'⟩ := lpfst_lookup_some _ _ _ _ hlk
          subst hn'
          exact ih (.node p' l' d' lc' rc') k (by omega) rfl

/-- C19: for every store and query, a step of the loop of
`pfx_table_validate` that does not return goes to a node found by
`lpfst_lookup` under a child of the current node, which lies strictly deeper
(its height is smaller) and at a larger level; the loop ends within `height`
iterations from any node; and the call returns PFX_SUCCESS with `*result`
one of VALID, INVALID, NOT_FOUND, the lock released and the table as it
was. -/
theorem C19_validate_terminates (t : pfx_table) (asn : Nat) (pfx : ip_addr) (plen : Nat) :
    (∀ (p : ip_addr) (l : Nat) (d : List data_elem) (lc rc : lpfst_node) (lvl : Nat)
        (n : lpfst_node) (k : Nat),
      lpfst_lookup ((lpfst_node.node p l d lc rc).child_at pfx lvl) pfx plen (lvl + 1)
          = some (n, k) →
        lvl < k ∧ n.height < (lpfst_node.node p l d lc rc).height) ∧
    (∀ (fuel : Nat) (node : lpfst_node) (lvl : Nat), node.height ≤ fuel → node.isNull = false →
      ∃ s, pfx_table_validate_loop fuel node lvl asn pfx plen = some s) ∧
    (∃ s : pfxv_state,
      (s = .BGP_PFXV_STATE_VALID ∨ s = .BGP_PFXV_STATE_INVALID ∨
        s = .BGP_PFXV_STATE_NOT_FOUND) ∧
      pfx_table_validate t asn pfx plen = some (.PFX_SUCCESS, s) ∧
      pfx_table_validate_lock t .unlocked asn pfx plen = some (.PFX_SUCCESS, s, t, .unlocked)) := by
  refine ⟨?_, pfx_table_validate_loop_terminates asn pfx plen, ?_⟩
  · intro p l d lc rc lvl n k h
    have h1 := lpfst_lookup_level _ _ _ _ h
    obtain ⟨p', l', d', lc', rc', pre, hn', -, -, -, hh'⟩ := lpfst_lookup_some _ _ _ _ h
    have h2 := child_at_height p l d lc rc pfx lvl
    exact ⟨by omega, by omega⟩
  · refine ⟨walk_verdict asn pfx plen ((pfx_table_get_root t pfx.ver).walk pfx 0), ?_,
      pfx_table_validate_eq t asn pfx plen, ?_⟩
    · unfold walk_verdict
      split_ifs <;> simp
    · simp [pfx_table_validate_lock, pfx_table_validate_eq, pthread_rwlock_rdlock,
        pthread_rwlock_unlock]

/-! ## The record list in memory (C18) -/

theorem node_data.toList_ofList (l : List data_elem) : (node_data.ofList l).toList = l := by
  unfold node_data.ofList node_data.toList
  by_cases h : l = []
  · simp [h]
  · simp [h]

/-- On the struct of a list the deletion gives what the deletion on the list
gives, unless the `realloc` of a list that stays non-empty fails. -/
theorem pfx_table_del_elem_raw_eq (pre : List data_elem) (e : data_elem)
    (rest : List data_elem) (ok : Bool) :
    pfx_table_del_elem_raw (node_data.ofList (pre ++ e :: rest)) pre.length ok =
      if pre ++ rest ≠ [] ∧ ok = false then
        (.PFX_ERROR, { len := (pre ++ rest).length, ary := none })
      else (.PFX_SUCCESS, node_data.ofList (pre ++ rest)) := by
  have hne : pre ++ e :: rest ≠ [] := by simp
  have hlen : (pre ++ e :: rest).length - 1 = (pre ++ rest).length := by simp
  have hlist := pfx_table_del_elem_eq pre e rest
  unfold pfx_table_del_elem at hlist
  simp only [hlen] at hlist
  unfold pfx_table_del_elem_raw
  simp only [node_data.ofList, hne, if_false, Option.getD_some, hlen]
  have hz : (pre ++ rest).length ≠ 0 ↔ pre ++ rest ≠ [] := by
    simp [List.length_eq_zero]
  by_cases hpr : pre ++ rest = []
  · simp [hpr]
  · have hl0 : (pre ++ rest).length ≠ 0 := hz.mpr hpr
    cases ok with
    | false => simp only [hl0, hpr, ne_eq, not_false_eq_true, and_self, if_true]
    | true =>
      simp only [hpr, hl0, Bool.true_eq_false, and_false, if_false, ne_eq, not_false_eq_true,
        and_self]
      rw [hlist]

/-- C18: for every record list of length n >= 1 and every index i < n,
`pfx_table_del_elem` on the struct of that list, when it returns
PFX_SUCCESS (which it does whenever `realloc` does not fail), leaves the
struct of the list with the element at position i deleted: length n - 1, the
remaining elements in their order; and for n = 1 it returns PFX_SUCCESS
whatever `realloc` does and leaves `len` 0 with a null array. -/
theorem C18_del_elem_erases_index (l : List data_elem) (i : Nat) (hi : i < l.length)
    (ok : Bool) :
    ((pfx_table_del_elem_raw (node_data.ofList l) i ok).1 = .PFX_SUCCESS →
      (pfx_table_del_elem_raw (node_data.ofList l) i ok).2 = node_data.ofList (l.eraseIdx i) ∧
      (pfx_table_del_elem_raw (node_data.ofList l) i ok).2.toList = l.eraseIdx i) ∧
    (ok = true → (pfx_table_del_elem_raw (node_data.ofList l) i ok).1 = .PFX_SUCCESS) ∧
    (l.eraseIdx i).length = l.length - 1 ∧ (l.eraseIdx i).Sublist l ∧
    (l.length = 1 →
      pfx_table_del_elem_raw (node_data.ofList l) i ok =
        (.PFX_SUCCESS, { len := 0, ary := none })) := by
  have hsplit : l = l.take i ++ l[i] :: l.drop (i + 1) := by
    rw [← List.drop_eq_getElem_cons hi, List.take_append_drop]
  have hlen : (l.take i).length = i := by simp; omega
  have herase : l.eraseIdx i = l.take i ++ l.drop (i + 1) := List.eraseIdx_eq_take_drop_succ l i
  have hraw := pfx_table_del_elem_raw_eq (l.take i) l[i] (l.drop (i + 1)) ok
  rw [hlen, ← hsplit, ← herase] at hraw
  refine ⟨?_, ?_, ?_, List.eraseIdx_sublist l i, ?_⟩
  · intro hs
    rw [hraw] at hs ⊢
    split_ifs at hs ⊢ with hc
    · exact ⟨rfl, node_data.toList_ofList _⟩
  · intro hok
    rw [hraw]
    simp [hok]
  · rw [List.length_eraseIdx_of_lt hi]
  · intro h1
    have he : l.eraseIdx i = [] := by
      apply List.length_eq_zero.mp
      rw [List.length_eraseIdx_of_lt hi, h1]
    rw [hraw, he]
    simp [node_data.ofList]

/-- C18 (witness): deleting index 1 of a list of three elements. -/
theorem C18_del_elem_erases_index_witness :
    (pfx_table_del_elem_raw (node_data.ofList [⟨1, 8, 1⟩, ⟨2, 8, 1⟩, ⟨3, 8, 1⟩]) 1 true).2.toList
      = [⟨1, 8, 1⟩, ⟨3, 8, 1⟩] :=
  ((C18_del_elem_erases_index [⟨1, 8, 1⟩, ⟨2, 8, 1⟩, ⟨3, 8, 1⟩] 1 (by decide) true).1
    (by decide)).2

/-! ## The calls with the lock and the allocator as state (C11, C12, C13) -/

theorem append_elem_raw_ok (data : List data_elem) (r : pfx_record) :
    pfx_table_append_elem_raw (node_data.ofList data) r true =
      (.PFX_SUCCESS, node_data.ofList (pfx_table_append_elem data r)) := by
  unfold pfx_table_append_elem_raw node_data.ofList pfx_table_append_elem
  by_cases h : data = []
  · simp [h]
  · simp [h]

/-- With every allocation succeeding and the lock free, `pfx_table_add` with
the lock and the allocator as state does what `pfx_table_add` does, and
returns with the lock released. -/
theorem pfx_table_add_alloc_ok (t : pfx_table) (r : pfx_record) :
    pfx_table_add_alloc t r .unlocked [] =
      (pfx_table_add t r).map
        (fun x => { rtval := x.1, table := x.2.1, calls := x.2.2, lock := .unlocked,
                    raw := none }) := by
  have hc : (pfx_table_append_elem_raw { len := 0, ary := none } r true) =
      (.PFX_SUCCESS, node_data.ofList (pfx_table_append_elem [] r)) := append_elem_raw_ok [] r
  have hcr : pfx_table_create_node_alloc r [] 0 = (.PFX_SUCCESS, pfx_table_create_node r) := by
    simp [pfx_table_create_node_alloc, alloc_ok, hc, node_data.toList_ofList,
      pfx_table_create_node]
  unfold pfx_table_add_alloc pfx_table_add
  simp only [pthread_rwlock_wrlock, pthread_rwlock_unlock, alloc_ok, List.getD_nil,
    append_elem_raw_ok, node_data.toList_ofList, hcr, reduceCtorEq, if_false, if_true]
  by_cases hn : (pfx_table_get_root t r.pfx.ver).isNull = false
  · simp only [hn, if_true]
    by_cases hf : (lpfst_lookup_exact (pfx_table_get_root t r.pfx.ver) r.pfx r.min_len 0).2.2
        = true
    · simp only [hf, if_true]
      split_ifs <;> rfl
    · simp only [hf, Bool.false_eq_true, if_false]
      cases lpfst_insert (pfx_table_get_root t r.pfx.ver)
        (lpfst_lookup_exact (pfx_table_get_root t r.pfx.ver) r.pfx r.min_len 0).1
        (pfx_table_create_node r)
        (lpfst_lookup_exact (pfx_table_get_root t r.pfx.ver) r.pfx r.min_len 0).2.1 <;> rfl
  · have hn' : (pfx_table_get_root t r.pfx.ver).isNull = true := by simpa using hn
    simp only [hn', Bool.true_eq_false, if_false, Option.map_some']

theorem del_elem_raw_ok (data : List data_elem) (r : pfx_record) (i : Nat)
    (h : pfx_table_find_elem data r = some i) :
    pfx_table_del_elem_raw (node_data.ofList data) i true =
      (.PFX_SUCCESS, node_data.ofList (pfx_table_del_elem data i)) := by
  obtain ⟨pre, post, hd, hl, -⟩ := pfx_table_find_elem_some _ _ _ h
  subst hl
  subst hd
  rw [pfx_table_del_elem_raw_eq, pfx_table_del_elem_eq]
  simp

/-- With the allocation succeeding and the lock free, `pfx_table_remove` with
the lock and the allocator as state does what `pfx_table_remove` does, and
returns with the lock released. -/
theorem pfx_table_remove_alloc_ok (t : pfx_table) (r : pfx_record) :
    pfx_table_remove_alloc t r .unlocked [] =
      (pfx_table_remove t r).map
        (fun x => { rtval := x.1, table := x.2.1, calls := x.2.2, lock := .unlocked,
                    raw := none }) := by
  unfold pfx_table_remove_alloc pfx_table_remove
  simp only [pthread_rwlock_wrlock, pthread_rwlock_unlock, alloc_ok, List.getD_nil]
  by_cases hf : (lpfst_lookup_exact (pfx_table_get_root t r.pfx.ver) r.pfx r.min_len 0).2.2
      = false
  · simp only [hf, if_true, Option.map_some']
  · have hf' : (lpfst_lookup_exact (pfx_table_get_root t r.pfx.ver) r.pfx r.min_len 0).2.2
        = true := by simpa using hf
    simp only [hf', Bool.true_eq_false, if_false]
    cases hfe : pfx_table_find_elem ((pfx_table_get_root t r.pfx.ver).sub
        (lpfst_lookup_exact (pfx_table_get_root t r.pfx.ver) r.pfx r.min_len 0).1).getData r with
    | none => simp only [Option.map_some']
    | some i =>
      simp only [del_elem_raw_ok _ _ _ hfe, node_data.toList_ofList, reduceCtorEq, if_false]
      have hlen : (node_data.ofList (pfx_table_del_elem ((pfx_table_get_root t r.pfx.ver).sub
          (lpfst_lookup_exact (pfx_table_get_root t r.pfx.ver) r.pfx r.min_len 0).1).getData
            i)).len = (pfx_table_del_elem ((pfx_table_get_root t r.pfx.ver).sub
          (lpfst_lookup_exact (pfx_table_get_root t r.pfx.ver) r.pfx r.min_len 0).1).getData
            i).length := rfl
      rw [hlen]
      split_ifs with h0
      · cases lpfst_remove
          (((pfx_table_get_root t r.pfx.ver).setData
            (lpfst_lookup_exact (pfx_table_get_root t r.pfx.ver) r.pfx r.min_len 0).1
            (pfx_table_del_elem ((pfx_table_get_root t r.pfx.ver).sub
              (lpfst_lookup_exact (pfx_table_get_root t r.pfx.ver) r.pfx r.min_len 0).1).getData
              i)).sub
            (lpfst_lookup_exact (pfx_table_get_root t r.pfx.ver) r.pfx r.min_len 0).1)
          r.pfx (pfx_table_get_root t r.pfx.ver).getLen
          (lpfst_lookup_exact (pfx_table_get_root t r.pfx.ver) r.pfx r.min_len 0).2.1 with
        | none => rfl
        | some res =>
          obtain ⟨sub', rm, rdata⟩ := res
          simp only
          split_ifs <;> rfl
      · rfl

theorem del_elem_raw_ok_index (data : List data_elem) (i : Nat) (hi : i < data.length) :
    pfx_table_del_elem_raw (node_data.ofList data) i true =
      (.PFX_SUCCESS, node_data.ofList (pfx_table_del_elem data i)) := by
  have hsplit : data = data.take i ++ data[i] :: data.drop (i + 1) := by
    rw [← List.drop_eq_getElem_cons hi, List.take_append_drop]
  have hlen : (data.take i).length = i := by simp; omega
  have h1 := pfx_table_del_elem_raw_eq (data.take i) data[i] (data.drop (i + 1)) true
  have h2 := pfx_table_del_elem_eq (data.take i) data[i] (data.drop (i + 1))
  rw [hlen, ← hsplit] at h1 h2
  rw [h1, h2]
  simp

theorem pfx_table_remove_id_scan_alloc_ok (p : ip_addr) (l : Nat) (s : Nat) :
    ∀ (n i : Nat) (data : List data_elem) (k : Nat),
      ∃ k', pfx_table_remove_id_scan_alloc n i data p l s [] k =
        (.PFX_SUCCESS, (pfx_table_remove_id_scan n i data p l s).1,
          (pfx_table_remove_id_scan n i data p l s).2, k') := by
  intro n
  induction n with
  | zero => intro i data k; exact ⟨k, rfl⟩
  | succ n ih =>
    intro i data k
    unfold pfx_table_remove_id_scan_alloc pfx_table_remove_id_scan
    cases hg : data.get? i with
    | none => exact ⟨k, rfl⟩
    | some e =>
      have hi : i < data.length := by
        rw [List.get?_eq_getElem?] at hg
        exact (List.getElem?_eq_some_iff.mp hg).1
      simp only
      by_cases hs : e.socket_id = s
      · simp only [hs, if_true, alloc_ok, List.getD_nil, del_elem_raw_ok_index data i hi,
          node_data.toList_ofList, reduceCtorEq, if_false]
        obtain ⟨k', hk⟩ := ih i (pfx_table_del_elem data i) (k + 1)
        exact ⟨k', by rw [hk]⟩
      · simp only [hs, if_false]
        exact ih (i + 1) data k

theorem pfx_table_remove_id_alloc_ok (t : pfx_table) (s : Nat) :
    ∀ (fuel : Nat) (node : lpfst_node) (lvl k : Nat),
      ∃ k', pfx_table_remove_id_alloc fuel t node s lvl [] k =
        (pfx_table_remove_id fuel t node s lvl).map (fun x => sweep_result.ok x.1 x.2 k') := by
  intro fuel
  induction fuel with
  | zero => intro node lvl k; exact ⟨k, rfl⟩
  | succ fuel ih =>
    intro node lvl k
    cases node with
    | nil => exact ⟨k, rfl⟩
    | node p l d lc rc =>
      obtain ⟨k0, hk0⟩ := pfx_table_remove_id_scan_alloc_ok p l s d.length 0 d k
      unfold pfx_table_remove_id_alloc pfx_table_remove_id
      simp only [hk0, reduceCtorEq, if_false]
      by_cases hlen : (pfx_table_remove_id_scan d.length 0 d p l s).1.length = 0
      · simp only [hlen, if_true]
        cases hrm : lpfst_remove (.node p l (pfx_table_remove_id_scan d.length 0 d p l s).1 lc rc)
            p l lvl with
        | none => exact ⟨k, rfl⟩
        | some res =>
          obtain ⟨sub', rm, rdata⟩ := res
          simp only
          by_cases hrd : rdata.length = 0
          · simp only [hrd, if_true]
            by_cases hrm0 : rm = []
            · simp only [hrm0, if_true, Option.map_some']
              exact ⟨k0, rfl⟩
            · simp only [hrm0, if_false]
              obtain ⟨k1, hk1⟩ := ih sub' lvl k0
              rw [hk1]
              cases pfx_table_remove_id fuel t sub' s lvl with
              | none => exact ⟨k, rfl⟩
              | some x => exact ⟨k1, rfl⟩
          · simp only [hrd, if_false]
            exact ⟨k, rfl⟩
      · simp only [hlen, if_false]
        have hl : ∃ k1, (if lc.isNull = true then some (sweep_result.ok lc [] k0)
              else pfx_table_remove_id_alloc fuel t lc s (lvl + 1) [] k0) =
            (if lc.isNull = true then some (lc, [])
              else pfx_table_remove_id fuel t lc s (lvl + 1)).map
                (fun x => sweep_result.ok x.1 x.2 k1) := by
          by_cases hc : lc.isNull = true
          · exact ⟨k0, by simp [hc]⟩
          · obtain ⟨k1, hk1⟩ := ih lc (lvl + 1) k0
            exact ⟨k1, by simp only [hc, Bool.false_eq_true, if_false, hk1]⟩
        obtain ⟨k1, hk1⟩ := hl
        rw [hk1]
        cases (if lc.isNull = true then some (lc, [])
              else pfx_table_remove_id fuel t lc s (lvl + 1)) with
        | none => exact ⟨k, rfl⟩
        | some x =>
          obtain ⟨lc', nl⟩ := x
          simp only [Option.map_some']
          have hr : ∃ k2, (if rc.isNull = true then some (sweep_result.ok rc [] k1)
                else pfx_table_remove_id_alloc fuel t rc s (lvl + 1) [] k1) =
              (if rc.isNull = true then some (rc, [])
                else pfx_table_remove_id fuel t rc s (lvl + 1)).map
                  (fun x => sweep_result.ok x.1 x.2 k2) := by
            by_cases hc : rc.isNull = true
            · exact ⟨k1, by simp [hc]⟩
            · obtain ⟨k2, hk2⟩ := ih rc (lvl + 1) k1
              exact ⟨k2, by simp only [hc, Bool.false_eq_true, if_false, hk2]⟩
          obtain ⟨k2, hk2⟩ := hr
          rw [hk2]
          cases (if rc.isNull = true then some (rc, [])
                else pfx_table_remove_id fuel t rc s (lvl + 1)) with
          | none => exact ⟨k, rfl⟩
          | some y => exact ⟨k2, rfl⟩

/-- With every allocation succeeding and the lock free,
`pfx_table_src_remove` with the lock and the allocator as state does what
`pfx_table_src_remove` does, and returns with the lock released. -/
theorem pfx_table_src_remove_alloc_ok (t : pfx_table) (s : Nat) :
    pfx_table_src_remove_alloc t s .unlocked [] =
      (pfx_table_src_remove t s).map (fun x => (x.1, some x.2.1, x.2.2, .unlocked)) := by
  unfold pfx_table_src_remove_alloc pfx_table_src_remove
  simp only [pthread_rwlock_wrlock, pthread_rwlock_unlock]
  have h4 : ∃ k4, (if t.ipv4.isNull = true then some (sweep_result.ok t.ipv4 [] 0)
        else pfx_table_remove_id_alloc t.ipv4.size t t.ipv4 s 0 [] 0) =
      (if t.ipv4.isNull = true then some (t.ipv4, [])
        else pfx_table_remove_id t.ipv4.size t t.ipv4 s 0).map
          (fun x => sweep_result.ok x.1 x.2 k4) := by
    by_cases hc : t.ipv4.isNull = true
    · exact ⟨0, by simp [hc]⟩
    · obtain ⟨k, hk⟩ := pfx_table_remove_id_alloc_ok t s t.ipv4.size t.ipv4 0 0
      exact ⟨k, by simp only [hc, Bool.false_eq_true, if_false, hk]⟩
  obtain ⟨k4, hk4⟩ := h4
  rw [hk4]
  cases (if t.ipv4.isNull = true then some (t.ipv4, [])
        else pfx_table_remove_id t.ipv4.size t t.ipv4 s 0) with
  | none => rfl
  | some x =>
    obtain ⟨r4, n4⟩ := x
    simp only [Option.map_some']
    have h6 : ∃ k6, (if t.ipv6.isNull = true then some (sweep_result.ok t.ipv6 [] k4)
          else pfx_table_remove_id_alloc t.ipv6.size t t.ipv6 s 0 [] k4) =
        (if t.ipv6.isNull = true then some (t.ipv6, [])
          else pfx_table_remove_id t.ipv6.size t t.ipv6 s 0).map
            (fun x => sweep_result.ok x.1 x.2 k6) := by
      by_cases hc : t.ipv6.isNull = true
      · exact ⟨k4, by simp [hc]⟩
      · obtain ⟨k, hk⟩ := pfx_table_remove_id_alloc_ok t s t.ipv6.size t.ipv6 0 k4
        exact ⟨k, by simp only [hc, Bool.false_eq_true, if_false, hk]⟩
    obtain ⟨k6, hk6⟩ := h6
    rw [hk6]
    cases (if t.ipv6.isNull = true then some (t.ipv6, [])
          else pfx_table_remove_id t.ipv6.size t t.ipv6 s 0) with
    | none => rfl
    | some y => rfl

/-- The call `pfx_table_add` releases the lock on every path on which it
returns. -/
theorem pfx_table_add_alloc_lock (t : pfx_table) (r : pfx_record) (allocs : List Bool)
    (res : call_result) (h : pfx_table_add_alloc t r .unlocked allocs = some res) :
    res.lock = .unlocked := by
  unfold pfx_table_add_alloc at h
  simp only [pthread_rwlock_wrlock, pthread_rwlock_unlock] at h
  split_ifs at h <;> first
    | (simp only [Option.some.injEq] at h; rw [← h])
    | (split at h
       · cases h
       · simp only [Option.some.injEq] at h; rw [← h])

/-- The call `pfx_table_remove` releases the lock on every path on which it
returns. -/
theorem pfx_table_remove_alloc_lock (t : pfx_table) (r : pfx_record) (allocs : List Bool)
    (res : call_result) (h : pfx_table_remove_alloc t r .unlocked allocs = some res) :
    res.lock = .unlocked := by
  unfold pfx_table_remove_alloc at h
  simp only [pthread_rwlock_wrlock, pthread_rwlock_unlock] at h
  split_ifs at h with h1
  · simp only [Option.some.injEq] at h; rw [← h]
  · split at h
    · simp only [Option.some.injEq] at h; rw [← h]
    · split_ifs at h with h2 h3
      · simp only [Option.some.injEq] at h; rw [← h]
      · split at h
        · cases h
        · split_ifs at h <;> (simp only [Option.some.injEq] at h; rw [← h])
      · simp only [Option.some.injEq] at h; rw [← h]

/-- C11 (the code at the failing input): the store that holds 10.0.0.0/8 from
source 1 is reachable; `pfx_table_add` of the same prefix and asn from source
2 finds the node, and when the `realloc` of `pfx_table_append_elem` fails it
returns PFX_ERROR, yet the update callback has been invoked once with
added = true. -/
theorem C11_add_error_still_notifies :
    Reachable ex_store_8 ∧ ex_rec_8b.wf ∧
    (pfx_table_add_alloc ex_store_8 ex_rec_8b .unlocked [false]).map
        (fun x => (x.rtval, x.calls)) = some (.PFX_ERROR, [(ex_rec_8b, true)]) := by
  have h8 : ex_rec_8.wf := pfx_record.wf_of_check _ (by decide)
  have h1 : pfx_table_add (pfx_table_init true) ex_rec_8 =
      some (.PFX_SUCCESS, ex_store_8, [(ex_rec_8, true)]) := by decide
  exact ⟨Reachable.add _ (Reachable.init true) h8 h1, pfx_record.wf_of_check _ (by decide),
    by decide⟩

/-- C12 (the code at the failing input): the store that holds 10.0.0.0/8 from
the sources 1 and 2 on one node is reachable; `pfx_table_src_remove(1)` on
it, when the `realloc` of `pfx_table_del_elem` fails, returns PFX_ERROR with
the lock still held exclusive, and a call that follows does not get the
lock. -/
theorem C12_src_remove_error_keeps_lock :
    Reachable ex_store_8_8b ∧
    pfx_table_src_remove_alloc ex_store_8_8b 1 .unlocked [false] =
      some (.PFX_ERROR, none, [], .wrlocked) ∧
    pfx_table_validate_lock ex_store_8_8b .wrlocked 64500 ⟨.IPV4, 167772160⟩ 8 = none := by
  have h8 : ex_rec_8.wf := pfx_record.wf_of_check _ (by decide)
  have h8b : ex_rec_8b.wf := pfx_record.wf_of_check _ (by decide)
  have h1 : pfx_table_add (pfx_table_init true) ex_rec_8 =
      some (.PFX_SUCCESS, ex_store_8, [(ex_rec_8, true)]) := by decide
  have h2 : pfx_table_add ex_store_8 ex_rec_8b =
      some (.PFX_SUCCESS, ex_store_8_8b, [(ex_rec_8b, true)]) := by decide
  exact ⟨Reachable.add _ (Reachable.add _ (Reachable.init true) h8 h1) h8b h2,
    by decide, by decide⟩

/-- C13 (the code at the failing input): in the store that holds 10.0.0.0/8
from source 1 the node has `len` 1 and an array of one element;
`pfx_table_add` of the same prefix from source 2 with the `realloc` of
`pfx_table_append_elem` failing returns PFX_ERROR and leaves that node with
`len` 2 and a null array. -/
theorem C13_add_error_changes_node :
    Reachable ex_store_8 ∧
    node_data.ofList (ex_store_8.ipv4.sub []).getData =
      { len := 1, ary := some [⟨64500, 8, 1⟩] } ∧
    pfx_table_append_elem_raw (node_data.ofList (ex_store_8.ipv4.sub []).getData) ex_rec_8b false
      = (.PFX_ERROR, { len := 2, ary := none }) ∧
    (pfx_table_add_alloc ex_store_8 ex_rec_8b .unlocked [false]).map
        (fun x => (x.rtval, x.raw)) = some (.PFX_ERROR, some ([], { len := 2, ary := none })) := by
  have h8 : ex_rec_8.wf := pfx_record.wf_of_check _ (by decide)
  have h1 : pfx_table_add (pfx_table_init true) ex_rec_8 =
      some (.PFX_SUCCESS, ex_store_8, [(ex_rec_8, true)]) := by decide
  exact ⟨Reachable.add _ (Reachable.init true) h8 h1, by decide, by decide, by decide⟩

/-! ## The shape of the results of `add` and `remove` -/

/-- The trie a successful `pfx_table_add` leaves: a fresh root on an empty
trie, or the found node with the element appended, or the trie
`lpfst_insert` gives. -/
theorem pfx_table_add_shape (t : pfx_table) (r : pfx_record) (t' : pfx_table)
    (n : List update_call) (h : pfx_table_add t r = some (.PFX_SUCCESS, t', n)) :
    ∃ x : lpfst_node, t' = pfx_table_set_root t r.pfx.ver x ∧
      ((pfx_table_get_root t r.pfx.ver = .nil ∧ x = pfx_table_create_node r) ∨
       (∃ d lc rc,
          (lpfst_lookup_exact (pfx_table_get_root t r.pfx.ver) r.pfx r.min_len 0).2.2 = true ∧
          (pfx_table_get_root t r.pfx.ver).sub
            (lpfst_lookup_exact (pfx_table_get_root t r.pfx.ver) r.pfx r.min_len 0).1
              = .node r.pfx r.min_len d lc rc ∧
          r.elem ∉ d ∧
          x = (pfx_table_get_root t r.pfx.ver).setData
            (lpfst_lookup_exact (pfx_table_get_root t r.pfx.ver) r.pfx r.min_len 0).1
            (d ++ [r.elem])) ∨
       (∃ mv,
          (lpfst_lookup_exact (pfx_table_get_root t r.pfx.ver) r.pfx r.min_len 0).2.2 = false ∧
          lpfst_insert_walk (pfx_table_get_root t r.pfx.ver)
            (lpfst_lookup_exact (pfx_table_get_root t r.pfx.ver) r.pfx r.min_len 0).1
            (pfx_table_create_node r)
            (lpfst_lookup_exact (pfx_table_get_root t r.pfx.ver) r.pfx r.min_len 0).2.1
              = some (x, mv))) := by
  unfold pfx_table_add at h
  by_cases hnull : (pfx_table_get_root t r.pfx.ver).isNull = false
  · simp only [hnull, if_true] at h
    by_cases hf : (lpfst_lookup_exact (pfx_table_get_root t r.pfx.ver) r.pfx r.min_len 0).2.2
        = true
    · simp only [hf, if_true] at h
      obtain ⟨d, lc, rc, hsub⟩ := lpfst_lookup_exact_found _ _ hf
      simp only [hsub, lpfst_node.getData] at h
      cases hfe : pfx_table_find_elem d r with
      | some i => simp [hfe] at h
      | none =>
        simp only [hfe, Option.isSome_none, Bool.false_eq_true, if_false, Option.some.injEq,
          Prod.mk.injEq, true_and] at h
        refine ⟨_, h.1.symm, Or.inr (Or.inl ⟨d, lc, rc, hf, hsub, ?_, rfl⟩)⟩
        exact (pfx_table_find_elem_none d r).mp hfe
    · simp only [hf, Bool.false_eq_true, if_false] at h
      unfold lpfst_insert at h
      cases hw : lpfst_insert_walk (pfx_table_get_root t r.pfx.ver)
          (lpfst_lookup_exact (pfx_table_get_root t r.pfx.ver) r.pfx r.min_len 0).1
          (pfx_table_create_node r)
          (lpfst_lookup_exact (pfx_table_get_root t r.pfx.ver) r.pfx r.min_len 0).2.1 with
      | none => simp [hw] at h
      | some res =>
        obtain ⟨root', mv⟩ := res
        simp only [hw, Option.map_some', Option.some.injEq, Prod.mk.injEq, true_and] at h
        exact ⟨root', h.1.symm, Or.inr (Or.inr ⟨mv, by simpa using hf, rfl⟩)⟩
  · have hn : (pfx_table_get_root t r.pfx.ver) = .nil := by
      cases hr : pfx_table_get_root t r.pfx.ver with
      | nil => rfl
      | node _ _ _ _ _ => rw [hr] at hnull; simp [lpfst_node.isNull] at hnull
    have hnull' : (pfx_table_get_root t r.pfx.ver).isNull = true := by simpa using hnull
    simp only [hnull', Bool.true_eq_false, if_false, Option.some.injEq, Prod.mk.injEq,
      true_and] at h
    exact ⟨_, h.1.symm, Or.inl ⟨hn, rfl⟩⟩

/-- The trie a successful `pfx_table_remove` leaves: the found node with the
element deleted, or, when that empties the list, the trie `lpfst_remove`
gives, which has unlinked a node with an empty list. -/
theorem pfx_table_remove_shape (t : pfx_table) (r : pfx_record) (t' : pfx_table)
    (n : List update_call) (h : pfx_table_remove t r = some (.PFX_SUCCESS, t', n)) :
    ∃ (x : lpfst_node) (pre post : List data_elem) (lc rc : lpfst_node),
      t' = pfx_table_set_root t r.pfx.ver x ∧
      (pfx_table_get_root t r.pfx.ver).sub
        (lpfst_lookup_exact (pfx_table_get_root t r.pfx.ver) r.pfx r.min_len 0).1
          = .node r.pfx r.min_len (pre ++ r.elem :: post) lc rc ∧
      ((pre ++ post ≠ [] ∧
        x = (pfx_table_get_root t r.pfx.ver).setData
          (lpfst_lookup_exact (pfx_table_get_root t r.pfx.ver) r.pfx r.min_len 0).1
          (pre ++ post)) ∨
       (pre ++ post = [] ∧ ∃ sub' rm,
        lpfst_remove (.node r.pfx r.min_len [] lc rc) r.pfx
          (pfx_table_get_root t r.pfx.ver).getLen
          (lpfst_lookup_exact (pfx_table_get_root t r.pfx.ver) r.pfx r.min_len 0).2.1
            = some (sub', rm, []) ∧
        x = ((pfx_table_get_root t r.pfx.ver).setData
          (lpfst_lookup_exact (pfx_table_get_root t r.pfx.ver) r.pfx r.min_len 0).1
            []).replace
          (lpfst_lookup_exact (pfx_table_get_root t r.pfx.ver) r.pfx r.min_len 0).1 sub')) := by
  unfold pfx_table_remove at h
  by_cases hf : (lpfst_lookup_exact (pfx_table_get_root t r.pfx.ver) r.pfx r.min_len 0).2.2 = false
  · simp [hf] at h
  · have hf' : (lpfst_lookup_exact (pfx_table_get_root t r.pfx.ver) r.pfx r.min_len 0).2.2
        = true := by simpa using hf
    obtain ⟨d, lc, rc, hsub⟩ := lpfst_lookup_exact_found _ _ hf'
    obtain ⟨rest, -, -, h3, -⟩ := mrecords_at_path _ _ _ _ _ _ _ hsub
    simp only [hf', Bool.true_eq_false, if_false, hsub, lpfst_node.getData] at h
    cases hfe : pfx_table_find_elem d r with
    | none => simp [hfe] at h
    | some i =>
      obtain ⟨pre, post, hd, hl, -⟩ := pfx_table_find_elem_some _ _ _ hfe
      subst hl
      have hdel : pfx_table_del_elem d pre.length = pre ++ post := by
        rw [hd, pfx_table_del_elem_eq]
      simp only [hfe, hdel, h3] at h
      by_cases hlen : (pre ++ post).length = 0
      · have hpp : pre ++ post = [] := List.length_eq_zero.mp hlen
        simp only [hlen, if_true] at h
        rw [hpp] at h
        cases hrm : lpfst_remove (.node r.pfx r.min_len [] lc rc) r.pfx
            (pfx_table_get_root t r.pfx.ver).getLen
            (lpfst_lookup_exact (pfx_table_get_root t r.pfx.ver) r.pfx r.min_len 0).2.1 with
        | none => simp [hrm] at h
        | some res =>
          obtain ⟨sub', rm, rdata⟩ := res
          simp only [hrm] at h
          by_cases hrd : rdata.length = 0
          · have hrd0 : rdata = [] := List.length_eq_zero.mp hrd
            subst hrd0
            simp only [List.length_nil, if_true, Option.some.injEq, Prod.mk.injEq, true_and] at h
            obtain ⟨hnil, -⟩ := (lpfst_remove_spec _ _ _ _ _ hrm).2.2
            refine ⟨_, pre, post, lc, rc, h.1.symm, by rw [hsub, hd],
              Or.inr ⟨hpp, sub', rm, hrm, ?_⟩⟩
            split_ifs with hnn
            · simp only [List.append_eq_nil] at hnn
              rw [hnn.1, hnil hnn.2]
              cases (pfx_table_get_root t r.pfx.ver).setData [] [] <;>
                simp [lpfst_node.replace]
            · rfl
          · simp [hrd] at h
      · simp only [hlen, if_false, Option.some.injEq, Prod.mk.injEq, true_and] at h
        refine ⟨_, pre, post, lc, rc, h.1.symm, by rw [hsub, hd], Or.inl ⟨?_, rfl⟩⟩
        intro hc
        exact hlen (by rw [hc]; rfl)

/-! ## Lemmas on the nodes of a trie -/

@[simp] theorem mnodes_nil : lpfst_node.nil.mnodes = 0 := rfl

@[simp] theorem mnodes_node (p : ip_addr) (l : Nat) (d : List data_elem) (lc rc : lpfst_node) :
    (lpfst_node.node p l d lc rc).mnodes = {(p, l, d)} + (lc.mnodes + rc.mnodes) := by
  simp only [lpfst_node.mnodes, lpfst_node.nodes, ← Multiset.cons_coe, ← Multiset.coe_add,
    Multiset.singleton_add]

theorem mem_mnodes (t : lpfst_node) (m : ip_addr × Nat × List data_elem) :
    m ∈ t.mnodes ↔ m ∈ t.nodes := by
  simp [lpfst_node.mnodes]

theorem mnodes_remove_holder (p : ip_addr) (l : Nat) (d : List data_elem) (lc rc : lpfst_node) :
    (lpfst_remove_holder (.node p l d lc rc)).1.mnodes = lc.mnodes + rc.mnodes := by
  have key : ∀ t : lpfst_node, (lpfst_remove_holder t).1.mnodes =
      (match t with
        | .nil => 0
        | .node _ _ _ lc rc => lc.mnodes + rc.mnodes) := by
    intro t
    induction t using lpfst_remove_holder.induct with
    | case1 => simp [lpfst_remove_holder]
    | case2 p l d => simp [lpfst_remove_holder]
    | case3 p l d cp cl cd clc crc ih =>
      simp only [lpfst_remove_holder, mnodes_node, mnodes_nil] at ih ⊢
      rw [ih]; abel
    | case4 p l d cp cl cd clc crc ih =>
      simp only [lpfst_remove_holder, mnodes_node, mnodes_nil] at ih ⊢
      rw [ih]; abel
    | case5 p l d ap al ad alc arc bp bl bd blc brc h ih =>
      simp only [lpfst_remove_holder, mnodes_node, mnodes_nil, if_pos h] at ih ⊢
      rw [ih]; abel
    | case6 p l d ap al ad alc arc bp bl bd blc brc h ih =>
      simp only [lpfst_remove_holder, mnodes_node, mnodes_nil, if_neg h] at ih ⊢
      rw [ih]; abel
  exact key (.node p l d lc rc)

/-- The nodes `lpfst_remove` leaves: all but the holder of the key. -/
theorem mnodes_lpfst_remove {pfx : ip_addr} {len : Nat} :
    ∀ (t : lpfst_node) (lvl : Nat) (t' : lpfst_node) (rm : List Bool) (rd : List data_elem),
      lpfst_remove t pfx len lvl = some (t', rm, rd) →
        t.mnodes = {(pfx, len, rd)} + t'.mnodes := by
  intro t
  induction t with
  | nil => intro lvl t' rm rd h; simp [lpfst_remove] at h
  | node p l d lc rc ihl ihr =>
    intro lvl t' rm rd h
    unfold lpfst_remove at h
    split_ifs at h with h1 h2
    · simp only [Option.some.injEq, Prod.mk.injEq] at h
      obtain ⟨rfl, rfl, rfl⟩ := h
      obtain ⟨rfl, rfl⟩ := h1
      rw [mnodes_remove_holder, mnodes_node]
    · cases hr : lpfst_remove lc pfx len (lvl + 1) with
      | none => simp [hr] at h
      | some r =>
        obtain ⟨s, rm', rd'⟩ := r
        simp only [hr, Option.some.injEq, Prod.mk.injEq] at h
        obtain ⟨rfl, rfl, rfl⟩ := h
        simp only [mnodes_node, ihl _ _ _ _ hr]; abel
    · cases hr : lpfst_remove rc pfx len (lvl + 1) with
      | none => simp [hr] at h
      | some r =>
        obtain ⟨s, rm', rd'⟩ := r
        simp only [hr, Option.some.injEq, Prod.mk.injEq] at h
        obtain ⟨rfl, rfl, rfl⟩ := h
        simp only [mnodes_node, ihr _ _ _ _ hr]; abel

/-- The nodes around the node a path points at. -/
theorem mnodes_at_path :
    ∀ (root : lpfst_node) (path : List Bool) (p : ip_addr) (l : Nat) (d : List data_elem)
      (lc rc : lpfst_node), root.sub path = .node p l d lc rc →
      ∃ rest : Multiset (ip_addr × Nat × List data_elem),
        root.mnodes = (lpfst_node.node p l d lc rc).mnodes + rest ∧
        (∀ d', (root.setData path d').mnodes = (lpfst_node.node p l d' lc rc).mnodes + rest) ∧
        (∀ s, (root.replace path s).mnodes = s.mnodes + rest) := by
  intro root
  induction root with
  | nil =>
    intro path p l d lc rc h
    cases path <;> simp [lpfst_node.sub] at h
  | node p0 l0 d0 lc0 rc0 ihl ihr =>
    intro path p l d lc rc h
    cases path with
    | nil =>
      simp only [lpfst_node.sub, lpfst_node.node.injEq] at h
      obtain ⟨rfl, rfl, rfl, rfl, rfl⟩ := h
      exact ⟨0, by simp, by simp [lpfst_node.setData], by simp [lpfst_node.replace]⟩
    | cons b q =>
      cases b with
      | true =>
        simp only [lpfst_node.sub, if_true] at h
        obtain ⟨rest, h1, h2, h4⟩ := ihr q p l d lc rc h
        refine ⟨rest + ({(p0, l0, d0)} + lc0.mnodes), ?_, ?_, ?_⟩
        · rw [mnodes_node, h1]; abel
        · intro d'; simp only [lpfst_node.setData, if_true, mnodes_node p0, h2]; abel
        · intro s; simp only [lpfst_node.replace, if_true, mnodes_node p0, h4]; abel
      | false =>
        simp only [lpfst_node.sub, Bool.false_eq_true, if_false] at h
        obtain ⟨rest, h1, h2, h4⟩ := ihl q p l d lc rc h
        refine ⟨rest + ({(p0, l0, d0)} + rc0.mnodes), ?_, ?_, ?_⟩
        · rw [mnodes_node, h1]; abel
        · intro d'
          simp only [lpfst_node.setData, Bool.false_eq_true, if_false, mnodes_node p0, h2]; abel
        · intro s
          simp only [lpfst_node.replace, Bool.false_eq_true, if_false, mnodes_node p0, h4]; abel

theorem lpfst_swap_up_mnodes (b : Bool) (t : lpfst_node) :
    (lpfst_swap_up b t).1.mnodes = t.mnodes := by
  cases t with
  | nil => rfl
  | node p l d lc rc =>
    unfold lpfst_swap_up
    cases b with
    | true =>
      cases rc with
      | nil => simp
      | node cp cl cd clc crc =>
        simp only [if_true]
        split_ifs
        · simp only [mnodes_node]; abel
        · rfl
    | false =>
      cases lc with
      | nil => simp
      | node cp cl cd clc crc =>
        simp only [Bool.false_eq_true, if_false]
        split_ifs
        · simp only [mnodes_node]; abel
        · rfl

theorem lpfst_insert_down_mnodes (new_node : lpfst_node) :
    ∀ (t : lpfst_node) (lvl : Nat),
      (lpfst_insert_down t new_node lvl).1.mnodes = new_node.mnodes + t.mnodes := by
  intro t
  induction t with
  | nil => intro lvl; simp [lpfst_insert_down]
  | node p l d lc rc ihl ihr =>
    intro lvl
    cases new_node with
    | nil => simp [lpfst_insert_down]
    | node np nl nd nlc nrc =>
      unfold lpfst_insert_down
      simp only
      split_ifs
      · rw [lpfst_swap_up_mnodes]
        simp only [mnodes_node, ihl]
        abel
      · simp only [mnodes_node, ihl]
        abel
      · rw [lpfst_swap_up_mnodes]
        simp only [mnodes_node, ihr]
        abel
      · simp only [mnodes_node, ihr]
        abel

theorem lpfst_insert_walk_mnodes (new_node : lpfst_node) (lvl : Nat) :
    ∀ (root : lpfst_node) (path : List Bool) (root' : lpfst_node) (mv : Bool),
      lpfst_insert_walk root path new_node lvl = some (root', mv) →
        root'.mnodes = new_node.mnodes + root.mnodes := by
  intro root
  induction root with
  | nil => intro path root' mv h; simp [lpfst_insert_walk] at h
  | node p l d lc rc ihl ihr =>
    intro path root' mv h
    cases path with
    | nil =>
      unfold lpfst_insert_walk at h
      cases new_node with
      | nil => simp at h
      | node np nl nd nlc nrc =>
        simp only [Option.some.injEq] at h
        have := congrArg Prod.fst h
        simp only at this
        rw [← this, lpfst_insert_down_mnodes]
    | cons b q =>
      unfold lpfst_insert_walk at h
      cases b with
      | true =>
        simp only [if_true] at h
        cases hr : lpfst_insert_walk rc q new_node lvl with
        | none => simp [hr] at h
        | some res =>
          obtain ⟨rc', moving⟩ := res
          have hrec := ihr _ _ _ hr
          simp only [hr] at h
          split_ifs at h
          · simp only [Option.some.injEq] at h
            have := congrArg Prod.fst h
            simp only at this
            rw [← this, lpfst_swap_up_mnodes, mnodes_node, hrec, mnodes_node]; abel
          · simp only [Option.some.injEq, Prod.mk.injEq] at h
            rw [← h.1, mnodes_node, hrec, mnodes_node]; abel
      | false =>
        simp only [Bool.false_eq_true, if_false] at h
        cases hr : lpfst_insert_walk lc q new_node lvl with
        | none => simp [hr] at h
        | some res =>
          obtain ⟨lc', moving⟩ := res
          have hrec := ihl _ _ _ hr
          simp only [hr] at h
          split_ifs at h
          · simp only [Option.some.injEq] at h
            have := congrArg Prod.fst h
            simp only at this
            rw [← this, lpfst_swap_up_mnodes, mnodes_node, hrec, mnodes_node]; abel
          · simp only [Option.some.injEq, Prod.mk.injEq] at h
            rw [← h.1, mnodes_node, hrec, mnodes_node]; abel

/-- The nodes the sweep of a subtree leaves: every node keeps its key and the
elements of other sources, and the nodes left without elements are gone. -/
theorem pfx_table_remove_id_mnodes (t : pfx_table) (s : Nat) :
    ∀ (fuel : Nat) (node : lpfst_node) (lvl : Nat) (sub' : lpfst_node)
      (notes : List update_call),
      pfx_table_remove_id fuel t node s lvl = some (sub', notes) →
        sub'.mnodes = (node.mnodes.map (sweep_payload s)).filter (fun m => m.2.2 ≠ []) := by
  intro fuel
  induction fuel with
  | zero => intro node lvl sub' notes h; simp [pfx_table_remove_id] at h
  | succ fuel ih =>
    intro node lvl sub' notes h
    cases node with
    | nil => simp [pfx_table_remove_id] at h
    | node p l d lc rc =>
      have hscan := pfx_table_remove_id_scan_eq p l s d.length [] d le_rfl
      simp only [List.length_nil, List.nil_append] at hscan
      unfold pfx_table_remove_id at h
      simp only [hscan] at h
      have hsw : sweep_payload s (p, l, d) =
          (p, l, d.filter (fun e => decide (e.socket_id ≠ s))) := rfl
      by_cases hlen : (d.filter (fun e => decide (e.socket_id ≠ s))).length = 0
      · have hd' : d.filter (fun e => decide (e.socket_id ≠ s)) = [] :=
          List.length_eq_zero.mp hlen
        rw [hd'] at h hsw
        simp only [List.length_nil, if_true, lpfst_remove_at_holder] at h
        obtain ⟨-, hnil, -⟩ := remove_holder_size (.node p l [] lc rc)
        have hrec := mnodes_remove_holder p l [] lc rc
        have htop : Multiset.filter (fun m : ip_addr × Nat × List data_elem => m.2.2 ≠ [])
            (Multiset.map (sweep_payload s) {(p, l, d)}) = 0 := by
          rw [Multiset.map_singleton, hsw, Multiset.filter_singleton]
          simp
        by_cases hrm : (lpfst_remove_holder (.node p l [] lc rc)).2 = []
        · simp only [hrm, if_true, Option.some.injEq, Prod.mk.injEq] at h
          rw [hnil hrm] at hrec
          rw [← h.1, mnodes_node, ← hrec, Multiset.map_add, Multiset.filter_add, htop]
          simp
        · simp only [hrm, if_false] at h
          cases hrec2 : pfx_table_remove_id fuel t
              (lpfst_remove_holder (.node p l [] lc rc)).1 s lvl with
          | none => simp [hrec2] at h
          | some res =>
            obtain ⟨sub'', notes'⟩ := res
            simp only [hrec2, Option.some.injEq, Prod.mk.injEq] at h
            rw [← h.1, ih _ _ _ _ hrec2, hrec, mnodes_node]
            simp only [Multiset.map_add, Multiset.filter_add, htop, zero_add]
      · simp only [hlen, if_false] at h
        have htop : Multiset.filter (fun m : ip_addr × Nat × List data_elem => m.2.2 ≠ [])
            (Multiset.map (sweep_payload s) {(p, l, d)}) =
              {(p, l, d.filter (fun e => decide (e.socket_id ≠ s)))} := by
          have hne : d.filter (fun e => decide (e.socket_id ≠ s)) ≠ [] := by
            intro hc; exact hlen (by rw [hc]; rfl)
          rw [Multiset.map_singleton, hsw, Multiset.filter_singleton]
          exact if_pos hne
        have hchild : ∀ (c c' : lpfst_node) (nc : List update_call),
            (if c.isNull = true then some (c, [])
              else pfx_table_remove_id fuel t c s (lvl + 1)) = some (c', nc) →
            c'.mnodes = (c.mnodes.map (sweep_payload s)).filter (fun m => m.2.2 ≠ []) := by
          intro c c' nc hc
          by_cases hcn : c.isNull = true
          · have : c = .nil := by
              cases c with
              | nil => rfl
              | node _ _ _ _ _ => simp [lpfst_node.isNull] at hcn
            subst this
            simp only [lpfst_node.isNull, if_true, Option.some.injEq, Prod.mk.injEq] at hc
            rw [← hc.1]; simp
          · simp only [hcn, Bool.false_eq_true, if_false] at hc
            exact ih _ _ _ _ hc
        cases hl : (if lc.isNull = true then some (lc, [])
              else pfx_table_remove_id fuel t lc s (lvl + 1)) with
        | none => simp [hl] at h
        | some resl =>
          obtain ⟨lc', nl⟩ := resl
          simp only [hl] at h
          cases hr : (if rc.isNull = true then some (rc, [])
                else pfx_table_remove_id fuel t rc s (lvl + 1)) with
          | none => simp [hr] at h
          | some resr =>
            obtain ⟨rc', nr⟩ := resr
            simp only [hr, Option.some.injEq, Prod.mk.injEq] at h
            rw [← h.1, mnodes_node, mnodes_node, hchild _ _ _ hl, hchild _ _ _ hr]
            simp only [Multiset.map_add, Multiset.filter_add, htop]

/-- The nodes `pfx_table_src_remove` leaves in each trie. -/
theorem pfx_table_src_remove_mnodes (t : pfx_table) (s : Nat) (rv : pfx_rtvals)
    (t' : pfx_table) (n : List update_call)
    (h : pfx_table_src_remove t s = some (rv, t', n)) :
    t'.ipv4.mnodes = (t.ipv4.mnodes.map (sweep_payload s)).filter (fun m => m.2.2 ≠ []) ∧
    t'.ipv6.mnodes = (t.ipv6.mnodes.map (sweep_payload s)).filter (fun m => m.2.2 ≠ []) := by
  have hroot : ∀ (c c' : lpfst_node) (nc : List update_call),
      (if c.isNull = true then some (c, [])
        else pfx_table_remove_id c.size t c s 0) = some (c', nc) →
      c'.mnodes = (c.mnodes.map (sweep_payload s)).filter (fun m => m.2.2 ≠ []) := by
    intro c c' nc hc
    by_cases hcn : c.isNull = true
    · have : c = .nil := by
        cases c with
        | nil => rfl
        | node _ _ _ _ _ => simp [lpfst_node.isNull] at hcn
      subst this
      simp only [lpfst_node.isNull, if_true, Option.some.injEq, Prod.mk.injEq] at hc
      rw [← hc.1]; simp
    · simp only [hcn, Bool.false_eq_true, if_false] at hc
      exact pfx_table_remove_id_mnodes t s _ _ _ _ _ hc
  unfold pfx_table_src_remove at h
  cases h4 : (if t.ipv4.isNull = true then some (t.ipv4, [])
        else pfx_table_remove_id t.ipv4.size t t.ipv4 s 0) with
  | none => simp [h4] at h
  | some r4 =>
    obtain ⟨x4, n4⟩ := r4
    simp only [h4] at h
    cases h6 : (if t.ipv6.isNull = true then some (t.ipv6, [])
          else pfx_table_remove_id t.ipv6.size t t.ipv6 s 0) with
    | none => simp [h6] at h
    | some r6 =>
      obtain ⟨x6, n6⟩ := r6
      simp only [h6, Option.some.injEq, Prod.mk.injEq] at h
      rw [← h.2.1]
      exact ⟨hroot _ _ _ h4, hroot _ _ _ h6⟩

/-! ## Invariants of the reachable stores (C15, C17) -/

/-- A call of `pfx_table_add` that does not return `PFX_SUCCESS` found the node
of the key and leaves the store as it was. -/
theorem pfx_table_add_unchanged (t : pfx_table) (r : pfx_record) (rv : pfx_rtvals)
    (t' : pfx_table) (n : List update_call) (h : pfx_table_add t r = some (rv, t', n)) :
    rv = .PFX_SUCCESS ∨
      (t' = t ∧
        (lpfst_lookup_exact (pfx_table_get_root t r.pfx.ver) r.pfx r.min_len 0).2.2 = true) := by
  unfold pfx_table_add at h
  simp only at h
  split_ifs at h with h1 h2 h3
  · simp only [Option.some.injEq, Prod.mk.injEq] at h
    exact Or.inr ⟨h.2.1.symm, h2⟩
  · simp only [Option.some.injEq, Prod.mk.injEq] at h
    exact Or.inl h.1.symm
  · split at h
    · simp at h
    · simp only [Option.some.injEq, Prod.mk.injEq] at h
      exact Or.inl h.1.symm
  · simp only [Option.some.injEq, Prod.mk.injEq] at h
    exact Or.inl h.1.symm

/-- A call of `pfx_table_remove` that does not return `PFX_SUCCESS` leaves the
store as it was. -/
theorem pfx_table_remove_unchanged (t : pfx_table) (r : pfx_record) (rv : pfx_rtvals)
    (t' : pfx_table) (n : List update_call) (h : pfx_table_remove t r = some (rv, t', n)) :
    rv = .PFX_SUCCESS ∨ t' = t := by
  unfold pfx_table_remove at h
  simp only at h
  split_ifs at h
  · simp only [Option.some.injEq, Prod.mk.injEq] at h
    exact Or.inr h.2.1.symm
  · split at h
    · simp only [Option.some.injEq, Prod.mk.injEq] at h
      exact Or.inr h.2.1.symm
    · split_ifs at h
      · split at h
        · simp at h
        · split_ifs at h <;>
            (simp only [Option.some.injEq, Prod.mk.injEq] at h; exact Or.inl h.1.symm)
      · simp only [Option.some.injEq, Prod.mk.injEq] at h
        exact Or.inl h.1.symm

/-- The stores reached by successful calls on well-formed records are among
the stores reached by any calls. -/
theorem Reachable.byCalls (t : pfx_table) (h : Reachable t) : ReachableByCalls t := by
  induction h with
  | init fp => exact ReachableByCalls.init fp
  | add r _ _ hadd ih => exact ReachableByCalls.add r ih hadd
  | remove r _ _ hrem ih => exact ReachableByCalls.remove r ih hrem
  | src_remove s _ hsrc ih => exact ReachableByCalls.src_remove s ih hsrc

theorem pfx_table_root_cases (Q : lpfst_node → Prop) (t : pfx_table) (v : ip_version)
    (x : lpfst_node) (h4 : Q t.ipv4) (h6 : Q t.ipv6) (hx : Q x) :
    Q (pfx_table_set_root t v x).ipv4 ∧ Q (pfx_table_set_root t v x).ipv6 := by
  cases v <;> simp [pfx_table_set_root, h4, h6, hx]

theorem pfx_table_get_root_cases (Q : lpfst_node → Prop) (t : pfx_table) (v : ip_version)
    (h4 : Q t.ipv4) (h6 : Q t.ipv6) : Q (pfx_table_get_root t v) := by
  cases v <;> simp [pfx_table_get_root, h4, h6]

/-- A successful `pfx_table_add` keeps every record list non-empty and free
of repeated elements. -/
theorem pfx_table_add_good (t : pfx_table) (r : pfx_record) (t' : pfx_table)
    (n : List update_call) (h : pfx_table_add t r = some (.PFX_SUCCESS, t', n))
    (hg : ∀ m ∈ (pfx_table_get_root t r.pfx.ver).mnodes, m.2.2 ≠ [] ∧ m.2.2.Nodup) :
    ∃ x, t' = pfx_table_set_root t r.pfx.ver x ∧ ∀ m ∈ x.mnodes, m.2.2 ≠ [] ∧ m.2.2.Nodup := by
  obtain ⟨x, ht', hx⟩ := pfx_table_add_shape t r t' n h
  refine ⟨x, ht', ?_⟩
  rcases hx with ⟨-, rfl⟩ | ⟨d, lc, rc, -, hsub, hmem, rfl⟩ | ⟨mv, -, hw⟩
  · intro m hm
    simp only [pfx_table_create_node, pfx_table_append_elem, mnodes_node, mnodes_nil,
      add_zero, Multiset.mem_singleton, List.nil_append] at hm
    subst hm
    simp
  · obtain ⟨rest, h1, h2, -⟩ := mnodes_at_path _ _ _ _ _ _ _ hsub
    intro m hm
    rw [h2, mnodes_node] at hm
    rw [h1, mnodes_node] at hg
    simp only [Multiset.mem_add, Multiset.mem_singleton] at hm hg
    rcases hm with (rfl | hm) | hm
    · refine ⟨by simp, ?_⟩
      have hd := (hg (r.pfx, r.min_len, d) (Or.inl (Or.inl rfl))).2
      simp only at hd ⊢
      rw [List.nodup_append]
      exact ⟨hd, by simp, by simpa using hmem⟩
    · exact hg m (Or.inl (Or.inr hm))
    · exact hg m (Or.inr hm)
  · intro m hm
    rw [lpfst_insert_walk_mnodes _ _ _ _ _ _ hw] at hm
    simp only [pfx_table_create_node, pfx_table_append_elem, mnodes_node, mnodes_nil,
      add_zero, Multiset.mem_add, Multiset.mem_singleton, List.nil_append] at hm
    rcases hm with rfl | hm
    · simp
    · exact hg m hm

/-- A successful `pfx_table_remove` keeps every record list non-empty and
free of repeated elements. -/
theorem pfx_table_remove_good (t : pfx_table) (r : pfx_record) (t' : pfx_table)
    (n : List update_call) (h : pfx_table_remove t r = some (.PFX_SUCCESS, t', n))
    (hg : ∀ m ∈ (pfx_table_get_root t r.pfx.ver).mnodes, m.2.2 ≠ [] ∧ m.2.2.Nodup) :
    ∃ x, t' = pfx_table_set_root t r.pfx.ver x ∧ ∀ m ∈ x.mnodes, m.2.2 ≠ [] ∧ m.2.2.Nodup := by
  obtain ⟨x, pre, post, lc, rc, ht', hsub, hx⟩ := pfx_table_remove_shape t r t' n h
  refine ⟨x, ht', ?_⟩
  obtain ⟨rest, h1, h2, -⟩ := mnodes_at_path _ _ _ _ _ _ _ hsub
  rw [h1, mnodes_node] at hg
  simp only [Multiset.mem_add, Multiset.mem_singleton] at hg
  rcases hx with ⟨hne, rfl⟩ | ⟨hpp, sub', rm, hrm, rfl⟩
  · intro m hm
    rw [h2, mnodes_node] at hm
    simp only [Multiset.mem_add, Multiset.mem_singleton] at hm
    rcases hm with (rfl | hm) | hm
    · refine ⟨hne, ?_⟩
      have hd := (hg (r.pfx, r.min_len, pre ++ r.elem :: post) (Or.inl (Or.inl rfl))).2
      simp only at hd ⊢
      exact hd.sublist (by simp)
    · exact hg m (Or.inl (Or.inr hm))
    · exact hg m (Or.inr hm)
  · obtain ⟨-, -, -, hs3, -⟩ := mrecords_at_path _ _ _ _ _ _ _ hsub
    obtain ⟨rest1, g1, -, g3⟩ := mnodes_at_path _ _ _ _ _ _ _ (hs3 [])
    have e1 := h2 []
    rw [g1] at e1
    have hrest : rest1 = rest := add_left_cancel e1
    have hk := mnodes_lpfst_remove _ _ _ _ _ hrm
    rw [mnodes_node] at hk
    -- no node of `sub'` has an empty list: count the empty lists on both sides
    have hcount : Multiset.countP (fun m : ip_addr × Nat × List data_elem => m.2.2 = [])
        sub'.mnodes = 0 := by
      have hc := congrArg (Multiset.countP
        (fun m : ip_addr × Nat × List data_elem => m.2.2 = [])) hk
      have hz : Multiset.countP (fun m : ip_addr × Nat × List data_elem => m.2.2 = [])
          (lc.mnodes + rc.mnodes) = 0 := by
        rw [Multiset.countP_eq_zero]
        intro m hm
        exact (hg m (Or.inl (Or.inr (Multiset.mem_add.mp hm)))).1
      rw [Multiset.singleton_add, Multiset.singleton_add, Multiset.countP_cons,
        Multiset.countP_cons, hz] at hc
      simp only [if_true] at hc
      omega
    intro m hm
    rw [g3, hrest] at hm
    simp only [Multiset.mem_add] at hm
    rcases hm with hm | hm
    · have hne : m.2.2 ≠ [] := (Multiset.countP_eq_zero.mp hcount) m hm
      have hm' : m ∈ ({(r.pfx, r.min_len, ([] : List data_elem))} : Multiset _) +
          (lc.mnodes + rc.mnodes) := by
        rw [hk]; exact Multiset.mem_add.mpr (Or.inr hm)
      simp only [Multiset.mem_add, Multiset.mem_singleton] at hm'
      rcases hm' with rfl | hm'
      · exact absurd rfl hne
      · exact hg m (Or.inl (Or.inr hm'))
    · exact hg m (Or.inr hm)

/-- After `pfx_table_src_remove` every record list is non-empty, and free of
repeated elements when it was before. -/
theorem sweep_good (s : Nat) (M : Multiset (ip_addr × Nat × List data_elem))
    (hg : ∀ m ∈ M, m.2.2 ≠ [] ∧ m.2.2.Nodup) :
    ∀ m ∈ (M.map (sweep_payload s)).filter (fun m => m.2.2 ≠ []),
      m.2.2 ≠ [] ∧ m.2.2.Nodup := by
  intro m hm
  rw [Multiset.mem_filter, Multiset.mem_map] at hm
  obtain ⟨⟨m0, hm0, rfl⟩, hne⟩ := hm
  exact ⟨hne, (hg m0 hm0).2.filter _⟩

/-- Every store reached by `add`, `remove` and `src_remove` calls has only
nodes with a non-empty record list without repeated elements. -/
theorem reachable_good (t : pfx_table) (h : ReachableByCalls t) :
    (∀ m ∈ t.ipv4.mnodes, m.2.2 ≠ [] ∧ m.2.2.Nodup) ∧
    (∀ m ∈ t.ipv6.mnodes, m.2.2 ≠ [] ∧ m.2.2.Nodup) := by
  induction h with
  | init fp => simp [pfx_table_init]
  | @add t0 t1 rv n0 r hr hadd ih =>
    rcases pfx_table_add_unchanged t0 r rv t1 n0 hadd with hrv | ⟨ht, -⟩
    · subst hrv
      obtain ⟨x, rfl, hx⟩ := pfx_table_add_good t0 r t1 n0 hadd
        (pfx_table_get_root_cases (fun c => ∀ m ∈ c.mnodes, m.2.2 ≠ [] ∧ m.2.2.Nodup) _ _
          ih.1 ih.2)
      exact pfx_table_root_cases (fun c => ∀ m ∈ c.mnodes, m.2.2 ≠ [] ∧ m.2.2.Nodup) _ _ _
        ih.1 ih.2 hx
    · rw [ht]
      exact ih
  | @remove t0 t1 rv n0 r hr hrem ih =>
    rcases pfx_table_remove_unchanged t0 r rv t1 n0 hrem with hrv | ht
    · subst hrv
      obtain ⟨x, rfl, hx⟩ := pfx_table_remove_good t0 r t1 n0 hrem
        (pfx_table_get_root_cases (fun c => ∀ m ∈ c.mnodes, m.2.2 ≠ [] ∧ m.2.2.Nodup) _ _
          ih.1 ih.2)
      exact pfx_table_root_cases (fun c => ∀ m ∈ c.mnodes, m.2.2 ≠ [] ∧ m.2.2.Nodup) _ _ _
        ih.1 ih.2 hx
    · rw [ht]
      exact ih
  | @src_remove t0 t1 rv n0 s hr hsrc ih =>
    obtain ⟨h4, h6⟩ := pfx_table_src_remove_mnodes _ s _ _ _ hsrc
    rw [h4, h6]
    exact ⟨sweep_good s _ ih.1, sweep_good s _ ih.2⟩

/-- C15: in every store reached from an empty store by any sequence of add /
remove / source_remove calls, whatever they return, every live trie node (of
either trie) has a non-empty record list. -/
theorem C15_reachable_nodes_non_empty (t : pfx_table) (h : ReachableByCalls t) :
    ∀ m ∈ t.nodes, m.2.2 ≠ [] := by
  intro m hm
  simp only [pfx_table.nodes, List.mem_append] at hm
  rcases hm with hm | hm
  · exact ((reachable_good t h).1 m ((mem_mnodes _ _).mpr hm)).1
  · exact ((reachable_good t h).2 m ((mem_mnodes _ _).mpr hm)).1

/-- C15 (witness): the node of 10.0.0.0/8 in the store reached by adding
10.1.0.0/16 and 10.0.0.0/8. -/
theorem C15_reachable_nodes_non_empty_witness :
    ((⟨.IPV4, 167772160⟩, 8, [⟨64500, 8, 1⟩]) : ip_addr × Nat × List data_elem) ∈
        ex_store_16_8.nodes ∧
      ([⟨64500, 8, 1⟩] : List data_elem) ≠ [] :=
  ⟨by decide,
    C15_reachable_nodes_non_empty ex_store_16_8
      (ReachableByCalls.add ex_rec_8
        (ReachableByCalls.add ex_rec_16 (ReachableByCalls.init true)
          (show pfx_table_add (pfx_table_init true) ex_rec_16 =
            some (.PFX_SUCCESS, ex_store_16, [(ex_rec_16, true)]) by decide))
        (show pfx_table_add ex_store_16 ex_rec_8 =
          some (.PFX_SUCCESS, ex_store_16_8, [(ex_rec_8, true)]) by decide))
      (⟨.IPV4, 167772160⟩, 8, [⟨64500, 8, 1⟩]) (by decide)⟩

/-- C17: in every store reached from an empty store by any sequence of add /
remove / source_remove calls, whatever they return, within every trie node no
two elements of the record list share the same (asn, max_len, source_id)
triple: the list has no element twice, an element being that triple. -/
theorem C17_reachable_no_duplicate_elems (t : pfx_table) (h : ReachableByCalls t) :
    ∀ m ∈ t.nodes, m.2.2.Nodup ∧
      ∀ (i j : Nat) (hi : i < m.2.2.length) (hj : j < m.2.2.length),
        (m.2.2[i].asn = m.2.2[j].asn ∧ m.2.2[i].max_len = m.2.2[j].max_len ∧
          m.2.2[i].socket_id = m.2.2[j].socket_id) → i = j := by
  intro m hm
  have hnd : m.2.2.Nodup := by
    simp only [pfx_table.nodes, List.mem_append] at hm
    rcases hm with hm | hm
    · exact ((reachable_good t h).1 m ((mem_mnodes _ _).mpr hm)).2
    · exact ((reachable_good t h).2 m ((mem_mnodes _ _).mpr hm)).2
  refine ⟨hnd, ?_⟩
  intro i j hi hj heq
  have he : m.2.2[i] = m.2.2[j] := by
    cases hx : m.2.2[i]
    cases hy : m.2.2[j]
    rw [hx, hy] at heq
    simp only at heq
    obtain ⟨h1, h2, h3⟩ := heq
    subst h1 h2 h3
    rfl
  exact (List.Nodup.getElem_inj_iff hnd).mp he

/-- C17 (witness): the node of the store reached by adding 10.0.0.0/8 from
source 1 and from source 2. -/
theorem C17_reachable_no_duplicate_elems_witness :
    ((⟨.IPV4, 167772160⟩, 8, [⟨64500, 8, 1⟩, ⟨64500, 8, 2⟩]) :
        ip_addr × Nat × List data_elem) ∈ ex_store_8_8b.nodes ∧
      ([⟨64500, 8, 1⟩, ⟨64500, 8, 2⟩] : List data_elem).Nodup :=
  ⟨by decide,
    (C17_reachable_no_duplicate_elems ex_store_8_8b
      (ReachableByCalls.add ex_rec_8b
        (ReachableByCalls.add ex_rec_8 (ReachableByCalls.init true)
          (show pfx_table_add (pfx_table_init true) ex_rec_8 =
            some (.PFX_SUCCESS, ex_store_8, [(ex_rec_8, true)]) by decide))
        (show pfx_table_add ex_store_8 ex_rec_8b =
          some (.PFX_SUCCESS, ex_store_8_8b, [(ex_rec_8b, true)]) by decide))
      (⟨.IPV4, 167772160⟩, 8, [⟨64500, 8, 1⟩, ⟨64500, 8, 2⟩]) (by decide)).1⟩

/-! ## The keys of the nodes -/

/-- The records of a trie are the elements of its nodes under the keys of the
nodes. -/
theorem mem_records_iff_nodes (r : pfx_record) :
    ∀ t : lpfst_node, r ∈ t.records ↔
      ∃ m ∈ t.nodes, r.elem ∈ m.2.2 ∧ m.1 = r.pfx ∧ m.2.1 = r.min_len := by
  intro t
  induction t with
  | nil => simp [lpfst_node.records, lpfst_node.nodes]
  | node p l d lc rc ihl ihr =>
    simp only [lpfst_node.records, lpfst_node.nodes, List.mem_append, List.mem_map,
      List.mem_cons, ihl, ihr, data_elem.record_eq_iff]
    constructor
    · rintro (⟨e, he, rfl, h2, h3⟩ | ⟨m, hm, h⟩ | ⟨m, hm, h⟩)
      · exact ⟨(p, l, d), Or.inl rfl, he, h2, h3⟩
      · exact ⟨m, Or.inr (Or.inl hm), h⟩
      · exact ⟨m, Or.inr (Or.inr hm), h⟩
    · rintro ⟨m, (rfl | hm | hm), h⟩
      · exact Or.inl ⟨r.elem, h.1, rfl, h.2.1, h.2.2⟩
      · exact Or.inr (Or.inl ⟨m, hm, h⟩)
      · exact Or.inr (Or.inr ⟨m, hm, h⟩)

/-! ## Validation on a trie with the bit discipline (C1, C2, C3) -/

theorem keys_node (p : ip_addr) (l : Nat) (d : List data_elem) (lc rc : lpfst_node) :
    (lpfst_node.node p l d lc rc).keys = (p, l) :: (lc.keys ++ rc.keys) := by
  simp [lpfst_node.keys, lpfst_node.nodes]

theorem mem_keys_of_mem_nodes {t : lpfst_node} {p : ip_addr} {l : Nat} {d : List data_elem}
    (h : (p, l, d) ∈ t.nodes) : (p, l) ∈ t.keys :=
  List.mem_map.mpr ⟨(p, l, d), h, rfl⟩

/-- In a trie with the bit discipline and without two nodes of one key,
`lpfst_lookup_exact` finds the node of every key the trie holds. -/
theorem lpfst_lookup_exact_shaped {p : ip_addr} {l : Nat} {d : List data_elem} :
    ∀ (t : lpfst_node) (lvl : Nat), t.shaped lvl = true → t.keys.Nodup →
      (p, l, d) ∈ t.nodes →
      (lpfst_lookup_exact t p l lvl).2.2 = true ∧
      ∃ lc rc, t.sub (lpfst_lookup_exact t p l lvl).1 = .node p l d lc rc := by
  intro t
  induction t with
  | nil => intro lvl _ _ hm; simp [lpfst_node.nodes] at hm
  | node p0 l0 d0 lc rc ihl ihr =>
    intro lvl hs hu hm
    simp only [lpfst_node.shaped, Bool.and_eq_true, List.all_eq_true, decide_eq_true_eq] at hs
    obtain ⟨⟨⟨hl, hr⟩, hsl⟩, hsr⟩ := hs
    rw [keys_node, List.nodup_cons, List.nodup_append] at hu
    obtain ⟨hnot, hul, hur, -⟩ := hu
    simp only [lpfst_node.nodes, List.mem_cons, List.mem_append] at hm
    by_cases hkey : p0 = p ∧ l0 = l
    · obtain ⟨rfl, rfl⟩ := hkey
      have hd : d = d0 := by
        rcases hm with h | h | h
        · simp only [Prod.mk.injEq, true_and] at h; exact h
        · exact absurd (List.mem_append_left _ (mem_keys_of_mem_nodes h)) hnot
        · exact absurd (List.mem_append_right _ (mem_keys_of_mem_nodes h)) hnot
      subst hd
      simp [lpfst_lookup_exact, lpfst_node.sub]
    · rcases hm with h | h | h
      · simp only [Prod.mk.injEq] at h
        exact absurd ⟨h.1.symm, h.2.1.symm⟩ hkey
      · obtain ⟨h1, h2⟩ := hl _ h
        have hnn : lc.isNull = false := by
          cases lc with
          | nil => simp [lpfst_node.nodes] at h
          | node _ _ _ _ _ => rfl
        obtain ⟨g1, lc', rc', g2⟩ := ihl (lvl + 1) hsl hul h
        have hlk : lpfst_lookup_exact (.node p0 l0 d0 lc rc) p l lvl =
            (false :: (lpfst_lookup_exact lc p l (lvl + 1)).1,
              (lpfst_lookup_exact lc p l (lvl + 1)).2.1,
              (lpfst_lookup_exact lc p l (lvl + 1)).2.2) := by
          simp [lpfst_lookup_exact, hkey, Nat.not_le.mpr h1, h2, hnn]
        rw [hlk]
        exact ⟨g1, lc', rc', by simpa [lpfst_node.sub] using g2⟩
      · obtain ⟨h1, h2⟩ := hr _ h
        have hnn : rc.isNull = false := by
          cases rc with
          | nil => simp [lpfst_node.nodes] at h
          | node _ _ _ _ _ => rfl
        obtain ⟨g1, lc', rc', g2⟩ := ihr (lvl + 1) hsr hur h
        have hlk : lpfst_lookup_exact (.node p0 l0 d0 lc rc) p l lvl =
            (true :: (lpfst_lookup_exact rc p l (lvl + 1)).1,
              (lpfst_lookup_exact rc p l (lvl + 1)).2.1,
              (lpfst_lookup_exact rc p l (lvl + 1)).2.2) := by
          simp [lpfst_lookup_exact, hkey, Nat.not_le.mpr h1, h2, hnn]
        rw [hlk]
        exact ⟨g1, lc', rc', by simpa [lpfst_node.sub] using g2⟩

/-- C6: for every store and every record r that the trie of r's version does
not hold (no allocation failing), `pfx_table_add(r)` returns OK and reports r
once as added; the records of that trie afterwards are the previous ones plus
r, so every previous record is still there; r is stored under a node keyed
(r.prefix, r.min_len); the other trie is untouched; and on a well-formed trie
(bit discipline, no two nodes of one key) that holds a node keyed
(r.prefix, r.min_len), i.e. a record that differs from r only in asn, max_len
or source_id, the element of r is appended to the list of that same node and
nothing else changes. -/
theorem C6_add_new_record (t : pfx_table) (r : pfx_record)
    (hnew : r ∉ (pfx_table_get_root t r.pfx.ver).records) :
    ∃ t' : pfx_table,
      pfx_table_add t r = some (.PFX_SUCCESS, t', pfx_table_notify_clients t r true) ∧
      List.Perm (pfx_table_get_root t' r.pfx.ver).records
        (r :: (pfx_table_get_root t r.pfx.ver).records) ∧
      (∃ m ∈ (pfx_table_get_root t' r.pfx.ver).nodes,
        m.1 = r.pfx ∧ m.2.1 = r.min_len ∧ r.elem ∈ m.2.2) ∧
      (∀ w, w ≠ r.pfx.ver → pfx_table_get_root t' w = pfx_table_get_root t w) ∧
      (∀ d, (pfx_table_get_root t r.pfx.ver).shaped 0 = true →
        (pfx_table_get_root t r.pfx.ver).keys.Nodup →
        (r.pfx, r.min_len, d) ∈ (pfx_table_get_root t r.pfx.ver).nodes →
        ∃ path lc rc,
          (pfx_table_get_root t r.pfx.ver).sub path = .node r.pfx r.min_len d lc rc ∧
          pfx_table_get_root t' r.pfx.ver =
            (pfx_table_get_root t r.pfx.ver).setData path (d ++ [r.elem])) := by
  obtain ⟨rv, t', n, hres⟩ := pfx_table_add_total t r
  rcases pfx_table_add_result t r rv t' n hres with ⟨-, -, -, hf, hmem⟩ | ⟨rfl, x, rfl, hm, rfl⟩
  · exfalso
    obtain ⟨d, lc, rc, hsub⟩ := lpfst_lookup_exact_found _ _ hf
    obtain ⟨rest, h1, -, -, -⟩ := mrecords_at_path _ _ _ _ _ _ _ hsub
    apply hnew
    rw [← mem_mrecords, h1, mrecords_node]
    rw [hsub] at hmem
    simp only [Multiset.mem_add]
    exact Or.inl (Or.inl ((mem_node_records _ _ _ _).mpr ⟨hmem, rfl, rfl⟩))
  · have hperm : List.Perm x.records (r :: (pfx_table_get_root t r.pfx.ver).records) :=
      perm_cons_of_mrecords hm
    refine ⟨_, hres, ?_, ?_, ?_, ?_⟩
    · rw [pfx_table_get_set_root]
      exact hperm
    · rw [pfx_table_get_set_root]
      obtain ⟨m, hm1, he, h1, h2⟩ :=
        (mem_records_iff_nodes r x).mp (hperm.mem_iff.mpr (List.mem_cons_self _ _))
      exact ⟨m, hm1, h1, h2, he⟩
    · intro w hw
      exact pfx_table_get_set_root_ne _ _ _ _ hw
    · intro d hs hu hd
      obtain ⟨hf, lc, rc, hsub⟩ := lpfst_lookup_exact_shaped _ 0 hs hu hd
      refine ⟨_, lc, rc, hsub, ?_⟩
      obtain ⟨x', hx', hcase⟩ := pfx_table_add_shape t r _ _ hres
      have hxx : x' = x := by
        have := congrArg (fun s => pfx_table_get_root s r.pfx.ver) hx'
        simpa using this.symm
      subst hxx
      rw [pfx_table_get_set_root]
      rcases hcase with ⟨hnil, -⟩ | ⟨d', lc', rc', -, hsub', -, hx⟩ | ⟨mv, hf', -⟩
      · rw [hnil] at hd
        simp [lpfst_node.nodes] at hd
      · rw [hsub] at hsub'
        simp only [lpfst_node.node.injEq, true_and] at hsub'
        rw [hx, hsub'.1]
      · rw [hf] at hf'
        cases hf'

/-- C6 (witness): the store that holds 10.1.0.0/16 does not hold 10.0.0.0/8;
the addition returns OK and the records afterwards are the new record and the
old ones. -/
theorem C6_add_new_record_witness :
    ∃ t' : pfx_table,
      pfx_table_add ex_store_16 ex_rec_8 =
        some (.PFX_SUCCESS, t', pfx_table_notify_clients ex_store_16 ex_rec_8 true) ∧
      List.Perm (pfx_table_get_root t' ex_rec_8.pfx.ver).records
        (ex_rec_8 :: (pfx_table_get_root ex_store_16 ex_rec_8.pfx.ver).records) := by
  obtain ⟨t', h1, h2, -⟩ := C6_add_new_record ex_store_16 ex_rec_8 (by decide)
  exact ⟨t', h1, h2⟩

/-! ## Uniqueness of the keys on tries with the bit discipline (C16) -/

/-- Two addresses of one version that fit the width and have the same bits
are equal. -/
theorem ip_addr.eq_of_bits (a b : ip_addr) (hv : a.ver = b.ver)
    (ha : a.addr < 2 ^ a.ver.width) (hb : b.addr < 2 ^ b.ver.width)
    (h : ∀ i, a.bit i = b.bit i) : a = b := by
  obtain ⟨av, x⟩ := a
  obtain ⟨bv, y⟩ := b
  simp only at hv ha hb
  subst hv
  simp only [ip_addr.mk.injEq, true_and]
  apply Nat.eq_of_testBit_eq
  intro j
  by_cases hj : j < av.width
  · have hb' := h (av.width - 1 - j)
    have hlt : av.width - 1 - j < av.width := by omega
    have he : av.width - 1 - (av.width - 1 - j) = j := by omega
    simp only [ip_addr.bit, hlt, if_true, he] at hb'
    rw [Nat.testBit_to_div_mod, Nat.testBit_to_div_mod, hb']
  · have h1 : x < 2 ^ j := lt_of_lt_of_le ha (Nat.pow_le_pow_right (by decide) (by omega))
    have h2 : y < 2 ^ j := lt_of_lt_of_le hb (Nat.pow_le_pow_right (by decide) (by omega))
    rw [Nat.testBit_lt_two_pow h1, Nat.testBit_lt_two_pow h2]

/-- Under the order of the spec the node on top has the smallest `len` of its
subtree. -/
theorem spec_shape_min :
    ∀ (t : lpfst_node) (lvl : Nat), t.spec_shape lvl = true →
      ∀ m ∈ t.nodes, t.getLen ≤ m.2.1 := by
  intro t
  induction t with
  | nil => intro lvl _ m hm; simp [lpfst_node.nodes] at hm
  | node p l d lc rc ihl ihr =>
    intro lvl hs m hm
    simp only [lpfst_node.spec_shape, Bool.and_eq_true, Bool.or_eq_true, decide_eq_true_eq]
      at hs
    obtain ⟨⟨⟨⟨⟨hol, hor⟩, -⟩, -⟩, hsl⟩, hsr⟩ := hs
    simp only [lpfst_node.nodes, List.mem_cons, List.mem_append] at hm
    simp only [lpfst_node.getLen]
    rcases hm with rfl | hm | hm
    · exact le_rfl
    · have hnn : lc.isNull = false := by
        cases lc with
        | nil => simp [lpfst_node.nodes] at hm
        | node _ _ _ _ _ => rfl
      rcases hol with h | h
      · rw [hnn] at h; cases h
      · exact le_trans h (ihl _ hsl m hm)
    · have hnn : rc.isNull = false := by
        cases rc with
        | nil => simp [lpfst_node.nodes] at hm
        | node _ _ _ _ _ => rfl
      rcases hor with h | h
      · rw [hnn] at h; cases h
      · exact le_trans h (ihr _ hsr m hm)

/-- The invariants of spec 8.1 as written (Shape with `n.len ≥ p.len`,
Uniqueness) on prefixes as spec 3 wants them give the bit discipline
`lpfst_node.shaped` for the subtree at depth `lvl`, when all nodes of the
subtree share their first `lvl` bits and have a `len` of at least `lvl`. -/
theorem shaped_of_spec_shape (v : ip_version) :
    ∀ (t : lpfst_node) (lvl : Nat), t.spec_shape lvl = true → t.keys.Nodup →
      (∀ m ∈ t.nodes, node_pfx_wf v m) →
      (∀ m ∈ t.nodes, ∀ m' ∈ t.nodes, ∀ i, i < lvl → m.1.bit i = m'.1.bit i) →
      (∀ m ∈ t.nodes, lvl ≤ m.2.1) →
      t.shaped lvl = true := by
  intro t
  induction t with
  | nil => intro lvl _ _ _ _ _; rfl
  | node p l d lc rc ihl ihr =>
    intro lvl hs hu hwf hag hlen
    have hmin := spec_shape_min _ lvl hs
    simp only [lpfst_node.spec_shape, Bool.and_eq_true, Bool.or_eq_true, decide_eq_true_eq,
      List.all_eq_true] at hs
    obtain ⟨⟨⟨⟨⟨-, -⟩, hbl⟩, hbr⟩, hsl⟩, hsr⟩ := hs
    rw [keys_node, List.nodup_cons, List.nodup_append] at hu
    obtain ⟨hnot, hul, hur, -⟩ := hu
    have htop : (p, l, d) ∈ (lpfst_node.node p l d lc rc).nodes := by
      simp [lpfst_node.nodes]
    have hsubl : ∀ m ∈ lc.nodes, m ∈ (lpfst_node.node p l d lc rc).nodes := by
      intro m hm; simp [lpfst_node.nodes, hm]
    have hsubr : ∀ m ∈ rc.nodes, m ∈ (lpfst_node.node p l d lc rc).nodes := by
      intro m hm; simp [lpfst_node.nodes, hm]
    -- a node below the top with `len = lvl` would have the key of the top
    have hstrict : ∀ m ∈ (lpfst_node.node p l d lc rc).nodes,
        (m.1, m.2.1) ∈ lc.keys ++ rc.keys → lvl < m.2.1 := by
      intro m hm hk
      by_contra hc
      have h1 : m.2.1 = lvl := le_antisymm (by omega) (hlen m hm)
      have h2 : l = lvl := by
        have := hmin m hm
        simp only [lpfst_node.getLen] at this
        have := hlen _ htop
        simp only at this
        omega
      have hpe : p = m.1 := by
        obtain ⟨hv1, ha1, hz1⟩ := hwf _ htop
        obtain ⟨hv2, ha2, hz2⟩ := hwf m hm
        simp only at hv1 ha1 hz1
        apply ip_addr.eq_of_bits
        · rw [hv1, hv2]
        · rw [hv1]; exact ha1
        · rw [hv2]; exact ha2
        · intro i
          by_cases hi : i < lvl
          · exact hag _ htop m hm i hi
          · rw [hz1 i (by omega), hz2 i (by omega)]
      apply hnot
      rw [hpe, h2, ← h1]
      exact hk
    have hkl : ∀ m ∈ lc.nodes, (m.1, m.2.1) ∈ lc.keys ++ rc.keys := by
      intro m hm
      exact List.mem_append_left _ (List.mem_map.mpr ⟨m, hm, rfl⟩)
    have hkr : ∀ m ∈ rc.nodes, (m.1, m.2.1) ∈ lc.keys ++ rc.keys := by
      intro m hm
      exact List.mem_append_right _ (List.mem_map.mpr ⟨m, hm, rfl⟩)
    simp only [lpfst_node.shaped, Bool.and_eq_true, List.all_eq_true, decide_eq_true_eq]
    refine ⟨⟨⟨?_, ?_⟩, ?_⟩, ?_⟩
    · intro m hm
      exact ⟨hstrict m (hsubl m hm) (hkl m hm), hbl m hm⟩
    · intro m hm
      exact ⟨hstrict m (hsubr m hm) (hkr m hm), hbr m hm⟩
    · apply ihl (lvl + 1) hsl hul (fun m hm => hwf m (hsubl m hm))
      · intro m hm m' hm' i hi
        by_cases hi' : i < lvl
        · exact hag m (hsubl m hm) m' (hsubl m' hm') i hi'
        · have : i = lvl := by omega
          subst this
          rw [hbl m hm, hbl m' hm']
      · intro m hm
        exact hstrict m (hsubl m hm) (hkl m hm)
    · apply ihr (lvl + 1) hsr hur (fun m hm => hwf m (hsubr m hm))
      · intro m hm m' hm' i hi
        by_cases hi' : i < lvl
        · exact hag m (hsubr m hm) m' (hsubr m' hm') i hi'
        · have : i = lvl := by omega
          subst this
          rw [hbr m hm, hbr m' hm']
      · intro m hm
        exact hstrict m (hsubr m hm) (hkr m hm)

/-- A trie that has the Shape and Uniqueness invariants of spec 8.1 as they
are written, on prefixes as spec 3 wants them, has the bit discipline
`lpfst_node.shaped` under which the lookups are characterised. -/
theorem shaped_of_spec_invariants (v : ip_version) (t : lpfst_node)
    (hs : t.spec_shape 0 = true) (hu : t.keys.Nodup) (hwf : ∀ m ∈ t.nodes, node_pfx_wf v m) :
    t.shaped 0 = true :=
  shaped_of_spec_shape v t 0 hs hu hwf (fun _ _ _ _ i hi => absurd hi (Nat.not_lt_zero i))
    (fun _ _ => Nat.zero_le _)

end Rtrlib
